import Mathlib

/-!
# binary2compressed: the stb-style LZ compressor

A shallow embedding of `src/binary2compressed.cpp` (functions `stb::adler32`,
`matchLength`, `stb::out`, `stb::shiftOut`, `outLiterals`, `stb_not_crap`,
`stb::compressChunk`, `stb::compressInner`, `stb::compress`).

Conventions of the embedding

* The input buffer is a `List UInt8`; a pointer into it is a `Nat` index.
  A read outside the list yields `0`.
* `std::uint32_t` values are `Nat` reduced `% 4294967296` where the source can
  wrap; `int` values that can be negative (`length` inside `compressChunk`,
  `dist`) are `Int`.
* The destination buffer is the list of bytes stored through the cursor
  `stb__out` since `compress` set it; every store appends one byte.
  `compress` always sets `stb__out` to the destination, so the `fputc` branch
  of `stb::out` is not taken and is not modelled.
* `assert` is not an operation of the model (it has no effect in a release
  build); the asserted conditions are stated as theorems where needed.
* `malloc` of the hash table is taken to succeed.
* Loops are structural recursions on a fuel argument; each loop comes with a
  lemma that the fuel it is started with is never exhausted.
-/

namespace stb

/-! ## File-scope state -/

/-- File-scope mutable state: the bytes stored through `stb__out`,
`stb__outbytes` and `stb__running_adler`. -/
structure Globals where
  out : List Nat
  outbytes : Nat
  running_adler : Nat

/-- `static int stb__window = 0x40000;` -/
def stb__window : Int := 0x40000

/-- `static std::uint32_t stb__hashsize = 32768;` -/
def stb__hashsize : Nat := 32768

/-- Conversion of a `std::uint32_t` value to `int` (two's complement). -/
def toInt32 (v : Nat) : Int :=
  if v % 4294967296 < 2147483648 then ((v % 4294967296 : Nat) : Int)
  else ((v % 4294967296 : Nat) : Int) - 4294967296

/-- Conversion of an `int` (or pointer difference) to `std::uint32_t`. -/
def toUInt32 (v : Int) : Nat := (v % 4294967296).toNat

/-- The byte at index `i` of the buffer. -/
def rd (input : List UInt8) (i : Nat) : Nat := (input.getD i 0).toNat

/-! ## `stb::adler32` -/

/-- One `s1 += byte; s2 += s1;` on the two 32-bit accumulators. -/
def adlerStep (s : Nat × Nat) (b : Nat) : Nat × Nat :=
  let s1 := (s.1 + b) % 4294967296
  (s1, (s.2 + s1) % 4294967296)

/-- The inner `for (int j = 0; j < 8; ++j)` over `buffer[0..8)`. -/
def adler8 (buffer : List UInt8) (s : Nat × Nat) : Nat × Nat :=
  (List.range 8).foldl (fun s j => adlerStep s (rd buffer j)) s

/-- The loop `for (i = 0; i + 7 < blockLength; i += 8)`; returns `i`, the
accumulators and the advanced buffer pointer. -/
def adlerLoop8 : Nat → Nat → Nat → Nat × Nat → List UInt8 → Nat × (Nat × Nat) × List UInt8
  | 0, _, i, s, buffer => (i, s, buffer)
  | fuel + 1, blockLength, i, s, buffer =>
    if i + 7 < blockLength then
      adlerLoop8 fuel blockLength (i + 8) (adler8 buffer s) (buffer.drop 8)
    else (i, s, buffer)

/-- The loop `for (; i < blockLength; ++i)`. -/
def adlerLoop1 : Nat → Nat → Nat → Nat × Nat → List UInt8 → (Nat × Nat) × List UInt8
  | 0, _, _, s, buffer => (s, buffer)
  | fuel + 1, blockLength, i, s, buffer =>
    if i < blockLength then
      adlerLoop1 fuel blockLength (i + 1) (adlerStep s (rd buffer 0)) (buffer.drop 1)
    else (s, buffer)

/-- The loop `while (bufferLength != 0)`. -/
def adlerWhile : Nat → Nat → Nat → Nat × Nat → List UInt8 → Nat × Nat
  | 0, _, _, s, _ => s
  | fuel + 1, bufferLength, blockLength, s, buffer =>
    if bufferLength ≠ 0 then
      let r8 := adlerLoop8 blockLength blockLength 0 s buffer
      let r1 := adlerLoop1 blockLength blockLength r8.1 r8.2.1 r8.2.2
      let s1 := r1.1.1 % 65521
      let s2 := r1.1.2 % 65521
      adlerWhile fuel (bufferLength - blockLength) 5552 (s1, s2) r1.2
    else s

/-- `stb::adler32(adler32, buffer, bufferLength)`. -/
def adler32 (adler : Nat) (buffer : List UInt8) (bufferLength : Nat) : Nat :=
  let adler := adler % 4294967296
  let bufferLength := bufferLength % 4294967296
  let blockLength := bufferLength % 5552
  let s1 := adler &&& 0xFFFF
  let s2 := adler >>> 16
  let s := adlerWhile (bufferLength / 5552 + 2) bufferLength blockLength (s1, s2) buffer
  ((s.2 <<< 16) + s.1) % 4294967296

/-! ## `matchLength` -/

/-- The loop of `matchLength`: `rem` iterations remain, `i` is the counter. -/
def matchLengthLoop (input : List UInt8) (m1 m2 : Nat) : Nat → Nat → Nat
  | 0, i => i
  | rem + 1, i =>
    if rd input (m1 + i) ≠ rd input (m2 + i) then i
    else matchLengthLoop input m1 m2 rem (i + 1)

/-- `matchLength(m1, m2, maxLength)`. -/
def matchLength (input : List UInt8) (m1 m2 maxLength : Nat) : Nat :=
  matchLengthLoop input m1 m2 maxLength 0

/-! ## Output primitives -/

/-- `stb::out(v)`: store `static_cast<std::uint8_t>(v)` and advance the cursor. -/
def out (g : Globals) (v : Nat) : Globals :=
  { g with out := g.out ++ [v % 256] }

/-- `stb::shiftOut(v, level)`. -/
def shiftOut (g : Globals) (v : Nat) (level : Nat) : Globals :=
  let g := if level ≥ 2 then out g (v >>> 24) else g
  let g := if level ≥ 1 then out g (v >>> 16) else g
  let g := out g (v >>> 8)
  out g v

/-- The part of `outLiterals` after its `while` loop: the length prefix and
the `memcpy` of `numlit` bytes from `in`. -/
def outLiteralsBlock (g : Globals) (input : List UInt8) (inp numlit : Nat) : Globals :=
  let g :=
    if numlit = 0 then g
    else if numlit ≤ 32 then out g (0x000020 + numlit - 1)
    else if numlit ≤ 2048 then shiftOut g (0x000800 + numlit - 1) 0
    else shiftOut g (0x070000 + numlit - 1) 1
  { g with out := g.out ++ (List.range numlit).map (fun i => rd input (inp + i)) }

/-- The loop `while (numlit > 65536)` of `outLiterals`; the recursive call
`outLiterals(in, 65536)` skips its own loop and is `outLiteralsBlock`. -/
def outLiteralsLoop (input : List UInt8) : Nat → Globals → Nat → Nat → Globals × Nat × Nat
  | 0, g, inp, numlit => (g, inp, numlit)
  | fuel + 1, g, inp, numlit =>
    if numlit > 65536 then
      outLiteralsLoop input fuel (outLiteralsBlock g input inp 65536) (inp + 65536)
        (numlit - 65536)
    else (g, inp, numlit)

/-- `outLiterals(in, numlit)`. -/
def outLiterals (g : Globals) (input : List UInt8) (inp numlit : Nat) : Globals :=
  let r := outLiteralsLoop input (numlit / 65536) g inp numlit
  outLiteralsBlock r.1 input r.2.1 r.2.2

/-! ## Match acceptance -/

/-- `stb_not_crap(best, dist)`. -/
def stb_not_crap (best : Nat) (dist : Int) : Bool :=
  (decide (best > 2) && decide (dist ≤ 0x00100)) ||
  (decide (best > 5) && decide (dist ≤ 0x04000)) ||
  (decide (best > 7) && decide (dist ≤ 0x80000))

/-- The macro `stb__nc(b,d)`, with `window` the local copy of `stb__window`. -/
def stb__nc (window : Int) (b : Nat) (d : Int) : Bool :=
  decide (d ≤ window) && (decide (b > 9) || stb_not_crap b d)

/-- The macro `stb__hc3(q,c,d,e)`. -/
def stb__hc3 (input : List UInt8) (q c d e : Nat) : Nat :=
  (rd input (q + c) <<< 14) + (rd input (q + d) <<< 7) + rd input (q + e)

/-- The macro `stb__hc2(q,h,c,d)` on the 32-bit `h`. -/
def stb__hc2 (input : List UInt8) (q h c d : Nat) : Nat :=
  ((h <<< 14) + (h >>> 18) + (rd input (q + c) <<< 7) + rd input (q + d)) % 4294967296

/-- The lambda `scramble` of `compressChunk`: `(h + (h >> 16) & mask)`, where
`+` binds tighter than `&`. -/
def scramble (mask h : Nat) : Nat :=
  ((h + (h >>> 16)) % 4294967296) &&& mask

/-- The macro `STB__TRY(t,p)` acting on the pair `(best, dist)`. -/
def STB__TRY (input : List UInt8) (window : Int) (q match_max t : Nat) (p : Bool)
    (bd : Nat × Int) : Nat × Int :=
  if (if p then bd.2 ≠ (q : Int) - (t : Int) else True) then
    let m := matchLength input t q match_max
    if m > bd.1 then
      if stb__nc window m ((q : Int) - (t : Int)) then (m, (q : Int) - (t : Int)) else bd
    else bd
  else bd

/-- The statement `t = cHash[h]; if (t) STB__TRY(t, p);`. -/
def probe (input : List UInt8) (window : Int) (cHash : Nat → Option Nat)
    (q match_max h : Nat) (p : Bool) (bd : Nat × Int) : Nat × Int :=
  match cHash h with
  | some t => STB__TRY input window q match_max t p bd
  | none => bd

/-- The four table indices `h1, h2, h3, h4` computed at the cursor `q`. -/
def hashes (input : List UInt8) (mask q : Nat) : Nat × Nat × Nat × Nat :=
  let h := stb__hc3 input q 0 1 2
  let h1 := scramble mask h
  let h := stb__hc2 input q h 3 4
  let h2 := scramble mask h
  let h := stb__hc2 input q h 5 6
  let h := stb__hc2 input q h 7 8
  let h3 := scramble mask h
  let h := stb__hc2 input q h 9 10
  let h := stb__hc2 input q h 11 12
  let h4 := scramble mask h
  (h1, h2, h3, h4)

/-- The value of `match_max` at the cursor `q`. -/
def matchMax (endp q : Nat) : Nat :=
  if q + 65536 > endp then endp - q else 65536

/-- The pair `(best, dist)` after the four probes, starting from
`best = 2, dist = 0`. -/
def findBest (input : List UInt8) (endp : Nat) (cHash : Nat → Option Nat) (mask q : Nat) :
    Nat × Int :=
  let window := stb__window
  let match_max := matchMax endp q
  let hs := hashes input mask q
  let bd := probe input window cHash q match_max hs.1 false (2, 0)
  let bd := probe input window cHash q match_max hs.2.1 true bd
  let bd := probe input window cHash q match_max hs.2.2.1 true bd
  probe input window cHash q match_max hs.2.2.2 true bd

/-- The assignment `cHash[h] = q`. -/
def setHash (cHash : Nat → Option Nat) (h q : Nat) : Nat → Option Nat :=
  fun i => if i = h then some q else cHash i

/-- The local state of the scanning loop of `compressChunk`. -/
structure ChunkState where
  g : Globals
  cHash : Nat → Option Nat
  q : Nat
  lit_start : Nat

/-- One iteration of the `while` loop of `compressChunk`. -/
def chunkBody (input : List UInt8) (endp mask : Nat) (s : ChunkState) : ChunkState :=
  let q := s.q
  let lit_start := s.lit_start
  let bd := findBest input endp s.cHash mask q
  let best := bd.1
  let dist := bd.2
  let hs := hashes input mask q
  let cHash := setHash (setHash (setHash (setHash s.cHash hs.2.2.2 q) hs.2.2.1 q) hs.2.1 q) hs.1 q
  if best < 3 then
    { s with cHash := cHash, q := q + 1 }
  else if best > 2 ∧ best ≤ 0x80 ∧ dist ≤ 0x100 then
    let g := outLiterals s.g input lit_start (q - lit_start)
    let q := q + best
    let g := out g (0x80 + best - 1)
    let g := out g (toUInt32 (dist - 1))
    { g := g, cHash := cHash, q := q, lit_start := q }
  else if best > 5 ∧ best ≤ 0x100 ∧ dist ≤ 0x4000 then
    let g := outLiterals s.g input lit_start (q - lit_start)
    let q := q + best
    let g := shiftOut g (toUInt32 (0x4000 + dist - 1)) 0
    let g := out g (best - 1)
    { g := g, cHash := cHash, q := q, lit_start := q }
  else if best > 7 ∧ best ≤ 0x100 ∧ dist ≤ 0x80000 then
    let g := outLiterals s.g input lit_start (q - lit_start)
    let q := q + best
    let g := shiftOut g (toUInt32 (0x180000 + dist - 1)) 1
    let g := out g (best - 1)
    { g := g, cHash := cHash, q := q, lit_start := q }
  else if best > 8 ∧ best ≤ 0x10000 ∧ dist ≤ 0x80000 then
    let g := outLiterals s.g input lit_start (q - lit_start)
    let q := q + best
    let g := shiftOut g (toUInt32 (0x100000 + dist - 1)) 1
    let g := shiftOut g (best - 1) 0
    { g := g, cHash := cHash, q := q, lit_start := q }
  else if best > 9 ∧ dist ≤ 0x1000000 then
    let best := if best > 65536 then 65536 else best
    let g := outLiterals s.g input lit_start (q - lit_start)
    let q := q + best
    if best ≤ 0x100 then
      let g := out g 0x06
      let g := shiftOut g (toUInt32 (dist - 1)) 1
      let g := out g (best - 1)
      { g := g, cHash := cHash, q := q, lit_start := q }
    else
      let g := out g 0x04
      let g := shiftOut g (toUInt32 (dist - 1)) 1
      let g := shiftOut g (best - 1) 0
      { g := g, cHash := cHash, q := q, lit_start := q }
  else
    { s with cHash := cHash, q := q + 1 }

/-- The loop `while (q < start + length && q + 12 < end)` of `compressChunk`. -/
def chunkLoop (input : List UInt8) (start endp : Nat) (length : Int) (mask : Nat) :
    Nat → ChunkState → ChunkState
  | 0, s => s
  | fuel + 1, s =>
    if (s.q : Int) < (start : Int) + length ∧ s.q + 12 < endp then
      chunkLoop input start endp length mask fuel (chunkBody input endp mask s)
    else s

/-- `stb::compressChunk(start, end, length, pendingLiterals, cHash, mask)`:
returns the globals, the new `*pendingLiterals` and the return value. -/
def compressChunk (g : Globals) (input : List UInt8) (start endp : Nat) (length : Int)
    (pendingLiterals : Nat) (cHash : Nat → Option Nat) (mask : Nat) : Globals × Nat × Int :=
  let lit_start := start - pendingLiterals
  let s := chunkLoop input start endp length mask length.toNat
    { g := g, cHash := cHash, q := start, lit_start := lit_start }
  let q := if (s.q : Int) - (start : Int) < length then ((start : Int) + length).toNat else s.q
  let pending := q - s.lit_start
  let g := { s.g with
    running_adler := adler32 s.g.running_adler (input.drop start)
      (toUInt32 ((q : Int) - (start : Int))) }
  (g, pending, (q : Int) - (start : Int))

/-- `stb::compressInner(input, length)`: returns the globals and the return
value `1`. -/
def compressInner (g : Globals) (input : List UInt8) (length : Nat) : Globals × Nat :=
  let chash : Nat → Option Nat := fun _ => none
  let g := out g 0x57
  let g := out g 0xbc
  let g := shiftOut g 0 0
  let g := shiftOut g 0 2
  let g := shiftOut g length 2
  let g := shiftOut g (toUInt32 stb__window) 2
  let g := { g with running_adler := 1 }
  let r := compressChunk g input 0 length (toInt32 length) 0 chash (stb__hashsize - 1)
  let literals := r.2.1
  let g := outLiterals r.1 input (length - literals) literals
  let g := shiftOut g 0x05fa 0
  let g := shiftOut g g.running_adler 2
  (g, 1)

/-- `stb::compress(out, input, length)` on a buffer of `input.length` bytes:
the `std::uint32_t length` argument is `input.length` reduced modulo 2^32, the
cursor is set to the start of the destination, and the return value is the
number of bytes stored, `stb__out - out`. -/
def compress (g : Globals) (input : List UInt8) : Globals × Nat :=
  let g := { g with out := [] }
  let r := compressInner g input (input.length % 4294967296)
  (r.1, r.1.out.length % 4294967296)

/-! ## Auxiliary definitions used to state the theorems -/

/-- The bytes `shiftOut(v, level)` stores, most significant first. -/
def shiftBytes (v level : Nat) : List Nat :=
  (if level ≥ 2 then [(v >>> 24) % 256] else []) ++
  (if level ≥ 1 then [(v >>> 16) % 256] else []) ++
  [(v >>> 8) % 256, v % 256]

/-- The `numlit` bytes that the `memcpy` of `outLiterals` copies from `in`. -/
def payload (input : List UInt8) (inp numlit : Nat) : List Nat :=
  (List.range numlit).map (fun i => rd input (inp + i))

/-- The length prefix that `outLiterals` stores in front of a block of
`numlit` bytes. -/
def litPrefix (numlit : Nat) : List Nat :=
  if numlit = 0 then []
  else if numlit ≤ 32 then [(0x000020 + numlit - 1) % 256]
  else if numlit ≤ 2048 then shiftBytes (0x000800 + numlit - 1) 0
  else shiftBytes (0x070000 + numlit - 1) 1

/-- Append the bytes `bs` to the destination. -/
def emit (g : Globals) (bs : List Nat) : Globals :=
  { g with out := g.out ++ bs }

/-- One literal block: the length prefix followed by the payload. -/
def literalBlock (input : List UInt8) (inp numlit : Nat) : List Nat :=
  litPrefix numlit ++ payload input inp numlit

/-- The bytes of `k` consecutive literal blocks of 65536 bytes from `inp`. -/
def fullBlocks (input : List UInt8) : Nat → Nat → List Nat
  | _, 0 => []
  | inp, k + 1 => literalBlock input inp 65536 ++ fullBlocks input (inp + 65536) k

/-- The bytes of a literal run of `numlit` bytes from `inp`: blocks of 65536
bytes while more than 65536 bytes remain, then one block with the rest. -/
def literalBytes (input : List UInt8) (inp numlit : Nat) : List Nat :=
  fullBlocks input inp ((numlit - 1) / 65536) ++
    literalBlock input (inp + 65536 * ((numlit - 1) / 65536))
      (numlit - 65536 * ((numlit - 1) / 65536))

/-- The split of a literal run of `numlit` bytes from `inp` into blocks
`(position, run length)`: ceil(numlit / 65536) blocks, block `j` starting
65536 * j bytes into the run and taking at most 65536 bytes. -/
def litBlocks (inp numlit : Nat) : List (Nat × Nat) :=
  (List.range ((numlit + 65535) / 65536)).map
    (fun j => (inp + 65536 * j, min 65536 (numlit - 65536 * j)))

/-- Every recorded position of the hash table lies strictly before `q`. -/
def TableBefore (cHash : Nat → Option Nat) (q : Nat) : Prop :=
  ∀ h t : Nat, cHash h = some t → t < q

/-- The pair `(best, dist)` is the initial `(2, 0)` or comes from a recorded
position `t`: `dist = q - t`, `best` is the match length found there, at least
3, and the pair passed the acceptance test `stb__nc`. -/
def Retained (input : List UInt8) (endp : Nat) (cHash : Nat → Option Nat) (q : Nat)
    (bd : Nat × Int) : Prop :=
  bd = (2, 0) ∨
  ∃ h t : Nat, cHash h = some t ∧ bd.2 = (q : Int) - (t : Int) ∧
    bd.1 = matchLength input t q (matchMax endp q) ∧ 3 ≤ bd.1 ∧
    stb__nc stb__window bd.1 bd.2 = true

/-- The decision of the opcode chain of `compressChunk` for the retained pair
`(best, dist)`: `none` when the cursor only advances by one byte, otherwise the
number of input bytes the match consumes and the opcode bytes stored after the
pending literals. -/
def matchOpcode (best : Nat) (dist : Int) : Option (Nat × List Nat) :=
  if best < 3 then none
  else if best > 2 ∧ best ≤ 0x80 ∧ dist ≤ 0x100 then
    some (best, [(0x80 + best - 1) % 256, toUInt32 (dist - 1) % 256])
  else if best > 5 ∧ best ≤ 0x100 ∧ dist ≤ 0x4000 then
    some (best, shiftBytes (toUInt32 (0x4000 + dist - 1)) 0 ++ [(best - 1) % 256])
  else if best > 7 ∧ best ≤ 0x100 ∧ dist ≤ 0x80000 then
    some (best, shiftBytes (toUInt32 (0x180000 + dist - 1)) 1 ++ [(best - 1) % 256])
  else if best > 8 ∧ best ≤ 0x10000 ∧ dist ≤ 0x80000 then
    some (best, shiftBytes (toUInt32 (0x100000 + dist - 1)) 1 ++ shiftBytes (best - 1) 0)
  else if best > 9 ∧ dist ≤ 0x1000000 then
    if (if best > 65536 then 65536 else best) ≤ 0x100 then
      some ((if best > 65536 then 65536 else best),
        [0x06] ++ shiftBytes (toUInt32 (dist - 1)) 1 ++
          [((if best > 65536 then 65536 else best) - 1) % 256])
    else
      some ((if best > 65536 then 65536 else best),
        [0x04] ++ shiftBytes (toUInt32 (dist - 1)) 1 ++
          shiftBytes ((if best > 65536 then 65536 else best) - 1) 0)
  else none

/-- The hash table after `cHash[h1] = cHash[h2] = cHash[h3] = cHash[h4] = q`. -/
def nextTable (input : List UInt8) (mask : Nat) (cHash : Nat → Option Nat) (q : Nat) :
    Nat → Option Nat :=
  setHash (setHash (setHash (setHash cHash (hashes input mask q).2.2.2 q)
    (hashes input mask q).2.2.1 q) (hashes input mask q).2.1 q) (hashes input mask q).1 q

/-- An opcode of the stream: a literal run of `n` input bytes from position
`pos`, or a match for the retained pair `(best, dist)`. -/
inductive Op where
  | lit (pos n : Nat) : Op
  | mat (best : Nat) (dist : Int) : Op
  deriving DecidableEq

/-- The bytes an opcode occupies in the stream. -/
def opBytes (input : List UInt8) : Op → List Nat
  | Op.lit pos n => literalBytes input pos n
  | Op.mat best dist =>
    match matchOpcode best dist with
    | some r => r.2
    | none => []

/-- The bytes of a sequence of opcodes. -/
def opsBytes (input : List UInt8) (ops : List Op) : List Nat :=
  (ops.map (opBytes input)).flatten

/-- The opcodes the scanning loop of `compressChunk` stores, in order: at
every iteration whose retained pair is encoded as a match, the pending literal
run and then the match. -/
def chunkOps (input : List UInt8) (start endp : Nat) (length : Int) (mask : Nat) :
    Nat → ChunkState → List Op
  | 0, _ => []
  | fuel + 1, s =>
    if (s.q : Int) < (start : Int) + length ∧ s.q + 12 < endp then
      (match matchOpcode (findBest input endp s.cHash mask s.q).1
          (findBest input endp s.cHash mask s.q).2 with
        | none => []
        | some _ =>
          [Op.lit s.lit_start (s.q - s.lit_start),
           Op.mat (findBest input endp s.cHash mask s.q).1
             (findBest input endp s.cHash mask s.q).2]) ++
        chunkOps input start endp length mask fuel (chunkBody input endp mask s)
    else []

/-- The bytes `compressInner` stores before it scans the input. -/
def headerBytes (length : Nat) : List Nat :=
  [0x57, 0xbc] ++ shiftBytes 0 0 ++ shiftBytes 0 2 ++ shiftBytes length 2 ++
    shiftBytes (toUInt32 stb__window) 2

/-- The bytes `compressInner` stores after the last literals. -/
def trailerBytes (adler : Nat) : List Nat :=
  shiftBytes 0x05fa 0 ++ shiftBytes adler 2

/-- The `length` argument `compress` passes on for a buffer of
`input.length` bytes. -/
def len32 (input : List UInt8) : Nat := input.length % 4294967296

/-- The state in which `compress` enters the scanning loop: header stored,
`stb__running_adler = 1`, empty hash table, cursor at the start. -/
def scanStart (g : Globals) (input : List UInt8) : ChunkState :=
  { g := { emit { g with out := [] } (headerBytes (len32 input)) with running_adler := 1 },
    cHash := fun _ => none, q := 0, lit_start := 0 }

/-- The state in which `compress` leaves the scanning loop. -/
def scanEnd (g : Globals) (input : List UInt8) : ChunkState :=
  chunkLoop input 0 (len32 input) (toInt32 (len32 input)) (stb__hashsize - 1)
    (toInt32 (len32 input)).toNat (scanStart g input)

/-- The value of `q` after `if (q - start < length) q = start + length;` for
`start = 0`. -/
def chunkQ (length : Int) (s : ChunkState) : Nat :=
  if (s.q : Int) < length then length.toNat else s.q

/-- The value of `q` at the end of `compressChunk` as called by `compress`. -/
def scanQ (g : Globals) (input : List UInt8) : Nat :=
  chunkQ (toInt32 (len32 input)) (scanEnd g input)

/-- The opcodes `compress` stores between header and trailer: those of the
scanning loop, then the literal run pending at the end. -/
def compressOps (g : Globals) (input : List UInt8) : List Op :=
  chunkOps input 0 (len32 input) (toInt32 (len32 input)) (stb__hashsize - 1)
    (toInt32 (len32 input)).toNat (scanStart g input) ++
  [Op.lit (len32 input - (scanQ g input - (scanEnd g input).lit_start))
    (scanQ g input - (scanEnd g input).lit_start)]

/-- The match classes of the stream format, in the order in which the encoder
tries them. -/
inductive MatchClass where
  | short | medium | longA | longB | extended
  deriving DecidableEq

/-- The length and distance bounds of a match class, as the format
description gives them. -/
def MatchClass.contains : MatchClass → Nat → Int → Bool
  | MatchClass.short, L, D => decide (3 ≤ L ∧ L ≤ 128 ∧ 1 ≤ D ∧ D ≤ 256)
  | MatchClass.medium, L, D => decide (6 ≤ L ∧ L ≤ 256 ∧ 1 ≤ D ∧ D ≤ 16384)
  | MatchClass.longA, L, D => decide (8 ≤ L ∧ L ≤ 256 ∧ 1 ≤ D ∧ D ≤ 524288)
  | MatchClass.longB, L, D => decide (9 ≤ L ∧ L ≤ 65536 ∧ 1 ≤ D ∧ D ≤ 524288)
  | MatchClass.extended, L, D => decide (L ≤ 65536 ∧ 1 ≤ D ∧ D ≤ 16777216)

/-- The number of bytes of the opcode of a match class for a match of length
`L`, as the format description gives it. -/
def MatchClass.size : MatchClass → Nat → Nat
  | MatchClass.short, _ => 2
  | MatchClass.medium, _ => 3
  | MatchClass.longA, _ => 4
  | MatchClass.longB, _ => 5
  | MatchClass.extended, L => if L ≤ 256 then 5 else 6

/-- The opcode bytes of a match class for length `L` and distance `D`, as
the format description gives them. -/
def MatchClass.encode : MatchClass → Nat → Int → List Nat
  | MatchClass.short, L, D => [0x80 + (L - 1), (D - 1).toNat]
  | MatchClass.medium, L, D =>
    [(0x4000 + (D - 1).toNat) / 256, (0x4000 + (D - 1).toNat) % 256, L - 1]
  | MatchClass.longA, L, D =>
    [(0x180000 + (D - 1).toNat) / 65536, (0x180000 + (D - 1).toNat) / 256 % 256,
      (0x180000 + (D - 1).toNat) % 256, L - 1]
  | MatchClass.longB, L, D =>
    [(0x100000 + (D - 1).toNat) / 65536, (0x100000 + (D - 1).toNat) / 256 % 256,
      (0x100000 + (D - 1).toNat) % 256, (L - 1) / 256, (L - 1) % 256]
  | MatchClass.extended, L, D =>
    (if L ≤ 256 then [0x06] else [0x04]) ++
      [(D - 1).toNat / 65536, (D - 1).toNat / 256 % 256, (D - 1).toNat % 256] ++
      (if L ≤ 256 then [L - 1] else [(L - 1) / 256, (L - 1) % 256])

/-- The first class, in the order short, medium, long-distance A,
long-distance B, extended, whose bounds contain the pair. -/
def firstClass (L : Nat) (D : Int) : Option MatchClass :=
  [MatchClass.short, MatchClass.medium, MatchClass.longA, MatchClass.longB,
    MatchClass.extended].find? (fun c => c.contains L D)

/-- The two checksum accumulators in unbounded integers: `a` is increased by
every byte, `b` by every new value of `a`. -/
def adlerIdeal (s : Nat × Nat) (bytes : List Nat) : Nat × Nat :=
  bytes.foldl (fun s b => (s.1 + b, s.2 + (s.1 + b))) s

/-- The unbounded accumulators reduced modulo 65521. -/
def adlerSpec (s : Nat × Nat) (bytes : List Nat) : Nat × Nat :=
  ((adlerIdeal s bytes).1 % 65521, (adlerIdeal s bytes).2 % 65521)

/-- The sum, over every non-empty prefix of `bytes`, of `lo` plus the sum of
the prefix: the sum of the running values of the first accumulator. -/
def prefixSums (lo : Nat) (bytes : List Nat) : Nat :=
  ((List.range bytes.length).map (fun k => lo + (bytes.take (k + 1)).sum)).sum

/-- The number of input bytes an iteration of the scanning loop consumes for
the retained pair `(best, dist)`: the length of the match it encodes, or 1. -/
def advance (best : Nat) (dist : Int) : Nat :=
  match matchOpcode best dist with
  | none => 1
  | some r => r.1

/-- The state of the scan of `compress` after `k` iterations of the loop (or
at its end, if the loop ends earlier). -/
def scanAt (g : Globals) (input : List UInt8) (k : Nat) : ChunkState :=
  chunkLoop input 0 (len32 input) (toInt32 (len32 input)) (stb__hashsize - 1) k
    (scanStart g input)

/-- The candidate recorded at position `t` is usable at the cursor `q`: its
match length exceeds 2 and, with its distance, passes `stb__nc`. -/
def Usable (input : List UInt8) (endp q t : Nat) : Prop :=
  2 < matchLength input t q (matchMax endp q) ∧
    stb__nc stb__window (matchLength input t q (matchMax endp q)) ((q : Int) - (t : Int)) = true

/-- The pair `bd` after probing the slots `done` in order: it is `(2, 0)` or
the pair of a usable candidate of one of these slots, every usable candidate of
an earlier slot being strictly shorter; and no usable candidate of these slots
is longer than `bd.1`. -/
def BestOf (input : List UInt8) (endp : Nat) (cHash : Nat → Option Nat) (q : Nat)
    (done : List Nat) (bd : Nat × Int) : Prop :=
  (bd = (2, 0) ∨
    ∃ (pre : List Nat) (h : Nat) (post : List Nat) (t : Nat),
      done = pre ++ h :: post ∧ cHash h = some t ∧
      bd = (matchLength input t q (matchMax endp q), (q : Int) - (t : Int)) ∧
      Usable input endp q t ∧
      ∀ h' ∈ pre, ∀ t' : Nat, cHash h' = some t' → Usable input endp q t' →
        matchLength input t' q (matchMax endp q) < matchLength input t q (matchMax endp q)) ∧
  (∀ h' ∈ done, ∀ t' : Nat, cHash h' = some t' → Usable input endp q t' →
    matchLength input t' q (matchMax endp q) ≤ bd.1)

/-- The statement that no recorded candidate of the four slots has a greater
match length than the retained pair. -/
def RetainsLongest (input : List UInt8) (endp : Nat) (cHash : Nat → Option Nat)
    (mask q : Nat) : Prop :=
  ∀ h ∈ [(hashes input mask q).1, (hashes input mask q).2.1, (hashes input mask q).2.2.1,
      (hashes input mask q).2.2.2],
    ∀ t : Nat, cHash h = some t →
      matchLength input t q (matchMax endp q) ≤ (findBest input endp cHash mask q).1

/-- An input on which a longer candidate is rejected: `abcdeP`, 194 zero
bytes, `abcQ`, 96 zero bytes, `abcdeR`, 14 zero bytes (320 bytes). At position
300 the slot of the 3-byte hash holds position 200 and the slot of the 5-byte
hash holds position 0. -/
def rejectedInput : List UInt8 :=
  [97, 98, 99, 100, 101, 80] ++ List.replicate 194 0 ++ [97, 98, 99, 81] ++
    List.replicate 96 0 ++ [97, 98, 99, 100, 101, 82] ++ List.replicate 14 0

/-- The indices `matchLength` reads: `m1[i]` and `m2[i]` for every `i` at
which the loop condition held, the comparison that ends the loop included. -/
def matchLengthLoopReads (input : List UInt8) (m1 m2 : Nat) : Nat → Nat → List Nat
  | 0, _ => []
  | rem + 1, i =>
    [m1 + i, m2 + i] ++
      (if rd input (m1 + i) ≠ rd input (m2 + i) then []
       else matchLengthLoopReads input m1 m2 rem (i + 1))

/-- The indices read by `STB__TRY(t,p)`: those of `matchLength(t, q, match_max)`
when the candidate is not skipped. -/
def tryReads (input : List UInt8) (q match_max t : Nat) (p : Bool) (bd : Nat × Int) : List Nat :=
  if (if p then bd.2 ≠ (q : Int) - (t : Int) else True) then
    matchLengthLoopReads input t q match_max 0
  else []

/-- The indices read by `t = cHash[h]; if (t) STB__TRY(t, p);`. -/
def probeReads (input : List UInt8) (cHash : Nat → Option Nat) (q match_max h : Nat) (p : Bool)
    (bd : Nat × Int) : List Nat :=
  match cHash h with
  | some t => tryReads input q match_max t p bd
  | none => []

/-- The indices `q[0] .. q[12]` read by the hash macros at the cursor `q`. -/
def hashReads (q : Nat) : List Nat :=
  (List.range 13).map (fun c => q + c)

/-- The input indices read by the hashing and the four probes of one
iteration at the cursor `q`. -/
def findBestReads (input : List UInt8) (endp : Nat) (cHash : Nat → Option Nat) (mask q : Nat) :
    List Nat :=
  hashReads q ++
    probeReads input cHash q (matchMax endp q) (hashes input mask q).1 false (2, 0) ++
    probeReads input cHash q (matchMax endp q) (hashes input mask q).2.1 true
      (probe input stb__window cHash q (matchMax endp q) (hashes input mask q).1 false (2, 0)) ++
    probeReads input cHash q (matchMax endp q) (hashes input mask q).2.2.1 true
      (probe input stb__window cHash q (matchMax endp q) (hashes input mask q).2.1 true
        (probe input stb__window cHash q (matchMax endp q) (hashes input mask q).1 false (2, 0))) ++
    probeReads input cHash q (matchMax endp q) (hashes input mask q).2.2.2 true
      (probe input stb__window cHash q (matchMax endp q) (hashes input mask q).2.2.1 true
        (probe input stb__window cHash q (matchMax endp q) (hashes input mask q).2.1 true
          (probe input stb__window cHash q (matchMax endp q) (hashes input mask q).1 false
            (2, 0))))

/-- The input indices read by one iteration of the scanning loop: hashing and
probes, and the pending literals `lit_start .. q-1` copied by `outLiterals`
when a match is encoded. -/
def bodyReads (input : List UInt8) (endp mask : Nat) (s : ChunkState) : List Nat :=
  findBestReads input endp s.cHash mask s.q ++
    (match matchOpcode (findBest input endp s.cHash mask s.q).1
        (findBest input endp s.cHash mask s.q).2 with
      | none => []
      | some _ => (List.range (s.q - s.lit_start)).map (fun i => s.lit_start + i))

/-! ## A decoder for the opcode stream

The repository has no decoder. The one below follows the opcode layout of the
stream format: the first byte of an opcode selects its class, multi-byte fields
are big-endian. -/

/-- A decoded opcode: a literal run with its payload bytes, or a match of
length `L` at distance `D`. -/
inductive Tok where
  | lit (bytes : List Nat) : Tok
  | mat (L D : Nat) : Tok
  deriving DecidableEq

/-- A literal opcode with a run of `n` bytes: the payload is the next `n` bytes
of the stream. -/
def parseLit (n : Nat) (rest : List Nat) : Option (Tok × List Nat) :=
  if n ≤ rest.length then some (Tok.lit (rest.take n), rest.drop n) else none

/-- Read the opcode whose first byte is `b`; `rest` is the stream after that
byte. First byte `0x80..0xFF` short match, `0x40..0x7F` medium match,
`0x20..0x3F` short literal, `0x18..0x1F` long-distance match A, `0x10..0x17`
long-distance match B, `0x08..0x0F` medium literal, `0x07` long literal, `0x06`
and `0x04` extended match. -/
def parseOp (b : Nat) (rest : List Nat) : Option (Tok × List Nat) :=
  if 0x80 ≤ b then
    match rest with
    | d :: rest => some (Tok.mat (b - 0x80 + 1) (d + 1), rest)
    | _ => none
  else if 0x40 ≤ b then
    match rest with
    | d :: l :: rest => some (Tok.mat (l + 1) (b * 256 + d - 0x4000 + 1), rest)
    | _ => none
  else if 0x20 ≤ b then parseLit (b - 0x20 + 1) rest
  else if 0x18 ≤ b then
    match rest with
    | d1 :: d0 :: l :: rest =>
      some (Tok.mat (l + 1) (b * 65536 + d1 * 256 + d0 - 0x180000 + 1), rest)
    | _ => none
  else if 0x10 ≤ b then
    match rest with
    | d1 :: d0 :: l1 :: l0 :: rest =>
      some (Tok.mat (l1 * 256 + l0 + 1) (b * 65536 + d1 * 256 + d0 - 0x100000 + 1), rest)
    | _ => none
  else if 0x08 ≤ b then
    match rest with
    | n0 :: rest => parseLit (b * 256 + n0 - 0x0800 + 1) rest
    | _ => none
  else if b = 0x07 then
    match rest with
    | n1 :: n0 :: rest => parseLit (n1 * 256 + n0 + 1) rest
    | _ => none
  else if b = 0x06 then
    match rest with
    | d2 :: d1 :: d0 :: l :: rest =>
      some (Tok.mat (l + 1) (d2 * 65536 + d1 * 256 + d0 + 1), rest)
    | _ => none
  else if b = 0x04 then
    match rest with
    | d2 :: d1 :: d0 :: l1 :: l0 :: rest =>
      some (Tok.mat (l1 * 256 + l0 + 1) (d2 * 65536 + d1 * 256 + d0 + 1), rest)
    | _ => none
  else none

/-- Read one opcode from the front of the stream; the result is the opcode
and the rest of the stream. -/
def parseTok : List Nat → Option (Tok × List Nat)
  | [] => none
  | b :: rest => parseOp b rest

/-- Append `L` bytes to the decoded bytes, one at a time, each copied from `D`
positions back. -/
def copyMatch (D : Nat) : Nat → List Nat → List Nat
  | 0, dec => dec
  | L + 1, dec => copyMatch D L (dec ++ [dec.getD (dec.length - D) 0])

/-- The effect of one opcode on the decoded bytes: a literal appends its
payload; a match appends `L` copied bytes and is refused when its distance is 0
or exceeds the number of bytes decoded so far. -/
def applyTok (dec : List Nat) : Tok → Option (List Nat)
  | Tok.lit bytes => some (dec ++ bytes)
  | Tok.mat L D => if 1 ≤ D ∧ D ≤ dec.length then some (copyMatch D L dec) else none

/-- Decode a stream of opcodes, starting from the decoded bytes `dec`; `fuel`
bounds the number of opcodes. -/
def decodeStream : Nat → List Nat → List Nat → Option (List Nat)
  | _, [], dec => some dec
  | 0, _ :: _, _ => none
  | fuel + 1, b :: bs, dec =>
    match parseTok (b :: bs) with
    | none => none
    | some r =>
      match applyTok dec r.1 with
      | none => none
      | some dec1 => decodeStream fuel r.2 dec1

/-- The stream `bytes` decodes, from the decoded bytes `dec`, to `final`. -/
def Decodes (bytes dec final : List Nat) : Prop :=
  ∃ fuel : Nat, decodeStream fuel bytes dec = some final

/-- The value of the four-byte length field of the header of a stream. -/
def headerLength (stream : List Nat) : Nat :=
  stream.getD 8 0 * 16777216 + stream.getD 9 0 * 65536 + stream.getD 10 0 * 256 +
    stream.getD 11 0

/-- The number of input bytes an opcode stands for: the run length of a
literal, the number of bytes a match consumes. -/
def opLen : Op → Nat
  | Op.lit _ n => n
  | Op.mat best dist => advance best dist

/-- The opcodes of a stream, each with the input position at which it
starts: `p` for the first one, then `p` plus the bytes of the opcodes before. -/
def opStarts : Nat → List Op → List (Nat × Op)
  | _, [] => []
  | p, op :: ops => (p, op) :: opStarts (p + opLen op) ops

/-! # Theorems -/


/-! ## Output primitives: the bytes appended -/

theorem emit_nil (g : Globals) : emit g [] = g := by
  cases g; simp [emit]

theorem emit_emit (g : Globals) (a b : List Nat) : emit (emit g a) b = emit g (a ++ b) := by
  simp [emit, List.append_assoc]

theorem emit_out (g : Globals) (a : List Nat) : (emit g a).out = g.out ++ a := rfl

theorem emit_running_adler (g : Globals) (a : List Nat) :
    (emit g a).running_adler = g.running_adler := rfl

theorem out_eq_emit (g : Globals) (v : Nat) : out g v = emit g [v % 256] := rfl

theorem shiftOut_eq_emit (g : Globals) (v level : Nat) :
    shiftOut g v level = emit g (shiftBytes v level) := by
  unfold shiftOut shiftBytes
  by_cases h2 : level ≥ 2 <;> by_cases h1 : level ≥ 1 <;>
    simp [h1, h2, out_eq_emit, emit_emit, emit_nil]

theorem shiftBytes_length (v level : Nat) :
    (shiftBytes v level).length =
      2 + (if level ≥ 1 then 1 else 0) + (if level ≥ 2 then 1 else 0) := by
  unfold shiftBytes
  by_cases h2 : level ≥ 2 <;> by_cases h1 : level ≥ 1 <;> simp [h1, h2]

theorem payload_length (input : List UInt8) (inp numlit : Nat) :
    (payload input inp numlit).length = numlit := by
  simp [payload]

theorem litPrefix_length_le (numlit : Nat) : (litPrefix numlit).length ≤ 3 := by
  unfold litPrefix
  split
  · simp
  · split
    · simp
    · split <;> simp [shiftBytes]

theorem outLiteralsBlock_eq_emit (g : Globals) (input : List UInt8) (inp numlit : Nat) :
    outLiteralsBlock g input inp numlit = emit g (literalBlock input inp numlit) := by
  unfold outLiteralsBlock literalBlock litPrefix
  by_cases h0 : numlit = 0
  · simp [h0, emit, payload]
  · by_cases h1 : numlit ≤ 32
    · simp [h0, h1, out_eq_emit, emit, payload]
    · by_cases h2 : numlit ≤ 2048
      · simp [h0, h1, h2, shiftOut_eq_emit, emit, payload]
      · simp [h0, h1, h2, shiftOut_eq_emit, emit, payload]

theorem fullBlocks_succ (input : List UInt8) (inp k : Nat) :
    fullBlocks input inp (k + 1) =
      literalBlock input inp 65536 ++ fullBlocks input (inp + 65536) k := by
  rw [fullBlocks]

theorem outLiteralsLoop_eq (input : List UInt8) :
    ∀ (fuel : Nat) (g : Globals) (inp numlit : Nat), (numlit - 1) / 65536 ≤ fuel →
      outLiteralsLoop input fuel g inp numlit =
        (emit g (fullBlocks input inp ((numlit - 1) / 65536)),
          inp + 65536 * ((numlit - 1) / 65536), numlit - 65536 * ((numlit - 1) / 65536)) := by
  intro fuel
  induction fuel with
  | zero =>
    intro g inp numlit h
    have hk : (numlit - 1) / 65536 = 0 := by omega
    rw [hk, outLiteralsLoop, fullBlocks, emit_nil]
    rfl
  | succ fuel ih =>
    intro g inp numlit h
    rw [outLiteralsLoop]
    by_cases hn : numlit > 65536
    · have hk : (numlit - 1) / 65536 = (numlit - 65536 - 1) / 65536 + 1 := by omega
      rw [if_pos hn, ih _ _ _ (by omega), outLiteralsBlock_eq_emit, emit_emit, hk,
        fullBlocks_succ]
      have e1 : inp + 65536 + 65536 * ((numlit - 65536 - 1) / 65536) =
          inp + 65536 * ((numlit - 65536 - 1) / 65536 + 1) := by omega
      have e2 : numlit - 65536 - 65536 * ((numlit - 65536 - 1) / 65536) =
          numlit - 65536 * ((numlit - 65536 - 1) / 65536 + 1) := by omega
      rw [e1, e2]
    · have hk : (numlit - 1) / 65536 = 0 := by omega
      rw [if_neg hn, hk, fullBlocks, emit_nil]
      rfl

/-- The bytes `outLiterals` appends: full blocks of 65536 bytes, then the
last block. -/
theorem outLiterals_eq_emit (g : Globals) (input : List UInt8) (inp numlit : Nat) :
    outLiterals g input inp numlit = emit g (literalBytes input inp numlit) := by
  unfold outLiterals literalBytes
  rw [outLiteralsLoop_eq input _ g inp numlit (by omega)]
  simp [outLiteralsBlock_eq_emit, emit_emit]

/-! ## Literal runs -/

theorem rd_eq_getElem (input : List UInt8) (i : Nat) (h : i < input.length) :
    rd input i = (input.get ⟨i, h⟩).toNat := by
  simp [rd, List.getD, List.getElem?_eq_getElem h]

theorem payload_eq_slice (input : List UInt8) (inp numlit : Nat)
    (h : inp + numlit ≤ input.length) :
    payload input inp numlit = ((input.drop inp).take numlit).map UInt8.toNat := by
  apply List.ext_getElem
  · simp [payload]; omega
  · intro i h1 h2
    simp only [payload, List.length_map, List.length_range] at h1
    simp [payload, rd, List.getD, List.getElem?_eq_getElem (show inp + i < input.length by omega)]

theorem payload_add (input : List UInt8) (inp a b : Nat) :
    payload input inp (a + b) = payload input inp a ++ payload input (inp + a) b := by
  simp [payload, List.range_add, Nat.add_assoc]

theorem fullBlocks_snoc (input : List UInt8) :
    ∀ (k inp : Nat), fullBlocks input inp (k + 1) =
      fullBlocks input inp k ++ literalBlock input (inp + 65536 * k) 65536 := by
  intro k
  induction k with
  | zero => intro inp; rw [fullBlocks_succ, fullBlocks, fullBlocks]; simp
  | succ k ih =>
    intro inp
    rw [fullBlocks_succ, ih, fullBlocks_succ, List.append_assoc]
    have e : inp + 65536 + 65536 * k = inp + 65536 * (k + 1) := by omega
    rw [e]

theorem fullBlocks_eq_range (input : List UInt8) (inp : Nat) :
    ∀ k : Nat, fullBlocks input inp k =
      ((List.range k).map (fun j => literalBlock input (inp + 65536 * j) 65536)).flatten := by
  intro k
  induction k with
  | zero => rw [fullBlocks]; rfl
  | succ k ih => rw [fullBlocks_snoc, ih, List.range_succ]; simp

theorem fullPayload_eq (input : List UInt8) (inp : Nat) :
    ∀ k : Nat, ((List.range k).map (fun j => payload input (inp + 65536 * j) 65536)).flatten =
      payload input inp (65536 * k) := by
  intro k
  induction k with
  | zero => simp [payload]
  | succ k ih =>
    rw [List.range_succ, List.map_append, List.flatten_append, ih,
      show 65536 * (k + 1) = 65536 * k + 65536 by omega, payload_add]
    simp

theorem litBlocks_eq (inp numlit : Nat) (h : 0 < numlit) :
    litBlocks inp numlit =
      (List.range ((numlit - 1) / 65536)).map (fun j => (inp + 65536 * j, 65536)) ++
        [(inp + 65536 * ((numlit - 1) / 65536), numlit - 65536 * ((numlit - 1) / 65536))] := by
  have hk : (numlit + 65535) / 65536 = (numlit - 1) / 65536 + 1 := by omega
  unfold litBlocks
  rw [hk, List.range_succ, List.map_append]
  congr 1
  · apply List.map_congr_left
    intro j hj
    have hj : j < (numlit - 1) / 65536 := List.mem_range.mp hj
    have : min 65536 (numlit - 65536 * j) = 65536 := by omega
    rw [this]
  · have : min 65536 (numlit - 65536 * ((numlit - 1) / 65536)) =
        numlit - 65536 * ((numlit - 1) / 65536) := by omega
    simp [this]

theorem shiftBytes_zero (v : Nat) (h : v < 65536) :
    shiftBytes v 0 = [v / 256, v % 256] := by
  have e : v >>> 8 = v / 256 := by rw [Nat.shiftRight_eq_div_pow]
  have e2 : v / 256 % 256 = v / 256 := by omega
  simp [shiftBytes, e, e2]

theorem shiftBytes_one (v : Nat) (h : v < 16777216) :
    shiftBytes v 1 = [v / 65536, v / 256 % 256, v % 256] := by
  have e : v >>> 8 = v / 256 := by rw [Nat.shiftRight_eq_div_pow]
  have e1 : v >>> 16 = v / 65536 := by rw [Nat.shiftRight_eq_div_pow]
  have e2 : v / 65536 % 256 = v / 65536 := by omega
  simp [shiftBytes, e, e1, e2]

theorem shiftBytes_two (v : Nat) (h : v < 4294967296) :
    shiftBytes v 2 = [v / 16777216, v / 65536 % 256, v / 256 % 256, v % 256] := by
  have e : v >>> 8 = v / 256 := by rw [Nat.shiftRight_eq_div_pow]
  have e1 : v >>> 16 = v / 65536 := by rw [Nat.shiftRight_eq_div_pow]
  have e3 : v >>> 24 = v / 16777216 := by rw [Nat.shiftRight_eq_div_pow]
  have e2 : v / 16777216 % 256 = v / 16777216 := by omega
  simp [shiftBytes, e, e1, e2, e3]

theorem literalBytes_small (input : List UInt8) (inp n : Nat) (h : n ≤ 65536) :
    literalBytes input inp n = litPrefix n ++ payload input inp n := by
  have hk : (n - 1) / 65536 = 0 := by omega
  unfold literalBytes
  rw [hk, fullBlocks]
  simp [literalBlock]

/-- C3: `outLiterals` on an empty run stores nothing; on a run of `n` bytes,
`1 ≤ n ≤ 65536`, lying inside the input it stores the length prefix and then
the `n` bytes of the run unchanged. The prefix is the byte `0x20 + (n-1)` for
`n ≤ 32`, the two big-endian bytes of `0x0800 + (n-1)` for `33 ≤ n ≤ 2048` and
the three big-endian bytes of `0x070000 + (n-1)` for `2049 ≤ n ≤ 65536`; each
prefix value fits its width. -/
theorem outLiterals_prefix_and_payload (g : Globals) (input : List UInt8) (inp : Nat) :
    (outLiterals g input inp 0).out = g.out ∧
    ∀ n : Nat, 1 ≤ n → n ≤ 65536 → inp + n ≤ input.length →
      (outLiterals g input inp n).out =
        g.out ++
          (if n ≤ 32 then [0x20 + (n - 1)]
           else if n ≤ 2048 then [(0x0800 + (n - 1)) / 256, (0x0800 + (n - 1)) % 256]
           else [(0x070000 + (n - 1)) / 65536, (0x070000 + (n - 1)) / 256 % 256,
                 (0x070000 + (n - 1)) % 256]) ++
          ((input.drop inp).take n).map UInt8.toNat ∧
      (n ≤ 32 → 0x20 + (n - 1) < 256) ∧
      (n ≤ 2048 → 0x0800 + (n - 1) < 65536) ∧
      0x070000 + (n - 1) < 16777216 := by
  constructor
  · rw [outLiterals_eq_emit, literalBytes_small _ _ _ (by omega)]
    simp [emit, litPrefix, payload]
  · intro n h1 h2 hin
    refine ⟨?_, by omega, by omega, by omega⟩
    rw [outLiterals_eq_emit, literalBytes_small _ _ _ h2, payload_eq_slice _ _ _ hin, emit_out,
      ← List.append_assoc]
    congr 2
    unfold litPrefix
    have h0 : n ≠ 0 := by omega
    rw [if_neg h0]
    by_cases ha : n ≤ 32
    · rw [if_pos ha, if_pos ha]
      have : (32 + n - 1) % 256 = 32 + (n - 1) := by omega
      rw [this]
    · rw [if_neg ha, if_neg ha]
      by_cases hb : n ≤ 2048
      · rw [if_pos hb, if_pos hb, shiftBytes_zero _ (by omega)]
        have : 2048 + n - 1 = 2048 + (n - 1) := by omega
        rw [this]
      · rw [if_neg hb, if_neg hb, shiftBytes_one _ (by omega)]
        have : 458752 + n - 1 = 458752 + (n - 1) := by omega
        rw [this]

theorem outLiterals_prefix_and_payload_witness :
    (1 ≤ 3 ∧ 3 ≤ 65536 ∧ 0 + 3 ≤ ([7, 8, 9, 10] : List UInt8).length) ∧
    (outLiterals ⟨[], 0, 0⟩ [7, 8, 9, 10] 0 3).out = [0x22, 7, 8, 9] :=
  ⟨⟨by decide, by decide, by decide⟩,
    ((outLiterals_prefix_and_payload ⟨[], 0, 0⟩ [7, 8, 9, 10] 0).2 3
      (by decide) (by decide) (by decide)).1⟩

/-- C7: a literal run of `n > 0` bytes inside the input is stored as
ceil(n / 65536) literal blocks (prefix, then payload); every block has a run
length between 1 and 65536, every block but the last exactly 65536, a run of
more than 65536 bytes gives at least two blocks, and the payloads in order
are the `n` bytes of the run. -/
theorem outLiterals_blocks (g : Globals) (input : List UInt8) (inp n : Nat)
    (hn : 0 < n) (hin : inp + n ≤ input.length) :
    (outLiterals g input inp n).out =
        g.out ++ ((litBlocks inp n).map (fun b => literalBlock input b.1 b.2)).flatten ∧
    (litBlocks inp n).length = (n + 65535) / 65536 ∧
    (∀ b ∈ litBlocks inp n, 1 ≤ b.2 ∧ b.2 ≤ 65536) ∧
    (∀ (i : Nat) (b : Nat × Nat), i + 1 < (litBlocks inp n).length →
        (litBlocks inp n)[i]? = some b → b.2 = 65536) ∧
    (65536 < n → 2 ≤ (litBlocks inp n).length) ∧
    ((litBlocks inp n).map (fun b => payload input b.1 b.2)).flatten =
        ((input.drop inp).take n).map UInt8.toNat := by
  have hlen : (litBlocks inp n).length = (n + 65535) / 65536 := by simp [litBlocks]
  refine ⟨?_, hlen, ?_, ?_, ?_, ?_⟩
  · rw [outLiterals_eq_emit, emit_out, litBlocks_eq inp n hn]
    unfold literalBytes
    rw [fullBlocks_eq_range]
    simp [List.map_append, Function.comp_def]
  · intro b hb
    unfold litBlocks at hb
    rw [List.mem_map] at hb
    obtain ⟨j, hj, rfl⟩ := hb
    have hj : j < (n + 65535) / 65536 := List.mem_range.mp hj
    constructor
    · show 1 ≤ min 65536 (n - 65536 * j)
      omega
    · show min 65536 (n - 65536 * j) ≤ 65536
      omega
  · intro i b hi hb
    rw [hlen] at hi
    unfold litBlocks at hb
    rw [List.getElem?_map, List.getElem?_range (by omega)] at hb
    simp only [Option.map_some', Option.some.injEq] at hb
    subst hb
    show min 65536 (n - 65536 * i) = 65536
    omega
  · intro h
    rw [hlen]
    omega
  · rw [litBlocks_eq inp n hn, ← payload_eq_slice input inp n hin]
    have hsplit : n = 65536 * ((n - 1) / 65536) + (n - 65536 * ((n - 1) / 65536)) := by omega
    conv => rhs; rw [hsplit, payload_add]
    rw [← fullPayload_eq]
    simp [List.map_append, Function.comp_def]

theorem replicate_run (n : Nat) : 0 + n ≤ (List.replicate n (0 : UInt8)).length := by
  rw [List.length_replicate]; omega

theorem outLiterals_blocks_witness :
    (0 < 70000 ∧ 0 + 70000 ≤ (List.replicate 70000 (0 : UInt8)).length) ∧
    2 ≤ (litBlocks 0 70000).length :=
  ⟨⟨by omega, replicate_run 70000⟩,
    (outLiterals_blocks ⟨[], 0, 0⟩ (List.replicate 70000 (0 : UInt8)) 0 70000
      (by omega) (replicate_run 70000)).2.2.2.2.1 (by omega)⟩

/-! ## The match finder -/

theorem matchLengthLoop_le (input : List UInt8) (m1 m2 : Nat) :
    ∀ (rem i : Nat), matchLengthLoop input m1 m2 rem i ≤ i + rem := by
  intro rem
  induction rem with
  | zero => intro i; simp [matchLengthLoop]
  | succ rem ih =>
    intro i
    unfold matchLengthLoop
    split
    · omega
    · have := ih (i + 1); omega

theorem matchLength_le (input : List UInt8) (m1 m2 maxLength : Nat) :
    matchLength input m1 m2 maxLength ≤ maxLength := by
  have := matchLengthLoop_le input m1 m2 maxLength 0
  unfold matchLength
  omega

theorem matchMax_le (endp q : Nat) : matchMax endp q ≤ 65536 ∧ q + matchMax endp q ≤ max endp q := by
  unfold matchMax
  split <;> omega

theorem STB__TRY_retained (input : List UInt8) (endp : Nat) (cHash : Nat → Option Nat)
    (q h t : Nat) (p : Bool) (bd : Nat × Int) (ht : cHash h = some t)
    (hbd : Retained input endp cHash q bd) :
    Retained input endp cHash q (STB__TRY input stb__window q (matchMax endp q) t p bd) := by
  unfold STB__TRY
  by_cases hp : (if p then bd.2 ≠ (q : Int) - (t : Int) else True)
  · rw [if_pos hp]
    simp only
    by_cases hm : matchLength input t q (matchMax endp q) > bd.1
    · rw [if_pos hm]
      by_cases hnc : stb__nc stb__window (matchLength input t q (matchMax endp q))
          ((q : Int) - (t : Int)) = true
      · rw [if_pos hnc]
        right
        refine ⟨h, t, ht, rfl, rfl, ?_, hnc⟩
        rcases hbd with hbd | ⟨_, _, _, _, _, h3, _⟩
        · rw [hbd] at hm; simp only at hm ⊢; omega
        · simp only at hm ⊢; omega
      · rw [if_neg hnc]; exact hbd
    · rw [if_neg hm]; exact hbd
  · rw [if_neg hp]; exact hbd

theorem probe_retained (input : List UInt8) (endp : Nat) (cHash : Nat → Option Nat)
    (q h : Nat) (p : Bool) (bd : Nat × Int) (hbd : Retained input endp cHash q bd) :
    Retained input endp cHash q (probe input stb__window cHash q (matchMax endp q) h p bd) := by
  unfold probe
  split
  · rename_i t ht
    exact STB__TRY_retained input endp cHash q h t p bd ht hbd
  · exact hbd

theorem findBest_retained (input : List UInt8) (endp : Nat) (cHash : Nat → Option Nat)
    (mask q : Nat) : Retained input endp cHash q (findBest input endp cHash mask q) := by
  unfold findBest
  exact probe_retained _ _ _ _ _ _ _ (probe_retained _ _ _ _ _ _ _
    (probe_retained _ _ _ _ _ _ _ (probe_retained _ _ _ _ _ _ _ (Or.inl rfl))))

/-! ## One iteration of the scanning loop -/

theorem chunkBody_eq (input : List UInt8) (endp mask : Nat) (s : ChunkState) :
    chunkBody input endp mask s =
      match matchOpcode (findBest input endp s.cHash mask s.q).1
          (findBest input endp s.cHash mask s.q).2 with
      | none => { s with cHash := nextTable input mask s.cHash s.q, q := s.q + 1 }
      | some r =>
        { g := emit (outLiterals s.g input s.lit_start (s.q - s.lit_start)) r.2,
          cHash := nextTable input mask s.cHash s.q,
          q := s.q + r.1, lit_start := s.q + r.1 } := by
  unfold chunkBody matchOpcode nextTable
  simp only
  split_ifs <;> simp [out_eq_emit, shiftOut_eq_emit, emit_emit]

theorem literalBlock_length (input : List UInt8) (inp n : Nat) :
    (literalBlock input inp n).length = (litPrefix n).length + n := by
  simp [literalBlock, payload]

theorem litPrefix_full : litPrefix 65536 = [7, 255, 255] := by
  simp [litPrefix, shiftBytes]

theorem fullBlocks_length (input : List UInt8) :
    ∀ (k inp : Nat), (fullBlocks input inp k).length = 65539 * k := by
  intro k
  induction k with
  | zero => intro inp; rw [fullBlocks]; rfl
  | succ k ih =>
    intro inp
    rw [fullBlocks_succ, List.length_append, ih, literalBlock_length, litPrefix_full]
    simp only [List.length_cons, List.length_nil]
    omega

theorem litPrefix_length_bound (n : Nat) : 4 * (litPrefix n).length ≤ n + 3 := by
  unfold litPrefix
  by_cases h0 : n = 0
  · simp [h0]
  · rw [if_neg h0]
    by_cases h1 : n ≤ 32
    · rw [if_pos h1]; simp; omega
    · rw [if_neg h1]
      by_cases h2 : n ≤ 2048
      · rw [if_pos h2, shiftBytes_length]; simp; omega
      · rw [if_neg h2, shiftBytes_length]; simp; omega

theorem literalBytes_length_bound (input : List UInt8) (inp n : Nat) :
    4 * (literalBytes input inp n).length ≤ 5 * n + 3 := by
  unfold literalBytes
  rw [List.length_append, fullBlocks_length, literalBlock_length]
  have := litPrefix_length_bound (n - 65536 * ((n - 1) / 65536))
  omega

theorem literalBytes_zero (input : List UInt8) (inp : Nat) : literalBytes input inp 0 = [] := by
  rw [literalBytes_small _ _ _ (by omega)]
  simp [litPrefix, payload]

theorem matchOpcode_some (best : Nat) (dist : Int) (r : Nat × List Nat)
    (h : matchOpcode best dist = some r) :
    3 ≤ r.1 ∧ r.1 ≤ best ∧ (best ≤ 65536 → r.1 = best) ∧ 2 ≤ r.2.length ∧
      4 * r.2.length + 3 ≤ 5 * r.1 := by
  unfold matchOpcode at h
  split_ifs at h <;>
    simp only [Option.some.injEq] at h <;> subst h <;>
    simp only [shiftBytes_length, List.length_append, List.length_cons, List.length_nil,
      ge_iff_le, le_refl, if_true, if_false, Nat.le_refl, Nat.reduceLeDiff, Nat.reduceAdd,
      ite_true, ite_false] <;>
    refine ⟨?_, ?_, ?_, ?_, ?_⟩ <;> (first | trivial | omega | (intro _; trivial))

/-! ## The scanning loop -/

theorem findBest_le (input : List UInt8) (endp : Nat) (cHash : Nat → Option Nat)
    (mask q : Nat) :
    (findBest input endp cHash mask q).1 = 2 ∨
      (3 ≤ (findBest input endp cHash mask q).1 ∧
        (findBest input endp cHash mask q).1 ≤ matchMax endp q) := by
  rcases findBest_retained input endp cHash mask q with h | ⟨_, t, _, _, hm, h3, _⟩
  · left; rw [h]
  · right
    refine ⟨h3, ?_⟩
    rw [hm]
    exact matchLength_le _ _ _ _

theorem chunkLoop_induction (input : List UInt8) (start endp : Nat) (length : Int) (mask : Nat)
    (P : ChunkState → Prop)
    (hstep : ∀ s, P s → (s.q : Int) < (start : Int) + length → s.q + 12 < endp →
      P (chunkBody input endp mask s)) :
    ∀ (fuel : Nat) (s : ChunkState), P s → P (chunkLoop input start endp length mask fuel s) := by
  intro fuel
  induction fuel with
  | zero => intro s hs; exact hs
  | succ fuel ih =>
    intro s hs
    unfold chunkLoop
    by_cases hg : (s.q : Int) < (start : Int) + length ∧ s.q + 12 < endp
    · rw [if_pos hg]
      exact ih _ (hstep s hs hg.1 hg.2)
    · rw [if_neg hg]; exact hs

theorem chunkBody_q_lt (input : List UInt8) (endp mask : Nat) (s : ChunkState) :
    s.q < (chunkBody input endp mask s).q := by
  rw [chunkBody_eq]
  cases h : matchOpcode (findBest input endp s.cHash mask s.q).1
      (findBest input endp s.cHash mask s.q).2 with
  | none => simp
  | some r =>
    have := matchOpcode_some _ _ _ h
    simp only
    omega

/-- The fuel `compressChunk` starts its loop with is never exhausted: the loop
ends because its condition fails. -/
theorem chunkLoop_exit (input : List UInt8) (start endp : Nat) (length : Int) (mask : Nat) :
    ∀ (fuel : Nat) (s : ChunkState), ((start : Int) + length - (s.q : Int)).toNat ≤ fuel →
      ¬ (((chunkLoop input start endp length mask fuel s).q : Int) < (start : Int) + length ∧
        (chunkLoop input start endp length mask fuel s).q + 12 < endp) := by
  intro fuel
  induction fuel with
  | zero =>
    intro s hs
    unfold chunkLoop
    omega
  | succ fuel ih =>
    intro s hs
    unfold chunkLoop
    by_cases hg : (s.q : Int) < (start : Int) + length ∧ s.q + 12 < endp
    · rw [if_pos hg]
      apply ih
      have := chunkBody_q_lt input endp mask s
      omega
    · rw [if_neg hg]; exact hg

/-- Positions stay ordered during the scan: `lit_start ≤ q ≤ end`. -/
theorem chunkBody_bounds (input : List UInt8) (endp mask : Nat) (s : ChunkState)
    (h1 : s.lit_start ≤ s.q) (h2 : s.q + 12 < endp) :
    (chunkBody input endp mask s).lit_start ≤ (chunkBody input endp mask s).q ∧
      (chunkBody input endp mask s).q ≤ endp := by
  rw [chunkBody_eq]
  cases h : matchOpcode (findBest input endp s.cHash mask s.q).1
      (findBest input endp s.cHash mask s.q).2 with
  | none => simp only; omega
  | some r =>
    have hr := matchOpcode_some _ _ _ h
    have hm := matchMax_le endp s.q
    simp only
    rcases findBest_le input endp s.cHash mask s.q with hb | ⟨_, hb⟩
    · omega
    · omega

theorem chunkLoop_bounds (input : List UInt8) (start endp : Nat) (length : Int) (mask : Nat)
    (fuel : Nat) (s : ChunkState) (h1 : s.lit_start ≤ s.q) (h2 : s.q ≤ endp) :
    (chunkLoop input start endp length mask fuel s).lit_start ≤
        (chunkLoop input start endp length mask fuel s).q ∧
      (chunkLoop input start endp length mask fuel s).q ≤ endp := by
  apply chunkLoop_induction input start endp length mask
    (fun s => s.lit_start ≤ s.q ∧ s.q ≤ endp)
  · intro s hs _ hg
    exact chunkBody_bounds input endp mask s hs.1 hg
  · exact ⟨h1, h2⟩

/-- The bytes the scanning loop stores are the bytes of its opcodes. -/
theorem chunkLoop_g (input : List UInt8) (start endp : Nat) (length : Int) (mask : Nat) :
    ∀ (fuel : Nat) (s : ChunkState),
      (chunkLoop input start endp length mask fuel s).g =
        emit s.g (opsBytes input (chunkOps input start endp length mask fuel s)) := by
  intro fuel
  induction fuel with
  | zero => intro s; simp [chunkLoop, chunkOps, opsBytes, emit_nil]
  | succ fuel ih =>
    intro s
    unfold chunkLoop chunkOps
    by_cases hg : (s.q : Int) < (start : Int) + length ∧ s.q + 12 < endp
    · rw [if_pos hg, if_pos hg, ih]
      have hb := chunkBody_eq input endp mask s
      cases h : matchOpcode (findBest input endp s.cHash mask s.q).1
          (findBest input endp s.cHash mask s.q).2 with
      | none =>
        rw [h] at hb
        rw [hb]
        simp
      | some r =>
        rw [h] at hb
        rw [hb]
        simp [opsBytes, opBytes, h, outLiterals_eq_emit, emit_emit]
    · rw [if_neg hg, if_neg hg]
      simp [opsBytes, emit_nil]

/-! ## The whole stream -/

theorem opsBytes_append (input : List UInt8) (a b : List Op) :
    opsBytes input (a ++ b) = opsBytes input a ++ opsBytes input b := by
  simp [opsBytes]

theorem header_emit (g : Globals) (length : Nat) :
    shiftOut (shiftOut (shiftOut (shiftOut (out (out g 0x57) 0xbc) 0 0) 0 2) length 2)
      (toUInt32 stb__window) 2 = emit g (headerBytes length) := by
  simp [out_eq_emit, shiftOut_eq_emit, emit_emit, headerBytes]

theorem compressInner_eq (g : Globals) (input : List UInt8) (length : Nat) :
    compressInner g input length =
      (emit
        (compressChunk { emit g (headerBytes length) with running_adler := 1 } input 0 length
          (toInt32 length) 0 (fun _ => none) (stb__hashsize - 1)).1
        (literalBytes input
          (length - (compressChunk { emit g (headerBytes length) with running_adler := 1 } input 0
            length (toInt32 length) 0 (fun _ => none) (stb__hashsize - 1)).2.1)
          (compressChunk { emit g (headerBytes length) with running_adler := 1 } input 0
            length (toInt32 length) 0 (fun _ => none) (stb__hashsize - 1)).2.1 ++
          trailerBytes
            (compressChunk { emit g (headerBytes length) with running_adler := 1 } input 0 length
              (toInt32 length) 0 (fun _ => none) (stb__hashsize - 1)).1.running_adler), 1) := by
  unfold compressInner
  simp only [header_emit]
  simp only [outLiterals_eq_emit, shiftOut_eq_emit, emit_emit, emit_running_adler,
    trailerBytes, List.append_assoc]

theorem compressChunk_eq (g : Globals) (input : List UInt8) (endp : Nat) (length : Int)
    (cHash : Nat → Option Nat) (mask : Nat) (s : ChunkState)
    (hs : s = chunkLoop input 0 endp length mask length.toNat
      { g := g, cHash := cHash, q := 0, lit_start := 0 }) :
    compressChunk g input 0 endp length 0 cHash mask =
      ({ s.g with running_adler := adler32 g.running_adler input (toUInt32 (chunkQ length s)) },
        chunkQ length s - s.lit_start, (chunkQ length s : Int)) := by
  have hg : s.g.running_adler = g.running_adler := by
    rw [hs, chunkLoop_g, emit_running_adler]
  unfold compressChunk chunkQ
  simp only [Nat.sub_zero, List.drop_zero, Nat.cast_zero, Int.sub_zero, Int.zero_add, sub_zero,
    zero_add]
  rw [← hs, hg]

/-- The stream `compress` stores: header, opcodes, trailer with the running
checksum, which is `adler32` from 1 over the bytes the scan consumed. -/
theorem compress_out (g : Globals) (input : List UInt8) :
    (compress g input).1.out =
      headerBytes (len32 input) ++ opsBytes input (compressOps g input) ++
        trailerBytes (adler32 1 input (toUInt32 (scanQ g input))) := by
  have hc := compressChunk_eq
    { emit { g with out := [] } (headerBytes (len32 input)) with running_adler := 1 } input
    (len32 input) (toInt32 (len32 input)) (fun _ => none) (stb__hashsize - 1)
    (scanEnd g input) rfl
  unfold compress
  simp only
  rw [show input.length % 4294967296 = len32 input from rfl, compressInner_eq, hc]
  simp only [emit_out]
  rw [show chunkQ (toInt32 (len32 input)) (scanEnd g input) = scanQ g input from rfl]
  have hg : (scanEnd g input).g.out = headerBytes (len32 input) ++
      opsBytes input (chunkOps input 0 (len32 input) (toInt32 (len32 input)) (stb__hashsize - 1)
        (toInt32 (len32 input)).toNat (scanStart g input)) := by
    unfold scanEnd
    rw [chunkLoop_g]
    simp [scanStart, emit]
  rw [hg]
  unfold compressOps
  rw [opsBytes_append]
  simp [opsBytes, opBytes, List.append_assoc]

theorem toInt32_small (n : Nat) (h : n < 2147483648) : toInt32 n = (n : Int) := by
  unfold toInt32
  have e : n % 4294967296 = n := by omega
  rw [e, if_pos h]

theorem toInt32_neg (n : Nat) (h1 : 2147483648 ≤ n) (h2 : n < 4294967296) : toInt32 n < 0 := by
  unfold toInt32
  have e : n % 4294967296 = n := by omega
  rw [e, if_neg (by omega)]
  omega

theorem len32_lt (input : List UInt8) : len32 input < 4294967296 := by
  unfold len32; omega

theorem len32_le (input : List UInt8) : len32 input ≤ input.length := by
  unfold len32; exact Nat.mod_le _ _

theorem scanEnd_bounds (g : Globals) (input : List UInt8) :
    (scanEnd g input).lit_start ≤ (scanEnd g input).q ∧ (scanEnd g input).q ≤ len32 input := by
  unfold scanEnd
  apply chunkLoop_bounds
  · simp [scanStart]
  · simp [scanStart]

/-- The scan consumes the whole input when its length fits `int`, and nothing
otherwise. -/
theorem scanQ_eq (g : Globals) (input : List UInt8) :
    scanQ g input = if len32 input < 2147483648 then len32 input else 0 := by
  unfold scanQ chunkQ
  by_cases h : len32 input < 2147483648
  · rw [if_pos h, toInt32_small _ h]
    have := (scanEnd_bounds g input).2
    split
    · simp
    · omega
  · rw [if_neg h]
    have hneg := toInt32_neg (len32 input) (by omega) (len32_lt input)
    have hq : (scanEnd g input).q = 0 := by
      unfold scanEnd
      have : (toInt32 (len32 input)).toNat = 0 := by omega
      rw [this]
      simp [chunkLoop, scanStart]
    rw [hq, if_neg (by omega)]

theorem headerBytes_length (length : Nat) : (headerBytes length).length = 16 := by
  simp [headerBytes, shiftBytes_length]

theorem trailerBytes_length (adler : Nat) : (trailerBytes adler).length = 6 := by
  simp [trailerBytes, shiftBytes_length]

/-- Size invariant of the scan: four output bytes cost at least five input
bytes once the pending literals are flushed. -/
theorem chunkBody_size (input : List UInt8) (endp mask : Nat) (s : ChunkState) (c : Nat)
    (h1 : s.lit_start ≤ s.q) (h : 4 * s.g.out.length ≤ c + 5 * s.lit_start) :
    4 * (chunkBody input endp mask s).g.out.length ≤
      c + 5 * (chunkBody input endp mask s).lit_start := by
  rw [chunkBody_eq]
  cases hm : matchOpcode (findBest input endp s.cHash mask s.q).1
      (findBest input endp s.cHash mask s.q).2 with
  | none => simpa using h
  | some r =>
    have hr := matchOpcode_some _ _ _ hm
    have hl := literalBytes_length_bound input s.lit_start (s.q - s.lit_start)
    simp only [outLiterals_eq_emit, emit_emit, emit_out, List.length_append]
    omega

theorem scanEnd_size (g : Globals) (input : List UInt8) :
    4 * (scanEnd g input).g.out.length ≤ 64 + 5 * (scanEnd g input).lit_start := by
  have key := chunkLoop_induction input 0 (len32 input) (toInt32 (len32 input))
    (stb__hashsize - 1)
    (fun s => s.lit_start ≤ s.q ∧ s.q ≤ len32 input ∧
      4 * s.g.out.length ≤ 64 + 5 * s.lit_start)
    (fun s hs _ hg =>
      ⟨(chunkBody_bounds input _ _ s hs.1 hg).1, (chunkBody_bounds input _ _ s hs.1 hg).2,
        chunkBody_size input _ _ s 64 hs.1 hs.2.2⟩)
    (toInt32 (len32 input)).toNat (scanStart g input)
    (by simp [scanStart, emit_out, headerBytes_length])
  exact key.2.2

theorem compress_out_scan (g : Globals) (input : List UInt8) :
    (compress g input).1.out =
      (scanEnd g input).g.out ++
        literalBytes input (len32 input - (scanQ g input - (scanEnd g input).lit_start))
          (scanQ g input - (scanEnd g input).lit_start) ++
        trailerBytes (adler32 1 input (toUInt32 (scanQ g input))) := by
  have hc := compressChunk_eq
    { emit { g with out := [] } (headerBytes (len32 input)) with running_adler := 1 } input
    (len32 input) (toInt32 (len32 input)) (fun _ => none) (stb__hashsize - 1)
    (scanEnd g input) rfl
  unfold compress
  simp only
  rw [show input.length % 4294967296 = len32 input from rfl, compressInner_eq, hc]
  simp only [emit_out]
  rw [show chunkQ (toInt32 (len32 input)) (scanEnd g input) = scanQ g input from rfl,
    List.append_assoc]

theorem compress_length_bound (g : Globals) (input : List UInt8) :
    4 * (compress g input).1.out.length ≤ 5 * scanQ g input + 91 := by
  rw [compress_out_scan]
  have h1 := scanEnd_size g input
  have h2 := scanEnd_bounds g input
  have h3 := literalBytes_length_bound input
    (len32 input - (scanQ g input - (scanEnd g input).lit_start))
    (scanQ g input - (scanEnd g input).lit_start)
  have h4 : (scanEnd g input).q ≤ scanQ g input := by
    unfold scanQ chunkQ
    split <;> omega
  simp only [List.length_append, trailerBytes_length]
  omega

/-! ## Every match of the stream is an accepted candidate -/

theorem chunkBody_cHash (input : List UInt8) (endp mask : Nat) (s : ChunkState) :
    (chunkBody input endp mask s).cHash = nextTable input mask s.cHash s.q := by
  rw [chunkBody_eq]
  cases matchOpcode (findBest input endp s.cHash mask s.q).1
      (findBest input endp s.cHash mask s.q).2 <;> rfl

theorem nextTable_some (input : List UInt8) (mask : Nat) (cHash : Nat → Option Nat)
    (q h t : Nat) (ht : nextTable input mask cHash q h = some t) :
    t = q ∨ cHash h = some t := by
  unfold nextTable setHash at ht
  split_ifs at ht
  · left; exact (Option.some.inj ht).symm
  · left; exact (Option.some.inj ht).symm
  · left; exact (Option.some.inj ht).symm
  · left; exact (Option.some.inj ht).symm
  · right; exact ht

theorem chunkBody_tableBefore (input : List UInt8) (endp mask : Nat) (s : ChunkState)
    (h : TableBefore s.cHash s.q) :
    TableBefore (chunkBody input endp mask s).cHash (chunkBody input endp mask s).q := by
  intro i t ht
  rw [chunkBody_cHash] at ht
  have hq := chunkBody_q_lt input endp mask s
  rcases nextTable_some input mask s.cHash s.q i t ht with e | e
  · omega
  · have := h i t e
    omega

/-- A retained pair with `best ≥ 3` found in a table whose positions precede
the cursor: its length is at most 65536, its distance positive, and it passed
the acceptance test. -/
theorem findBest_accepted (input : List UInt8) (endp : Nat) (cHash : Nat → Option Nat)
    (mask q : Nat) (hT : TableBefore cHash q)
    (h3 : 3 ≤ (findBest input endp cHash mask q).1) :
    (findBest input endp cHash mask q).1 ≤ 65536 ∧
      1 ≤ (findBest input endp cHash mask q).2 ∧
      stb__nc stb__window (findBest input endp cHash mask q).1
        (findBest input endp cHash mask q).2 = true := by
  rcases findBest_retained input endp cHash mask q with h | ⟨i, t, ht, hd, hm, _, hnc⟩
  · rw [h] at h3; simp at h3
  · have h1 := matchLength_le input t q (matchMax endp q)
    have h2 := (matchMax_le endp q).1
    have h4 := hT i t ht
    refine ⟨by omega, by omega, hnc⟩

theorem chunkOps_forall (input : List UInt8) (start endp : Nat) (length : Int) (mask : Nat)
    (P : Op → Prop)
    (hP : ∀ s : ChunkState, TableBefore s.cHash s.q → s.lit_start ≤ s.q → s.q + 12 < endp →
      ∀ r, matchOpcode (findBest input endp s.cHash mask s.q).1
          (findBest input endp s.cHash mask s.q).2 = some r →
        P (Op.lit s.lit_start (s.q - s.lit_start)) ∧
        P (Op.mat (findBest input endp s.cHash mask s.q).1
          (findBest input endp s.cHash mask s.q).2)) :
    ∀ (fuel : Nat) (s : ChunkState), TableBefore s.cHash s.q → s.lit_start ≤ s.q →
      ∀ op ∈ chunkOps input start endp length mask fuel s, P op := by
  intro fuel
  induction fuel with
  | zero => intro s _ _ op hop; simp [chunkOps] at hop
  | succ fuel ih =>
    intro s hT hl op hop
    unfold chunkOps at hop
    by_cases hg : (s.q : Int) < (start : Int) + length ∧ s.q + 12 < endp
    · rw [if_pos hg, List.mem_append] at hop
      rcases hop with hop | hop
      · cases hm : matchOpcode (findBest input endp s.cHash mask s.q).1
            (findBest input endp s.cHash mask s.q).2 with
        | none => rw [hm] at hop; simp at hop
        | some r =>
          rw [hm] at hop
          have := hP s hT hl hg.2 r hm
          simp only [List.mem_cons, List.mem_singleton, List.not_mem_nil, or_false] at hop
          rcases hop with e | e
          · rw [e]; exact this.1
          · rw [e]; exact this.2
      · exact ih _ (chunkBody_tableBefore input endp mask s hT)
          (chunkBody_bounds input endp mask s hl hg.2).1 op hop
    · rw [if_neg hg] at hop; simp at hop

theorem stb__nc_iff (b : Nat) (d : Int) :
    stb__nc stb__window b d = true ↔
      d ≤ 262144 ∧ (b > 9 ∨ (b > 2 ∧ d ≤ 256) ∨ (b > 5 ∧ d ≤ 16384) ∨ (b > 7 ∧ d ≤ 524288)) := by
  simp [stb__nc, stb_not_crap, stb__window, or_assoc]

/-- With the window of 0x40000 an accepted candidate of length at most 65536
is always encoded as a match that consumes `best` bytes. -/
theorem matchOpcode_accepted (best : Nat) (dist : Int) (h3 : 3 ≤ best) (h4 : best ≤ 65536)
    (hnc : stb__nc stb__window best dist = true) :
    ∃ bytes, matchOpcode best dist = some (best, bytes) := by
  rw [stb__nc_iff] at hnc
  unfold matchOpcode
  split_ifs <;> first | exact ⟨_, rfl⟩ | omega

/-- Every match opcode of the stream carries a retained pair with
`3 ≤ best ≤ 65536`, positive distance, accepted by `stb__nc`. -/
theorem compressOps_mat (g : Globals) (input : List UInt8) (best : Nat) (dist : Int)
    (h : Op.mat best dist ∈ compressOps g input) :
    3 ≤ best ∧ best ≤ 65536 ∧ 1 ≤ dist ∧ stb__nc stb__window best dist = true := by
  unfold compressOps at h
  rw [List.mem_append] at h
  rcases h with h | h
  · have key := chunkOps_forall input 0 (len32 input) (toInt32 (len32 input)) (stb__hashsize - 1)
      (fun op => match op with
        | Op.lit _ _ => True
        | Op.mat b d => 3 ≤ b ∧ b ≤ 65536 ∧ 1 ≤ d ∧ stb__nc stb__window b d = true)
      (by
        intro s hT _ _ r hr
        refine ⟨trivial, ?_⟩
        have h3 : 3 ≤ (findBest input (len32 input) s.cHash (stb__hashsize - 1) s.q).1 := by
          have := matchOpcode_some _ _ _ hr
          omega
        have := findBest_accepted input (len32 input) s.cHash (stb__hashsize - 1) s.q hT h3
        exact ⟨h3, this.1, this.2.1, this.2.2⟩)
      (toInt32 (len32 input)).toNat (scanStart g input)
      (by intro i t ht; simp [scanStart] at ht) (by simp [scanStart]) _ h
    exact key
  · simp at h

theorem compress_running_adler (g : Globals) (input : List UInt8) :
    (compress g input).1.running_adler = adler32 1 input (toUInt32 (scanQ g input)) := by
  have hc := compressChunk_eq
    { emit { g with out := [] } (headerBytes (len32 input)) with running_adler := 1 } input
    (len32 input) (toInt32 (len32 input)) (fun _ => none) (stb__hashsize - 1)
    (scanEnd g input) rfl
  unfold compress
  simp only
  rw [show input.length % 4294967296 = len32 input from rfl, compressInner_eq, hc]
  rfl

theorem adler32_lt (adler : Nat) (buffer : List UInt8) (n : Nat) :
    adler32 adler buffer n < 4294967296 := by
  unfold adler32
  exact Nat.mod_lt _ (by omega)

theorem headerBytes_eq (n : Nat) (h : n < 4294967296) :
    headerBytes n = [0x57, 0xBC, 0, 0, 0, 0, 0, 0] ++
      [n / 16777216, n / 65536 % 256, n / 256 % 256, n % 256] ++ [0, 4, 0, 0] := by
  unfold headerBytes
  rw [shiftBytes_two n h]
  have hw : toUInt32 stb__window = 262144 := by decide
  rw [hw]
  simp [shiftBytes]

theorem trailerBytes_eq (c : Nat) (h : c < 4294967296) :
    trailerBytes c = [0x05, 0xFA] ++ [c / 16777216, c / 65536 % 256, c / 256 % 256, c % 256] := by
  unfold trailerBytes
  rw [shiftBytes_two c h]
  simp [shiftBytes]

theorem scanQ_le (g : Globals) (input : List UInt8) :
    scanQ g input ≤ input.length ∧ scanQ g input < 2147483648 := by
  have h3 := len32_le input
  rw [scanQ_eq]; split <;> omega

/-- The value `compress` returns is the number of bytes it stored. -/
theorem compress_ret (g : Globals) (input : List UInt8) :
    (compress g input).2 = (compress g input).1.out.length := by
  have h1 := compress_length_bound g input
  have h4 := scanQ_le g input
  show (compress g input).1.out.length % 4294967296 = _
  omega

/-- C2: for every input of `n` bytes the number of bytes `compress` stores is
at most `n + 512 + n / 4 + 4`, and it is the value `compress` returns. -/
theorem compress_size_le (g : Globals) (input : List UInt8) :
    (compress g input).1.out.length ≤ input.length + 512 + input.length / 4 + 4 ∧
      (compress g input).2 = (compress g input).1.out.length := by
  have h1 := compress_length_bound g input
  have h4 := scanQ_le g input
  exact ⟨by omega, compress_ret g input⟩

theorem compressOps_nil (g : Globals) : opsBytes [] (compressOps g []) = [] := by
  have h1 : len32 ([] : List UInt8) = 0 := rfl
  have h2 : scanQ g [] = 0 := by rw [scanQ_eq]; rfl
  unfold compressOps
  rw [h2, h1]
  simp [toInt32, chunkOps, opsBytes, opBytes, literalBytes_zero]

theorem compress_nil_out (g : Globals) :
    (compress g []).1.out = headerBytes 0 ++ trailerBytes 1 := by
  have h1 : len32 ([] : List UInt8) = 0 := rfl
  have h2 : scanQ g [] = 0 := by rw [scanQ_eq]; rfl
  rw [compress_out, h1, h2, compressOps_nil]
  rfl

/-- C10: for the empty input `compress` stores the header and then the
trailer, with the checksum 1 of the empty input and no opcode in between; these
are 22 bytes. -/
theorem compress_empty (g : Globals) :
    (compress g []).1.out = headerBytes 0 ++ trailerBytes 1 ∧
      adler32 1 [] 0 = 1 ∧
      (compress g []).1.out =
        [0x57, 0xBC, 0, 0, 0, 0, 0, 0, 0, 0, 0, 0, 0, 4, 0, 0, 0x05, 0xFA, 0, 0, 0, 1] ∧
      (compress g []).2 = 22 := by
  refine ⟨compress_nil_out g, rfl, ?_, ?_⟩
  · rw [compress_nil_out]; rfl
  · rw [compress_ret, compress_nil_out]; rfl

/-- The stream for the one-byte input `A`. -/
theorem compress_one_byte :
    (compress ⟨[], 0, 0⟩ [65]).1.out =
      [0x57, 0xBC, 0, 0, 0, 0, 0, 0, 0, 0, 0, 1, 0, 4, 0, 0, 0x20, 65,
        0x05, 0xFA, 0, 0x42, 0, 0x42] := by
  decide

/-- C8 (as stated) fails: for the one-byte input `A` the stream is not the
signature, some zero bytes, the length 1 in three bytes, the window 0x40000 in
three bytes and then the rest. -/
theorem header_three_byte_fields_fail :
    ¬ ∃ (k : Nat) (rest : List Nat),
      (compress ⟨[], 0, 0⟩ [65]).1.out =
        [0x57, 0xBC] ++ List.replicate k 0 ++ [0, 0, 1] ++ [0x04, 0, 0] ++ rest := by
  rintro ⟨k, rest, h⟩
  rw [compress_one_byte] at h
  have hk : k ≤ 16 := by
    have := congrArg List.length h
    simp at this
    omega
  interval_cases k <;> simp [List.replicate] at h

/-- C8 (amended): the stream begins with the signature `57 BC`, six zero
bytes, the length argument (the input length modulo 2^32) as four big-endian
bytes and the window 0x40000 as the four bytes `00 04 00 00`; the opcodes
follow from offset 16, then the trailer. -/
theorem compress_header (g : Globals) (input : List UInt8) :
    (compress g input).1.out =
      [0x57, 0xBC, 0, 0, 0, 0, 0, 0] ++
        [input.length % 4294967296 / 16777216, input.length % 4294967296 / 65536 % 256,
          input.length % 4294967296 / 256 % 256, input.length % 4294967296 % 256] ++
        [0, 4, 0, 0] ++
        opsBytes input (compressOps g input) ++
        trailerBytes ((compress g input).1.running_adler) := by
  rw [compress_running_adler, compress_out, headerBytes_eq _ (len32_lt input)]
  rfl

/-- C9 (as stated) fails: for the empty input the stream does not end with
`05 FA` followed by three bytes. -/
theorem trailer_three_byte_checksum_fail :
    ¬ ∃ (body : List Nat) (x y z : Nat),
      (compress ⟨[], 0, 0⟩ []).1.out = body ++ [0x05, 0xFA, x, y, z] := by
  rintro ⟨body, x, y, z, h⟩
  rw [compress_nil_out] at h
  have h2 := congrArg List.reverse h
  simp [headerBytes, trailerBytes, shiftBytes] at h2

/-- C9 (amended): the stream ends with the end marker `05 FA` followed by the
final value of the running checksum as four big-endian bytes; nothing follows. -/
theorem compress_trailer (g : Globals) (input : List UInt8) :
    (compress g input).1.out =
      headerBytes (input.length % 4294967296) ++ opsBytes input (compressOps g input) ++
        [0x05, 0xFA] ++
        [(compress g input).1.running_adler / 16777216,
          (compress g input).1.running_adler / 65536 % 256,
          (compress g input).1.running_adler / 256 % 256,
          (compress g input).1.running_adler % 256] ∧
      (compress g input).1.running_adler < 4294967296 := by
  have hlt : (compress g input).1.running_adler < 4294967296 := by
    rw [compress_running_adler]; exact adler32_lt _ _ _
  refine ⟨?_, hlt⟩
  rw [List.append_assoc _ [0x05, 0xFA], ← trailerBytes_eq _ hlt, compress_running_adler,
    compress_out]
  rfl

/-! ## The bytes of the four match classes -/

theorem toUInt32_of_nonneg (v : Int) (h0 : 0 ≤ v) (h1 : v < 4294967296) :
    toUInt32 v = v.toNat := by
  unfold toUInt32
  omega

theorem matchOpcode_short (best : Nat) (dist : Int) (h3 : 3 ≤ best) (h4 : best ≤ 128)
    (hd : 1 ≤ dist) (hd2 : dist ≤ 256) :
    matchOpcode best dist = some (best, [0x80 + (best - 1), (dist - 1).toNat]) := by
  unfold matchOpcode
  rw [if_neg (by omega), if_pos (by omega), toUInt32_of_nonneg _ (by omega) (by omega)]
  have e1 : (128 + best - 1) % 256 = 128 + (best - 1) := by omega
  have e2 : (dist - 1).toNat % 256 = (dist - 1).toNat := by omega
  rw [e1, e2]

theorem matchOpcode_medium (best : Nat) (dist : Int) (hs : ¬ (best ≤ 128 ∧ dist ≤ 256))
    (h3 : 6 ≤ best) (h4 : best ≤ 256) (hd : 1 ≤ dist) (hd2 : dist ≤ 16384) :
    matchOpcode best dist = some (best,
      [(0x4000 + (dist - 1).toNat) / 256, (0x4000 + (dist - 1).toNat) % 256, best - 1]) := by
  unfold matchOpcode
  rw [if_neg (by omega), if_neg (by omega), if_pos (by omega),
    toUInt32_of_nonneg _ (by omega) (by omega)]
  have e0 : (16384 + dist - 1).toNat = 16384 + (dist - 1).toNat := by omega
  have e1 : (best - 1) % 256 = best - 1 := by omega
  rw [e0, e1, shiftBytes_zero _ (by omega)]
  rfl

theorem matchOpcode_longA (best : Nat) (dist : Int)
    (hm : ¬ (6 ≤ best ∧ best ≤ 256 ∧ dist ≤ 16384))
    (h3 : 8 ≤ best) (h4 : best ≤ 256) (hd : 1 ≤ dist) (hd2 : dist ≤ 524288) :
    matchOpcode best dist = some (best,
      [(0x180000 + (dist - 1).toNat) / 65536, (0x180000 + (dist - 1).toNat) / 256 % 256,
        (0x180000 + (dist - 1).toNat) % 256, best - 1]) := by
  unfold matchOpcode
  rw [if_neg (by omega), if_neg (by omega), if_neg (by omega), if_pos (by omega),
    toUInt32_of_nonneg _ (by omega) (by omega)]
  have e0 : (1572864 + dist - 1).toNat = 1572864 + (dist - 1).toNat := by omega
  have e1 : (best - 1) % 256 = best - 1 := by omega
  rw [e0, e1, shiftBytes_one _ (by omega)]
  rfl

theorem matchOpcode_longB (best : Nat) (dist : Int)
    (ha : ¬ (8 ≤ best ∧ best ≤ 256 ∧ dist ≤ 524288))
    (h3 : 9 ≤ best) (h4 : best ≤ 65536) (hd : 1 ≤ dist) (hd2 : dist ≤ 524288) :
    matchOpcode best dist = some (best,
      [(0x100000 + (dist - 1).toNat) / 65536, (0x100000 + (dist - 1).toNat) / 256 % 256,
        (0x100000 + (dist - 1).toNat) % 256, (best - 1) / 256, (best - 1) % 256]) := by
  unfold matchOpcode
  rw [if_neg (by omega), if_neg (by omega), if_neg (by omega), if_neg (by omega),
    if_pos (by omega), toUInt32_of_nonneg _ (by omega) (by omega)]
  have e0 : (1048576 + dist - 1).toNat = 1048576 + (dist - 1).toNat := by omega
  rw [e0, shiftBytes_one _ (by omega), shiftBytes_zero _ (by omega)]
  rfl

/-- An accepted candidate lies in one of the four match classes. -/
theorem accepted_class (best : Nat) (dist : Int) (h3 : 3 ≤ best) (h4 : best ≤ 65536)
    (hnc : stb__nc stb__window best dist = true) :
    (best ≤ 128 ∧ dist ≤ 256) ∨ (6 ≤ best ∧ best ≤ 256 ∧ dist ≤ 16384) ∨
      (8 ≤ best ∧ best ≤ 256 ∧ dist ≤ 524288) ∨ (9 ≤ best ∧ dist ≤ 524288) := by
  rw [stb__nc_iff] at hnc
  omega

/-- What an iteration that encodes a match does to the state. -/
theorem chunkBody_of_matchOpcode (input : List UInt8) (endp mask : Nat) (s : ChunkState)
    (r : Nat × List Nat)
    (h : matchOpcode (findBest input endp s.cHash mask s.q).1
      (findBest input endp s.cHash mask s.q).2 = some r) :
    (chunkBody input endp mask s).g.out =
        (outLiterals s.g input s.lit_start (s.q - s.lit_start)).out ++ r.2 ∧
      (chunkBody input endp mask s).q = s.q + r.1 ∧
      (chunkBody input endp mask s).lit_start = s.q + r.1 := by
  rw [chunkBody_eq, h]
  exact ⟨rfl, rfl, rfl⟩

/-- C4: in an iteration of `compressChunk` whose table records only earlier
positions and whose retained pair `(L, D)` has `L ≥ 3`, the distance is
positive, the pair lies in one of the four match classes, the cursor advances
by `L`, and the bytes stored after the pending literals are those of the
first class that contains the pair: short `0x80 + (L-1)`, `D-1`; medium the two
big-endian bytes of `0x4000 + (D-1)`, then `L-1`; long-distance A the three
big-endian bytes of `0x180000 + (D-1)`, then `L-1`; long-distance B the three
big-endian bytes of `0x100000 + (D-1)`, then the two big-endian bytes of `L-1`.
Every field stays below the bits that select the class. -/
theorem chunkBody_match_bytes (input : List UInt8) (endp mask : Nat) (s : ChunkState)
    (L : Nat) (D : Int) (hT : TableBefore s.cHash s.q)
    (hbd : findBest input endp s.cHash mask s.q = (L, D)) (h3 : 3 ≤ L) :
    1 ≤ D ∧
    (chunkBody input endp mask s).q = s.q + L ∧
    ((L ≤ 128 ∧ D ≤ 256) ∨ (6 ≤ L ∧ L ≤ 256 ∧ D ≤ 16384) ∨
      (8 ≤ L ∧ L ≤ 256 ∧ D ≤ 524288) ∨ (9 ≤ L ∧ L ≤ 65536 ∧ D ≤ 524288)) ∧
    (L ≤ 128 ∧ D ≤ 256 →
      (chunkBody input endp mask s).g.out =
        (outLiterals s.g input s.lit_start (s.q - s.lit_start)).out ++
          [0x80 + (L - 1), (D - 1).toNat] ∧
      0x80 + (L - 1) < 256 ∧ (D - 1).toNat < 256) ∧
    (¬ (L ≤ 128 ∧ D ≤ 256) → 6 ≤ L ∧ L ≤ 256 ∧ D ≤ 16384 →
      (chunkBody input endp mask s).g.out =
        (outLiterals s.g input s.lit_start (s.q - s.lit_start)).out ++
          [(0x4000 + (D - 1).toNat) / 256, (0x4000 + (D - 1).toNat) % 256, L - 1] ∧
      0x4000 + (D - 1).toNat < 0x8000 ∧ L - 1 < 256) ∧
    (¬ (L ≤ 128 ∧ D ≤ 256) → ¬ (6 ≤ L ∧ L ≤ 256 ∧ D ≤ 16384) →
      8 ≤ L ∧ L ≤ 256 ∧ D ≤ 524288 →
      (chunkBody input endp mask s).g.out =
        (outLiterals s.g input s.lit_start (s.q - s.lit_start)).out ++
          [(0x180000 + (D - 1).toNat) / 65536, (0x180000 + (D - 1).toNat) / 256 % 256,
            (0x180000 + (D - 1).toNat) % 256, L - 1] ∧
      0x180000 + (D - 1).toNat < 0x200000 ∧ L - 1 < 256) ∧
    (¬ (L ≤ 128 ∧ D ≤ 256) → ¬ (6 ≤ L ∧ L ≤ 256 ∧ D ≤ 16384) →
      ¬ (8 ≤ L ∧ L ≤ 256 ∧ D ≤ 524288) → 9 ≤ L ∧ L ≤ 65536 ∧ D ≤ 524288 →
      (chunkBody input endp mask s).g.out =
        (outLiterals s.g input s.lit_start (s.q - s.lit_start)).out ++
          [(0x100000 + (D - 1).toNat) / 65536, (0x100000 + (D - 1).toNat) / 256 % 256,
            (0x100000 + (D - 1).toNat) % 256, (L - 1) / 256, (L - 1) % 256] ∧
      0x100000 + (D - 1).toNat < 0x180000 ∧ L - 1 < 65536) := by
  have hacc := findBest_accepted input endp s.cHash mask s.q hT (by rw [hbd]; exact h3)
  rw [hbd] at hacc
  simp only at hacc
  obtain ⟨h4, hd, hnc⟩ := hacc
  have hcls := accepted_class L D h3 h4 hnc
  obtain ⟨bytes, hb⟩ := matchOpcode_accepted L D h3 h4 hnc
  have hstep : ∀ r, matchOpcode L D = some r →
      (chunkBody input endp mask s).g.out =
        (outLiterals s.g input s.lit_start (s.q - s.lit_start)).out ++ r.2 ∧
      (chunkBody input endp mask s).q = s.q + r.1 := by
    intro r hr
    have := chunkBody_of_matchOpcode input endp mask s r (by rw [hbd]; exact hr)
    exact ⟨this.1, this.2.1⟩
  refine ⟨hd, (hstep _ hb).2, by omega, ?_, ?_, ?_, ?_⟩
  · intro hc
    exact ⟨(hstep _ (matchOpcode_short L D h3 hc.1 hd hc.2)).1, by omega, by omega⟩
  · intro hs hc
    exact ⟨(hstep _ (matchOpcode_medium L D hs hc.1 hc.2.1 hd hc.2.2)).1, by omega, by omega⟩
  · intro _ hm hc
    exact ⟨(hstep _ (matchOpcode_longA L D hm hc.1 hc.2.1 hd hc.2.2)).1, by omega, by omega⟩
  · intro _ _ ha hc
    exact ⟨(hstep _ (matchOpcode_longB L D ha hc.1 hc.2.1 hd hc.2.2)).1, by omega, by omega⟩

theorem chunkBody_match_bytes_witness :
    (TableBefore (fun _ => some 0) 4 ∧
      findBest (List.replicate 17 [65, 66, 67, 68]).flatten 68 (fun _ => some 0) 32767 4 =
        (64, 4) ∧ 3 ≤ 64) ∧
    (chunkBody (List.replicate 17 [65, 66, 67, 68]).flatten 68 32767
      ⟨⟨[], 0, 0⟩, fun _ => some 0, 4, 0⟩).q = 4 + 64 :=
  ⟨⟨fun _ _ h => by cases h; decide, by decide, by decide⟩,
    (chunkBody_match_bytes (List.replicate 17 [65, 66, 67, 68]).flatten 68 32767
      ⟨⟨[], 0, 0⟩, fun _ => some 0, 4, 0⟩ 64 4
      (fun _ _ h => by cases h; decide) (by decide) (by decide)).2.1⟩

theorem opBytes_mat (input : List UInt8) (best : Nat) (dist : Int) (r : Nat × List Nat)
    (h : matchOpcode best dist = some r) : opBytes input (Op.mat best dist) = r.2 := by
  simp [opBytes, h]

/-- C5: the stream `compress` stores is the header, the bytes of the opcodes
`compressOps` in order, and the trailer; every match opcode among them carries
a length `best` and a distance `dist` with `dist ≤ 262144` and
(`best > 2` and `dist ≤ 256`) or (`best > 5` and `dist ≤ 16384`) or
(`best > 7` and `dist ≤ 524288`) or `best > 9`. A match of at most 5 bytes
therefore has distance at most 256, and an opcode whose first byte has the
short-match tag (top bit set) has distance at most 256. -/
theorem compress_matches_accepted (g : Globals) (input : List UInt8) (best : Nat) (dist : Int)
    (h : Op.mat best dist ∈ compressOps g input) :
    (compress g input).1.out =
      headerBytes (len32 input) ++ opsBytes input (compressOps g input) ++
        trailerBytes ((compress g input).1.running_adler) ∧
    dist ≤ 262144 ∧
    ((best > 2 ∧ dist ≤ 256) ∨ (best > 5 ∧ dist ≤ 16384) ∨ (best > 7 ∧ dist ≤ 524288) ∨
      best > 9) ∧
    (best ≤ 5 → dist ≤ 256) ∧
    (∀ (b : Nat) (rest : List Nat), opBytes input (Op.mat best dist) = b :: rest →
      0x80 ≤ b → dist ≤ 256) := by
  obtain ⟨h3, h4, hd, hnc⟩ := compressOps_mat g input best dist h
  have hnc2 := (stb__nc_iff best dist).mp hnc
  refine ⟨by rw [compress_running_adler, compress_out], hnc2.1, by omega, by omega, ?_⟩
  intro b rest hb hb2
  by_contra hcon
  by_cases hm : 6 ≤ best ∧ best ≤ 256 ∧ dist ≤ 16384
  · rw [opBytes_mat _ _ _ _ (matchOpcode_medium best dist (by omega) hm.1 hm.2.1 hd hm.2.2)] at hb
    simp only [List.cons.injEq] at hb
    omega
  · by_cases ha : 8 ≤ best ∧ best ≤ 256 ∧ dist ≤ 524288
    · rw [opBytes_mat _ _ _ _ (matchOpcode_longA best dist hm ha.1 ha.2.1 hd ha.2.2)] at hb
      simp only [List.cons.injEq] at hb
      omega
    · rw [opBytes_mat _ _ _ _ (matchOpcode_longB best dist ha (by omega) h4 hd (by omega))] at hb
      simp only [List.cons.injEq] at hb
      omega

theorem compress_matches_accepted_witness :
    Op.mat 64 4 ∈ compressOps ⟨[], 0, 0⟩ (List.replicate 17 [65, 66, 67, 68]).flatten ∧
    (4 : Int) ≤ 262144 :=
  ⟨by decide,
    (compress_matches_accepted ⟨[], 0, 0⟩ (List.replicate 17 [65, 66, 67, 68]).flatten 64 4
      (by decide)).2.1⟩

/-- C6: in an iteration of `compressChunk` whose table records only earlier
positions and whose retained pair `(L, D)` has `L ≥ 3`, the opcode stored
after the pending literals is that of the first class, in the order short,
medium, long-distance A, long-distance B, extended, whose bounds contain
`(L, D)`; it has the number of bytes of that class, and no class that
contains `(L, D)` has fewer bytes. -/
theorem chunkBody_first_class (input : List UInt8) (endp mask : Nat) (s : ChunkState)
    (L : Nat) (D : Int) (hT : TableBefore s.cHash s.q)
    (hbd : findBest input endp s.cHash mask s.q = (L, D)) (h3 : 3 ≤ L) :
    ∃ c : MatchClass, firstClass L D = some c ∧
      (chunkBody input endp mask s).g.out =
        (outLiterals s.g input s.lit_start (s.q - s.lit_start)).out ++ c.encode L D ∧
      (c.encode L D).length = c.size L ∧
      ∀ c' : MatchClass, c'.contains L D = true → c.size L ≤ c'.size L := by
  have hacc := findBest_accepted input endp s.cHash mask s.q hT (by rw [hbd]; exact h3)
  rw [hbd] at hacc
  simp only at hacc
  obtain ⟨h4, hd, hnc⟩ := hacc
  have hcls := accepted_class L D h3 h4 hnc
  have hstep : ∀ r, matchOpcode L D = some r →
      (chunkBody input endp mask s).g.out =
        (outLiterals s.g input s.lit_start (s.q - s.lit_start)).out ++ r.2 := by
    intro r hr
    exact (chunkBody_of_matchOpcode input endp mask s r (by rw [hbd]; exact hr)).1
  by_cases hs : L ≤ 128 ∧ D ≤ 256
  · refine ⟨MatchClass.short, ?_, hstep _ (matchOpcode_short L D h3 hs.1 hd hs.2), rfl, ?_⟩
    · simp [firstClass, MatchClass.contains, h3, hs.1, hs.2, hd]
    · intro c' _
      cases c' <;> simp [MatchClass.size]
      split <;> omega
  · by_cases hm : 6 ≤ L ∧ L ≤ 256 ∧ D ≤ 16384
    · refine ⟨MatchClass.medium, ?_,
        hstep _ (matchOpcode_medium L D hs hm.1 hm.2.1 hd hm.2.2), rfl, ?_⟩
      · simp [firstClass, MatchClass.contains, hm.1, hm.2.1, hm.2.2, hd]
        omega
      · intro c' hc'
        cases c' <;> simp [MatchClass.size, MatchClass.contains] at hc' ⊢ <;>
          first | omega | (split <;> omega)
    · by_cases ha : 8 ≤ L ∧ L ≤ 256 ∧ D ≤ 524288
      · refine ⟨MatchClass.longA, ?_,
          hstep _ (matchOpcode_longA L D hm ha.1 ha.2.1 hd ha.2.2), rfl, ?_⟩
        · simp [firstClass, MatchClass.contains, ha.1, ha.2.1, ha.2.2, hd]
          omega
        · intro c' hc'
          cases c' <;> simp [MatchClass.size, MatchClass.contains] at hc' ⊢ <;>
            first | omega | (split <;> omega)
      · have hb : 9 ≤ L ∧ D ≤ 524288 := by omega
        refine ⟨MatchClass.longB, ?_,
          hstep _ (matchOpcode_longB L D ha hb.1 h4 hd hb.2), rfl, ?_⟩
        · simp [firstClass, MatchClass.contains, hb.1, hb.2, h4, hd]
          omega
        · intro c' hc'
          cases c' <;> simp [MatchClass.size, MatchClass.contains] at hc' ⊢ <;>
            first | omega | (split <;> omega)

theorem chunkBody_first_class_witness :
    (TableBefore (fun _ => some 0) 4 ∧
      findBest (List.replicate 17 [65, 66, 67, 68]).flatten 68 (fun _ => some 0) 32767 4 =
        (64, 4) ∧ 3 ≤ 64) ∧
    ∃ c : MatchClass, firstClass 64 4 = some c ∧
      (chunkBody (List.replicate 17 [65, 66, 67, 68]).flatten 68 32767
          ⟨⟨[], 0, 0⟩, fun _ => some 0, 4, 0⟩).g.out =
        (outLiterals ⟨[], 0, 0⟩ (List.replicate 17 [65, 66, 67, 68]).flatten 0 (4 - 0)).out ++
          c.encode 64 4 ∧
      (c.encode 64 4).length = c.size 64 ∧
      ∀ c' : MatchClass, c'.contains 64 4 = true → c.size 64 ≤ c'.size 64 :=
  ⟨⟨fun _ _ h => by cases h; decide, by decide, by decide⟩,
    chunkBody_first_class (List.replicate 17 [65, 66, 67, 68]).flatten 68 32767
      ⟨⟨[], 0, 0⟩, fun _ => some 0, 4, 0⟩ 64 4
      (fun _ _ h => by cases h; decide) (by decide) (by decide)⟩

/-! ## `adler32`: the loops -/

theorem rd_lt (input : List UInt8) (i : Nat) : rd input i < 256 := by
  unfold rd
  exact (input.getD i 0).val.isLt

theorem rd_drop (buffer : List UInt8) (k j : Nat) : rd (buffer.drop k) j = rd buffer (k + j) := by
  simp [rd, List.getD, List.getElem?_drop]

theorem payload_drop (buffer : List UInt8) (k inp n : Nat) :
    payload (buffer.drop k) inp n = payload buffer (k + inp) n := by
  simp [payload, rd_drop, Nat.add_assoc]

theorem adler8_eq (buffer : List UInt8) (s : Nat × Nat) :
    adler8 buffer s = (payload buffer 0 8).foldl adlerStep s := by
  simp [adler8, payload, List.foldl_map]

theorem adlerLoop8_eq :
    ∀ (fuel blockLength i : Nat) (s : Nat × Nat) (buffer : List UInt8),
      (blockLength - i) / 8 ≤ fuel →
      adlerLoop8 fuel blockLength i s buffer =
        (i + 8 * ((blockLength - i) / 8),
          (payload buffer 0 (8 * ((blockLength - i) / 8))).foldl adlerStep s,
          buffer.drop (8 * ((blockLength - i) / 8))) := by
  intro fuel
  induction fuel with
  | zero =>
    intro bl i s buffer h
    have hk : (bl - i) / 8 = 0 := by omega
    simp [adlerLoop8, hk, payload]
  | succ fuel ih =>
    intro bl i s buffer h
    rw [adlerLoop8]
    by_cases hc : i + 7 < bl
    · have hk : (bl - i) / 8 = (bl - (i + 8)) / 8 + 1 := by omega
      have e1 : 8 * ((bl - (i + 8)) / 8 + 1) = 8 + 8 * ((bl - (i + 8)) / 8) := by omega
      have e3 : i + 8 + 8 * ((bl - (i + 8)) / 8) = i + (8 + 8 * ((bl - (i + 8)) / 8)) := by
        omega
      rw [if_pos hc, ih _ _ _ _ (by omega), hk, adler8_eq, payload_drop, List.drop_drop, e1,
        payload_add, List.foldl_append, e3, Nat.add_zero, Nat.zero_add]
    · have hk : (bl - i) / 8 = 0 := by omega
      simp [hc, hk, payload]

theorem adlerLoop1_eq :
    ∀ (fuel blockLength i : Nat) (s : Nat × Nat) (buffer : List UInt8),
      blockLength - i ≤ fuel →
      adlerLoop1 fuel blockLength i s buffer =
        ((payload buffer 0 (blockLength - i)).foldl adlerStep s,
          buffer.drop (blockLength - i)) := by
  intro fuel
  induction fuel with
  | zero =>
    intro bl i s buffer h
    have hk : bl - i = 0 := by omega
    simp [adlerLoop1, hk, payload]
  | succ fuel ih =>
    intro bl i s buffer h
    rw [adlerLoop1]
    by_cases hc : i < bl
    · have hk : bl - i = 1 + (bl - (i + 1)) := by omega
      have e0 : payload buffer 0 1 = [rd buffer 0] := rfl
      rw [if_pos hc, ih _ _ _ _ (by omega), hk, payload_add, List.foldl_append, payload_drop,
        List.drop_drop, e0, Nat.add_zero]
      rfl
    · have hk : bl - i = 0 := by omega
      simp [hc, hk, payload]

/-- The two `for` loops together process the `blockLength` bytes of a block,
one step per byte, and advance the buffer pointer past them. -/
theorem adler_block (blockLength : Nat) (s : Nat × Nat) (buffer : List UInt8) :
    adlerLoop1 blockLength blockLength (adlerLoop8 blockLength blockLength 0 s buffer).1
        (adlerLoop8 blockLength blockLength 0 s buffer).2.1
        (adlerLoop8 blockLength blockLength 0 s buffer).2.2 =
      ((payload buffer 0 blockLength).foldl adlerStep s, buffer.drop blockLength) := by
  rw [adlerLoop8_eq _ _ _ _ _ (by omega)]
  simp only [Nat.sub_zero, Nat.zero_add]
  have e2 : 8 * (blockLength / 8) + (blockLength - 8 * (blockLength / 8)) = blockLength := by
    omega
  rw [adlerLoop1_eq _ _ _ _ _ (by omega), payload_drop, List.drop_drop, ← List.foldl_append,
    Nat.add_zero]
  have e3 : payload buffer 0 (8 * (blockLength / 8)) ++
      payload buffer (8 * (blockLength / 8)) (blockLength - 8 * (blockLength / 8)) =
      payload buffer 0 blockLength := by
    have := payload_add buffer 0 (8 * (blockLength / 8)) (blockLength - 8 * (blockLength / 8))
    rw [e2, Nat.zero_add] at this
    exact this.symm
  rw [e3, e2]

/-! ## `adler32`: the 32-bit accumulators do not wrap within a block -/

theorem adlerIdeal_nil (s : Nat × Nat) : adlerIdeal s [] = s := rfl

theorem adlerIdeal_cons (s : Nat × Nat) (b : Nat) (l : List Nat) :
    adlerIdeal s (b :: l) = adlerIdeal (s.1 + b, s.2 + (s.1 + b)) l := rfl

theorem adlerIdeal_append (s : Nat × Nat) (l1 l2 : List Nat) :
    adlerIdeal s (l1 ++ l2) = adlerIdeal (adlerIdeal s l1) l2 := by
  simp [adlerIdeal, List.foldl_append]

theorem adlerIdeal_mono : ∀ (l : List Nat) (s : Nat × Nat),
    s.1 ≤ (adlerIdeal s l).1 ∧ s.2 ≤ (adlerIdeal s l).2 := by
  intro l
  induction l with
  | nil => intro s; exact ⟨Nat.le_refl _, Nat.le_refl _⟩
  | cons b l ih =>
    intro s
    rw [adlerIdeal_cons]
    have := ih (s.1 + b, s.2 + (s.1 + b))
    simp only at this
    omega

/-- While the unbounded accumulators stay below 2^32, the 32-bit
accumulators of the code equal them. -/
theorem foldl_adlerStep_eq : ∀ (l : List Nat) (s : Nat × Nat),
    (adlerIdeal s l).1 < 4294967296 → (adlerIdeal s l).2 < 4294967296 →
      l.foldl adlerStep s = adlerIdeal s l := by
  intro l
  induction l with
  | nil => intro s _ _; rfl
  | cons b l ih =>
    intro s h1 h2
    rw [adlerIdeal_cons] at h1 h2 ⊢
    have hm := adlerIdeal_mono l (s.1 + b, s.2 + (s.1 + b))
    simp only at hm
    have e : adlerStep s b = (s.1 + b, s.2 + (s.1 + b)) := by
      unfold adlerStep
      have e1 : (s.1 + b) % 4294967296 = s.1 + b := by omega
      simp only [e1]
      have e2 : (s.2 + (s.1 + b)) % 4294967296 = s.2 + (s.1 + b) := by omega
      rw [e2]
    rw [List.foldl_cons, e]
    exact ih _ h1 h2

theorem adlerIdeal_bound : ∀ (l : List Nat) (s : Nat × Nat), (∀ b ∈ l, b ≤ 255) →
    (adlerIdeal s l).1 ≤ s.1 + 255 * l.length ∧
      2 * (adlerIdeal s l).2 ≤
        2 * s.2 + 2 * s.1 * l.length + 255 * (l.length * (l.length + 1)) := by
  intro l
  induction l using List.reverseRecOn with
  | nil => intro s _; simp [adlerIdeal_nil]
  | append_singleton l b ih =>
    intro s hb
    have hl := ih s (fun x hx => hb x (List.mem_append_left _ hx))
    have hb' : b ≤ 255 := hb b (by simp)
    rw [adlerIdeal_append, adlerIdeal_cons, adlerIdeal_nil]
    simp only [List.length_append, List.length_singleton]
    constructor
    · omega
    · nlinarith [hl.1, hl.2]

theorem payload_le (input : List UInt8) (inp n : Nat) : ∀ b ∈ payload input inp n, b ≤ 255 := by
  intro b hb
  unfold payload at hb
  rw [List.mem_map] at hb
  obtain ⟨i, _, rfl⟩ := hb
  have := rd_lt input (inp + i)
  omega

/-- A block of at most 5552 bytes started with both accumulators below 65521
is processed without wrap-around. -/
theorem adler_block_nowrap (buffer : List UInt8) (m : Nat) (s : Nat × Nat) (hm : m ≤ 5552)
    (h1 : s.1 < 65521) (h2 : s.2 < 65521) :
    (payload buffer 0 m).foldl adlerStep s = adlerIdeal s (payload buffer 0 m) := by
  have hb := adlerIdeal_bound (payload buffer 0 m) s (payload_le buffer 0 m)
  rw [payload_length] at hb
  have hmm : m * (m + 1) ≤ 5552 * 5553 := Nat.mul_le_mul hm (by omega)
  have hsm : s.1 * m ≤ 65520 * 5552 := Nat.mul_le_mul (by omega) hm
  apply foldl_adlerStep_eq
  · omega
  · have : 2 * s.1 * m = 2 * (s.1 * m) := by ring
    omega

theorem adlerSpec_congr : ∀ (l : List Nat) (s t : Nat × Nat),
    s.1 % 65521 = t.1 % 65521 → s.2 % 65521 = t.2 % 65521 →
      adlerSpec s l = adlerSpec t l := by
  intro l
  induction l with
  | nil => intro s t h1 h2; simp [adlerSpec, adlerIdeal_nil, h1, h2]
  | cons b l ih =>
    intro s t h1 h2
    have := ih (s.1 + b, s.2 + (s.1 + b)) (t.1 + b, t.2 + (t.1 + b))
      (by simp only; omega) (by simp only; omega)
    simpa [adlerSpec, adlerIdeal_cons] using this

theorem adlerSpec_append (s : Nat × Nat) (l1 l2 : List Nat) :
    adlerSpec (adlerSpec s l1) l2 = adlerSpec s (l1 ++ l2) := by
  have h := adlerSpec_congr l2 (adlerSpec s l1) (adlerIdeal s l1)
    (by simp [adlerSpec]) (by simp [adlerSpec])
  rw [h]
  simp [adlerSpec, adlerIdeal_append]

theorem adlerSpec_lt (s : Nat × Nat) (l : List Nat) :
    (adlerSpec s l).1 < 65521 ∧ (adlerSpec s l).2 < 65521 := by
  unfold adlerSpec
  constructor <;> exact Nat.mod_lt _ (by omega)

/-! ## `adler32`: closed form -/

theorem adlerWhile_zero (fuel blockLength : Nat) (s : Nat × Nat) (buffer : List UInt8) :
    adlerWhile fuel 0 blockLength s buffer = s := by
  cases fuel <;> simp [adlerWhile]

theorem adlerWhile_eq : ∀ (k fuel n bl : Nat) (s : Nat × Nat) (buffer : List UInt8),
    n = bl + 5552 * k → n ≠ 0 → bl ≤ 5552 → s.1 < 65521 → s.2 < 65521 → k + 1 ≤ fuel →
      adlerWhile fuel n bl s buffer = adlerSpec s (payload buffer 0 n) := by
  intro k
  induction k with
  | zero =>
    intro fuel n bl s buffer hn hn0 hbl h1 h2 hf
    obtain ⟨fuel, rfl⟩ : ∃ f, fuel = f + 1 := ⟨fuel - 1, by omega⟩
    have e : n - bl = 0 := by omega
    have e2 : n = bl := by omega
    rw [adlerWhile, if_pos hn0]
    simp only
    rw [adler_block, adler_block_nowrap buffer bl s hbl h1 h2, e, adlerWhile_zero, e2]
    rfl
  | succ k ih =>
    intro fuel n bl s buffer hn hn0 hbl h1 h2 hf
    obtain ⟨fuel, rfl⟩ : ∃ f, fuel = f + 1 := ⟨fuel - 1, by omega⟩
    rw [adlerWhile, if_pos hn0]
    simp only
    rw [adler_block, adler_block_nowrap buffer bl s hbl h1 h2]
    have hlt := adlerSpec_lt s (payload buffer 0 bl)
    have hrec := ih fuel (n - bl) 5552 (adlerSpec s (payload buffer 0 bl)) (buffer.drop bl)
      (by omega) (by omega) (by omega) hlt.1 hlt.2 (by omega)
    have e : ((adlerIdeal s (payload buffer 0 bl)).1 % 65521,
        (adlerIdeal s (payload buffer 0 bl)).2 % 65521) = adlerSpec s (payload buffer 0 bl) := rfl
    rw [e, hrec, adlerSpec_append, payload_drop, Nat.add_zero]
    have e3 : payload buffer 0 bl ++ payload buffer bl (n - bl) = payload buffer 0 n := by
      have := payload_add buffer 0 bl (n - bl)
      rw [Nat.zero_add, show bl + (n - bl) = n by omega] at this
      exact this.symm
    rw [e3]

/-- Closed form of `adler32`: for a seed whose halves are below 65521 and a
length below 2^32 the result packs the unbounded accumulators reduced modulo
65521. -/
theorem adler32_eq (seed : Nat) (buffer : List UInt8) (n : Nat)
    (hlo : seed % 65536 < 65521) (hhi : seed / 65536 < 65521) (hn : n < 4294967296) :
    adler32 seed buffer n =
      (adlerSpec (seed % 65536, seed / 65536) (payload buffer 0 n)).2 * 65536 +
        (adlerSpec (seed % 65536, seed / 65536) (payload buffer 0 n)).1 := by
  have hseed : seed % 4294967296 = seed := by omega
  have hn' : n % 4294967296 = n := by omega
  have hand : seed &&& 0xFFFF = seed % 65536 :=
    Nat.and_pow_two_sub_one_eq_mod seed 16
  have hshr : seed >>> 16 = seed / 65536 := by rw [Nat.shiftRight_eq_div_pow]
  unfold adler32
  simp only [hseed, hn', hand, hshr]
  have hpack : ∀ s : Nat × Nat, s.1 < 65521 → s.2 < 65521 →
      ((s.2 <<< 16) + s.1) % 4294967296 = s.2 * 65536 + s.1 := by
    intro s h1 h2
    rw [Nat.shiftLeft_eq]
    omega
  by_cases h0 : n = 0
  · subst h0
    rw [adlerWhile_zero]
    have e : adlerSpec (seed % 65536, seed / 65536) (payload buffer 0 0) =
        (seed % 65536, seed / 65536) := by
      simp [adlerSpec, payload, adlerIdeal_nil, Nat.mod_eq_of_lt hlo, Nat.mod_eq_of_lt hhi]
    rw [e]
    exact hpack _ hlo hhi
  · rw [adlerWhile_eq (n / 5552) _ n (n % 5552) _ buffer (by omega) h0 (by omega) hlo hhi
      (by omega)]
    have hlt := adlerSpec_lt (seed % 65536, seed / 65536) (payload buffer 0 n)
    exact hpack _ hlt.1 hlt.2

/-! ## The trailer checksum -/

theorem toUInt32_natCast (n : Nat) (h : n < 4294967296) : toUInt32 (n : Int) = n := by
  unfold toUInt32
  omega

theorem len32_eq (input : List UInt8) (h : input.length < 4294967296) :
    len32 input = input.length := by
  unfold len32; omega

/-- For an input shorter than 2^31 bytes the trailer carries
`adler32(1, input, length)`. -/
theorem compress_checksum (g : Globals) (input : List UInt8) (h : input.length < 2147483648) :
    (compress g input).1.out =
      headerBytes input.length ++ opsBytes input (compressOps g input) ++
        trailerBytes (adler32 1 input input.length) := by
  have hl := len32_eq input (by omega)
  have hq : scanQ g input = input.length := by
    rw [scanQ_eq, hl, if_pos h]
  rw [compress_out, hq, hl, toUInt32_natCast _ (by omega)]

/-- For an input of 2^31 bytes or more (below 2^32) the scan consumes nothing:
the stream is the header followed by the trailer with checksum 1. -/
theorem compress_large (g : Globals) (input : List UInt8) (h1 : 2147483648 ≤ input.length)
    (h2 : input.length < 4294967296) :
    (compress g input).1.out = headerBytes input.length ++ trailerBytes 1 := by
  have hl := len32_eq input h2
  have hq : scanQ g input = 0 := by
    rw [scanQ_eq, hl, if_neg (by omega)]
  have hneg := toInt32_neg input.length h1 h2
  have hfuel : (toInt32 input.length).toNat = 0 := by omega
  have hops : opsBytes input (compressOps g input) = [] := by
    unfold compressOps
    rw [hq, hl, hfuel]
    simp [chunkOps, opsBytes, opBytes, literalBytes_zero]
  have hadler : adler32 1 input (toUInt32 ((0 : Nat) : Int)) = 1 := by
    rw [toUInt32_natCast 0 (by omega), adler32_eq 1 input 0 (by omega) (by omega) (by omega)]
    simp [adlerSpec, payload, adlerIdeal_nil]
  rw [compress_out, hq, hl, hops, hadler, List.append_nil]

theorem payload_replicate_zero (n inp m : Nat) :
    payload (List.replicate n (0 : UInt8)) inp m = List.replicate m 0 := by
  have hrd : ∀ i, rd (List.replicate n (0 : UInt8)) i = 0 := by
    intro i
    rw [rd, List.getD_eq_getElem?_getD, List.getElem?_replicate]
    split <;> rfl
  unfold payload
  simp only [hrd]
  induction m with
  | zero => rfl
  | succ m ih => rw [List.range_succ, List.map_append, ih]; simp [List.replicate_succ']

theorem adlerIdeal_zeros : ∀ (m : Nat) (s : Nat × Nat),
    adlerIdeal s (List.replicate m 0) = (s.1, s.2 + m * s.1) := by
  intro m
  induction m with
  | zero => intro s; simp [adlerIdeal_nil]
  | succ m ih =>
    intro s
    rw [List.replicate_succ, adlerIdeal_cons, ih]
    simp only [Nat.add_zero, Prod.mk.injEq, true_and]
    ring

/-- The checksum of `n` zero bytes. -/
theorem adler32_zeros (n : Nat) (hn : n < 4294967296) :
    adler32 1 (List.replicate n (0 : UInt8)) n = n % 65521 * 65536 + 1 := by
  rw [adler32_eq 1 _ n (by omega) (by omega) hn, payload_replicate_zero]
  simp [adlerSpec, adlerIdeal_zeros]

/-- For a length of 2^31 or more the `int` parameter of `compressChunk` is
negative: the loop is skipped, nothing is consumed and the return value is 0. -/
theorem compressChunk_large (g : Globals) (input : List UInt8) (n : Nat)
    (h1 : 2147483648 ≤ n) (h2 : n < 4294967296) (cHash : Nat → Option Nat) (mask : Nat) :
    (compressChunk g input 0 n (toInt32 n) 0 cHash mask).2.2 = 0 ∧
      (compressChunk g input 0 n (toInt32 n) 0 cHash mask).2.1 = 0 := by
  have hneg := toInt32_neg n h1 h2
  have hfuel : (toInt32 n).toNat = 0 := by omega
  rw [compressChunk_eq g input n (toInt32 n) cHash mask _ rfl, hfuel]
  simp only [chunkLoop, chunkQ]
  rw [if_neg (by simp only [Nat.cast_zero]; omega)]
  exact ⟨rfl, rfl⟩

/-- C1 (failing input): for the buffer of 2^31 zero bytes `compress` stores
the header with length field `80 00 00 00` directly followed by the trailer
with checksum `00 00 00 01`, and `compressChunk` returns 0, so that the
asserted `hashLength == length` is false; `adler32(1, input, 2^31)` is
0x80690001. -/
theorem compress_two_gib :
    (compress ⟨[], 0, 0⟩ (List.replicate 2147483648 (0 : UInt8))).1.out =
      [0x57, 0xBC, 0, 0, 0, 0, 0, 0, 0x80, 0, 0, 0, 0, 4, 0, 0, 0x05, 0xFA, 0, 0, 0, 1] ∧
    adler32 1 (List.replicate 2147483648 (0 : UInt8)) 2147483648 = 0x80690001 ∧
    (compressChunk ⟨[], 0, 1⟩ (List.replicate 2147483648 (0 : UInt8)) 0 2147483648
      (toInt32 2147483648) 0 (fun _ => none) (stb__hashsize - 1)).2.2 = 0 := by
  have hlen : (List.replicate 2147483648 (0 : UInt8)).length = 2147483648 :=
    List.length_replicate _ _
  refine ⟨?_, ?_, ?_⟩
  · rw [compress_large _ _ (Nat.le_of_eq hlen.symm) (by rw [hlen]; omega), hlen,
      headerBytes_eq _ (by omega), trailerBytes_eq _ (by omega)]
    rfl
  · rw [adler32_zeros _ (by omega)]
  · exact (compressChunk_large _ _ 2147483648 (by omega) (by omega) _ _).1

/-! ## Reachable states of the scan -/

/-- Throughout the scan of `compress` the hash table records only positions
before the cursor, and `lit_start ≤ q ≤ length`. -/
theorem scan_invariant (g : Globals) (input : List UInt8) (fuel : Nat) :
    TableBefore
        (chunkLoop input 0 (len32 input) (toInt32 (len32 input)) (stb__hashsize - 1) fuel
          (scanStart g input)).cHash
        (chunkLoop input 0 (len32 input) (toInt32 (len32 input)) (stb__hashsize - 1) fuel
          (scanStart g input)).q ∧
      (chunkLoop input 0 (len32 input) (toInt32 (len32 input)) (stb__hashsize - 1) fuel
          (scanStart g input)).lit_start ≤
        (chunkLoop input 0 (len32 input) (toInt32 (len32 input)) (stb__hashsize - 1) fuel
          (scanStart g input)).q ∧
      (chunkLoop input 0 (len32 input) (toInt32 (len32 input)) (stb__hashsize - 1) fuel
          (scanStart g input)).q ≤ len32 input := by
  apply chunkLoop_induction input 0 (len32 input) (toInt32 (len32 input)) (stb__hashsize - 1)
    (fun s => TableBefore s.cHash s.q ∧ s.lit_start ≤ s.q ∧ s.q ≤ len32 input)
  · intro s hs _ hg
    exact ⟨chunkBody_tableBefore input _ _ s hs.1, chunkBody_bounds input _ _ s hs.2.1 hg⟩
  · refine ⟨?_, ?_, ?_⟩
    · intro i t ht
      simp [scanStart] at ht
    · simp [scanStart]
    · simp [scanStart]

/-- The scan of `compress` leaves its loop because the loop condition fails,
not because the fuel of the model ran out. -/
theorem scanEnd_exit (g : Globals) (input : List UInt8) :
    ¬ (((scanEnd g input).q : Int) < ((0 : Nat) : Int) + toInt32 (len32 input) ∧
      (scanEnd g input).q + 12 < len32 input) := by
  unfold scanEnd
  apply chunkLoop_exit
  simp [scanStart]

/-! ## `adler32`: the accumulators as sums -/

theorem prefixSums_snoc (lo : Nat) (l : List Nat) (x : Nat) :
    prefixSums lo (l ++ [x]) = prefixSums lo l + (lo + (l.sum + x)) := by
  unfold prefixSums
  rw [List.length_append, List.length_singleton, List.range_succ, List.map_append,
    List.sum_append]
  congr 1
  · congr 1
    apply List.map_congr_left
    intro k hk
    have hk : k < l.length := List.mem_range.mp hk
    rw [List.take_append_of_le_length (by omega)]
  · simp

theorem adlerIdeal_sums : ∀ (l : List Nat) (s : Nat × Nat),
    adlerIdeal s l = (s.1 + l.sum, s.2 + prefixSums s.1 l) := by
  intro l
  induction l using List.reverseRecOn with
  | nil => intro s; simp [adlerIdeal_nil, prefixSums]
  | append_singleton l x ih =>
    intro s
    rw [adlerIdeal_append, ih, adlerIdeal_cons, adlerIdeal_nil, prefixSums_snoc]
    simp only [List.sum_append, List.sum_singleton, Prod.mk.injEq]
    constructor <;> ring

theorem payload_whole (buffer : List UInt8) :
    payload buffer 0 buffer.length = buffer.map UInt8.toNat := by
  rw [payload_eq_slice buffer 0 buffer.length (by omega)]
  simp

/-- C11: for a buffer of `n < 2^32` bytes and a seed whose 16-bit halves are
below 65521, `adler32` returns `B * 65536 + A`, where, in unbounded integers,
`A` is the low half of the seed plus the sum of all bytes, reduced modulo
65521, and `B` is the high half of the seed plus the sum over every prefix of
the running value of `A`, reduced modulo 65521. Within a block of at most 5552
bytes entered with both accumulators below 65521 the 32-bit accumulators equal
the unbounded ones, so they never wrap around. -/
theorem adler32_closed_form (seed : Nat) (buffer : List UInt8)
    (hlo : seed % 65536 < 65521) (hhi : seed / 65536 < 65521)
    (hn : buffer.length < 4294967296) :
    adler32 seed buffer buffer.length =
      (seed / 65536 + prefixSums (seed % 65536) (buffer.map UInt8.toNat)) % 65521 * 65536 +
        (seed % 65536 + (buffer.map UInt8.toNat).sum) % 65521 ∧
    (seed / 65536 + prefixSums (seed % 65536) (buffer.map UInt8.toNat)) % 65521 * 65536 +
        (seed % 65536 + (buffer.map UInt8.toNat).sum) % 65521 < 4294967296 ∧
    ∀ (m : Nat) (s : Nat × Nat) (block : List UInt8), m ≤ 5552 → s.1 < 65521 → s.2 < 65521 →
      (payload block 0 m).foldl adlerStep s = adlerIdeal s (payload block 0 m) := by
  refine ⟨?_, by omega, ?_⟩
  · rw [adler32_eq seed buffer buffer.length hlo hhi hn, payload_whole]
    simp only [adlerSpec, adlerIdeal_sums]
  · intro m s block hm h1 h2
    exact adler_block_nowrap block m s hm h1 h2

theorem adler32_closed_form_witness :
    ((1 : Nat) % 65536 < 65521 ∧ (1 : Nat) / 65536 < 65521 ∧
      ([65, 66] : List UInt8).length < 4294967296) ∧
    adler32 1 [65, 66] ([65, 66] : List UInt8).length =
      (1 / 65536 + prefixSums (1 % 65536) (([65, 66] : List UInt8).map UInt8.toNat)) % 65521 *
          65536 +
        (1 % 65536 + (([65, 66] : List UInt8).map UInt8.toNat).sum) % 65521 :=
  ⟨⟨by decide, by decide, by decide⟩,
    (adler32_closed_form 1 [65, 66] (by decide) (by decide) (by decide)).1⟩

/-! ## `adler32`: chunk-wise updates -/

theorem adler32_halves (seed : Nat) (buffer : List UInt8) (n : Nat)
    (hlo : seed % 65536 < 65521) (hhi : seed / 65536 < 65521) (hn : n < 4294967296) :
    adler32 seed buffer n % 65536 =
        (adlerSpec (seed % 65536, seed / 65536) (payload buffer 0 n)).1 ∧
      adler32 seed buffer n / 65536 =
        (adlerSpec (seed % 65536, seed / 65536) (payload buffer 0 n)).2 := by
  have h := adlerSpec_lt (seed % 65536, seed / 65536) (payload buffer 0 n)
  rw [adler32_eq seed buffer n hlo hhi hn]
  constructor <;> omega

/-- C19: for a seed whose 16-bit halves are below 65521 and buffers `a`, `b`
whose lengths together fit the 32-bit length argument, updating the checksum
with `a` and then with `b` gives the checksum of `a ++ b` in one pass. -/
theorem adler32_chunks (seed : Nat) (a b : List UInt8)
    (hlo : seed % 65536 < 65521) (hhi : seed / 65536 < 65521)
    (hn : a.length + b.length < 4294967296) :
    adler32 (adler32 seed a a.length) b b.length =
      adler32 seed (a ++ b) (a.length + b.length) := by
  have ha := adler32_halves seed a a.length hlo hhi (by omega)
  have hlt := adlerSpec_lt (seed % 65536, seed / 65536) (payload a 0 a.length)
  rw [adler32_eq (adler32 seed a a.length) b b.length (by rw [ha.1]; exact hlt.1)
      (by rw [ha.2]; exact hlt.2) (by omega),
    adler32_eq seed (a ++ b) (a.length + b.length) hlo hhi hn, ha.1, ha.2]
  have e : payload (a ++ b) 0 (a.length + b.length) =
      payload a 0 a.length ++ payload b 0 b.length := by
    have h1 : payload (a ++ b) 0 (a.length + b.length) = (a ++ b).map UInt8.toNat := by
      rw [← List.length_append, payload_whole]
    rw [h1, payload_whole, payload_whole, List.map_append]
  rw [e, ← adlerSpec_append]

theorem adler32_chunks_witness :
    ((1 : Nat) % 65536 < 65521 ∧ (1 : Nat) / 65536 < 65521 ∧
      ([65] : List UInt8).length + ([66, 67] : List UInt8).length < 4294967296) ∧
    adler32 (adler32 1 [65] ([65] : List UInt8).length) [66, 67]
        ([66, 67] : List UInt8).length =
      adler32 1 ([65] ++ [66, 67]) (([65] : List UInt8).length + ([66, 67] : List UInt8).length) :=
  ⟨⟨by decide, by decide, by decide⟩,
    adler32_chunks 1 [65] [66, 67] (by decide) (by decide) (by decide)⟩

/-! ## Independence from the previous file-scope state -/

theorem chunkBody_q (input : List UInt8) (endp mask : Nat) (s : ChunkState) :
    (chunkBody input endp mask s).q =
      s.q + advance (findBest input endp s.cHash mask s.q).1
        (findBest input endp s.cHash mask s.q).2 := by
  rw [chunkBody_eq]
  unfold advance
  cases matchOpcode (findBest input endp s.cHash mask s.q).1
      (findBest input endp s.cHash mask s.q).2 <;> rfl

theorem chunkBody_lit_start (input : List UInt8) (endp mask : Nat) (s : ChunkState) :
    (chunkBody input endp mask s).lit_start =
      match matchOpcode (findBest input endp s.cHash mask s.q).1
          (findBest input endp s.cHash mask s.q).2 with
      | none => s.lit_start
      | some r => s.q + r.1 := by
  rw [chunkBody_eq]
  cases matchOpcode (findBest input endp s.cHash mask s.q).1
      (findBest input endp s.cHash mask s.q).2 <;> rfl

theorem chunkBody_core (input : List UInt8) (endp mask : Nat) (s s' : ChunkState)
    (h1 : s.cHash = s'.cHash) (h2 : s.q = s'.q) (h3 : s.lit_start = s'.lit_start) :
    (chunkBody input endp mask s).cHash = (chunkBody input endp mask s').cHash ∧
      (chunkBody input endp mask s).q = (chunkBody input endp mask s').q ∧
      (chunkBody input endp mask s).lit_start = (chunkBody input endp mask s').lit_start := by
  rw [chunkBody_cHash, chunkBody_cHash, chunkBody_q, chunkBody_q, chunkBody_lit_start,
    chunkBody_lit_start, h1, h2, h3]
  exact ⟨rfl, rfl, rfl⟩

theorem chunkLoop_pos (input : List UInt8) (start endp : Nat) (length : Int) (mask fuel : Nat)
    (s : ChunkState) (hg : (s.q : Int) < (start : Int) + length ∧ s.q + 12 < endp) :
    chunkLoop input start endp length mask (fuel + 1) s =
      chunkLoop input start endp length mask fuel (chunkBody input endp mask s) := by
  rw [chunkLoop, if_pos hg]

theorem chunkLoop_neg (input : List UInt8) (start endp : Nat) (length : Int) (mask fuel : Nat)
    (s : ChunkState) (hg : ¬ ((s.q : Int) < (start : Int) + length ∧ s.q + 12 < endp)) :
    chunkLoop input start endp length mask fuel s = s := by
  cases fuel with
  | zero => rfl
  | succ fuel => rw [chunkLoop, if_neg hg]

theorem chunkOps_pos (input : List UInt8) (start endp : Nat) (length : Int) (mask fuel : Nat)
    (s : ChunkState) (hg : (s.q : Int) < (start : Int) + length ∧ s.q + 12 < endp) :
    chunkOps input start endp length mask (fuel + 1) s =
      (match matchOpcode (findBest input endp s.cHash mask s.q).1
          (findBest input endp s.cHash mask s.q).2 with
        | none => []
        | some _ =>
          [Op.lit s.lit_start (s.q - s.lit_start),
           Op.mat (findBest input endp s.cHash mask s.q).1
             (findBest input endp s.cHash mask s.q).2]) ++
        chunkOps input start endp length mask fuel (chunkBody input endp mask s) := by
  rw [chunkOps, if_pos hg]

theorem chunkOps_neg (input : List UInt8) (start endp : Nat) (length : Int) (mask fuel : Nat)
    (s : ChunkState) (hg : ¬ ((s.q : Int) < (start : Int) + length ∧ s.q + 12 < endp)) :
    chunkOps input start endp length mask fuel s = [] := by
  cases fuel with
  | zero => rfl
  | succ fuel => rw [chunkOps, if_neg hg]

theorem chunkLoop_core (input : List UInt8) (start endp : Nat) (length : Int) (mask : Nat) :
    ∀ (fuel : Nat) (s s' : ChunkState), s.cHash = s'.cHash → s.q = s'.q →
      s.lit_start = s'.lit_start →
      (chunkLoop input start endp length mask fuel s).cHash =
          (chunkLoop input start endp length mask fuel s').cHash ∧
        (chunkLoop input start endp length mask fuel s).q =
          (chunkLoop input start endp length mask fuel s').q ∧
        (chunkLoop input start endp length mask fuel s).lit_start =
          (chunkLoop input start endp length mask fuel s').lit_start ∧
        chunkOps input start endp length mask fuel s =
          chunkOps input start endp length mask fuel s' := by
  intro fuel
  induction fuel with
  | zero => intro s s' h1 h2 h3; exact ⟨h1, h2, h3, rfl⟩
  | succ fuel ih =>
    intro s s' h1 h2 h3
    have hb := chunkBody_core input endp mask s s' h1 h2 h3
    have hrec := ih _ _ hb.1 hb.2.1 hb.2.2
    by_cases hg : (s'.q : Int) < (start : Int) + length ∧ s'.q + 12 < endp
    · have hg' : (s.q : Int) < (start : Int) + length ∧ s.q + 12 < endp := by rw [h2]; exact hg
      rw [chunkLoop_pos _ _ _ _ _ _ s hg', chunkLoop_pos _ _ _ _ _ _ s' hg,
        chunkOps_pos _ _ _ _ _ _ s hg', chunkOps_pos _ _ _ _ _ _ s' hg, hrec.2.2.2, h1, h2, h3]
      exact ⟨hrec.1, hrec.2.1, hrec.2.2.1, rfl⟩
    · have hg' : ¬ ((s.q : Int) < (start : Int) + length ∧ s.q + 12 < endp) := by
        rw [h2]; exact hg
      rw [chunkLoop_neg _ _ _ _ _ _ s hg', chunkLoop_neg _ _ _ _ _ _ s' hg,
        chunkOps_neg _ _ _ _ _ _ s hg', chunkOps_neg _ _ _ _ _ _ s' hg]
      exact ⟨h1, h2, h3, rfl⟩

theorem compressOps_indep (g g' : Globals) (input : List UInt8) :
    compressOps g input = compressOps g' input := by
  have h := chunkLoop_core input 0 (len32 input) (toInt32 (len32 input)) (stb__hashsize - 1)
    (toInt32 (len32 input)).toNat (scanStart g input) (scanStart g' input) rfl rfl rfl
  have hl : (scanEnd g input).lit_start = (scanEnd g' input).lit_start := h.2.2.1
  unfold compressOps
  rw [h.2.2.2, hl, scanQ_eq, scanQ_eq]

theorem compress_indep (g g' : Globals) (input : List UInt8) :
    (compress g input).1.out = (compress g' input).1.out ∧
      (compress g input).2 = (compress g' input).2 ∧
      (compress g input).1.running_adler = (compress g' input).1.running_adler := by
  have h1 : (compress g input).1.out = (compress g' input).1.out := by
    rw [compress_out, compress_out, compressOps_indep g g', scanQ_eq, scanQ_eq]
  refine ⟨h1, ?_, ?_⟩
  · rw [compress_ret, compress_ret, h1]
  · rw [compress_running_adler, compress_running_adler, scanQ_eq, scanQ_eq]

/-- C13: the bytes `compress` stores, the value it returns and the final
running checksum do not depend on the values the file-scope state (bytes
stored so far through the cursor, `stb__outbytes`, `stb__running_adler`) held
before the call; the hash table is created empty inside the call. Two calls
on the same input therefore give identical outputs, also when the second call
starts from the state the first one left. -/
theorem compress_deterministic (g1 g2 : Globals) (input : List UInt8) :
    (compress g1 input).1.out = (compress g2 input).1.out ∧
      (compress g1 input).2 = (compress g2 input).2 ∧
      (compress g1 input).1.running_adler = (compress g2 input).1.running_adler ∧
      (compress (compress g1 input).1 input).1.out = (compress g1 input).1.out := by
  have h := compress_indep g1 g2 input
  exact ⟨h.1, h.2.1, h.2.2, (compress_indep (compress g1 input).1 g1 input).1⟩

/-! ## The scenario of 17 repetitions of `ABCD` -/

set_option maxRecDepth 100000 in
theorem compress_abcd_out :
    (compress ⟨[], 0, 0⟩ (List.replicate 17 [65, 66, 67, 68]).flatten).1.out =
      [0x57, 0xBC, 0, 0, 0, 0, 0, 0, 0, 0, 0, 68, 0, 4, 0, 0,
        0x23, 65, 66, 67, 68, 0xBF, 0x03, 0x05, 0xFA, 0x61, 0x76, 0x11, 0xAB] := by
  decide

set_option maxRecDepth 100000 in
theorem compress_abcd_ops :
    compressOps ⟨[], 0, 0⟩ (List.replicate 17 [65, 66, 67, 68]).flatten =
      [Op.lit 0 4, Op.mat 64 4, Op.lit 68 0] := by
  decide

set_option maxRecDepth 100000 in
theorem adler32_abcd :
    adler32 1 (List.replicate 17 [65, 66, 67, 68]).flatten 68 = 0x617611AB := by
  decide

/-- C12: for the 68 bytes made of 17 repetitions of `ABCD`, whatever the
previous file-scope state, `compress` stores the header, one literal run of 4
bytes (`0x20 + 3`, then `ABCD`), one short-match opcode of length 64 and
distance 4 (`0x80 + 63`, then `3`) that covers the remaining 64 bytes, and the
trailer `05 FA` with `adler32(1, input, 68)` in four bytes; these are the only
opcodes. -/
theorem compress_abcd (g : Globals) :
    (compress g (List.replicate 17 [65, 66, 67, 68]).flatten).1.out =
      [0x57, 0xBC, 0, 0, 0, 0, 0, 0, 0, 0, 0, 68, 0, 4, 0, 0] ++
        ([0x20 + (4 - 1)] ++ [65, 66, 67, 68]) ++ [0x80 + (64 - 1), 4 - 1] ++
        ([0x05, 0xFA] ++
          [adler32 1 (List.replicate 17 [65, 66, 67, 68]).flatten 68 / 16777216,
            adler32 1 (List.replicate 17 [65, 66, 67, 68]).flatten 68 / 65536 % 256,
            adler32 1 (List.replicate 17 [65, 66, 67, 68]).flatten 68 / 256 % 256,
            adler32 1 (List.replicate 17 [65, 66, 67, 68]).flatten 68 % 256]) ∧
    compressOps g (List.replicate 17 [65, 66, 67, 68]).flatten =
      [Op.lit 0 4, Op.mat 64 4, Op.lit 68 0] ∧
    3 ≤ 4 ∧ 4 ≤ 13 ∧ 4 + 64 = (List.replicate 17 [65, 66, 67, 68] : List (List UInt8)).flatten.length := by
  refine ⟨?_, ?_, by decide, by decide, by decide⟩
  · rw [(compress_indep g ⟨[], 0, 0⟩ _).1, compress_abcd_out, adler32_abcd]
    rfl
  · rw [compressOps_indep g ⟨[], 0, 0⟩, compress_abcd_ops]

/-! ## Properties of every scan position -/

/-- C18: at every scan position of `compress` (the state after any number of
loop iterations) every non-empty slot of the hash table holds a position
strictly before the cursor, the slots being set to the cursor only by the
table update that ends an iteration; hence a retained pair with `best > 2` has
`dist > 0`, which is the asserted condition. -/
theorem scan_dist_positive (g : Globals) (input : List UInt8) (fuel : Nat) :
    (∀ h t : Nat,
      (chunkLoop input 0 (len32 input) (toInt32 (len32 input)) (stb__hashsize - 1) fuel
        (scanStart g input)).cHash h = some t →
      t < (chunkLoop input 0 (len32 input) (toInt32 (len32 input)) (stb__hashsize - 1) fuel
        (scanStart g input)).q) ∧
    (2 < (findBest input (len32 input)
        (chunkLoop input 0 (len32 input) (toInt32 (len32 input)) (stb__hashsize - 1) fuel
          (scanStart g input)).cHash (stb__hashsize - 1)
        (chunkLoop input 0 (len32 input) (toInt32 (len32 input)) (stb__hashsize - 1) fuel
          (scanStart g input)).q).1 →
      0 < (findBest input (len32 input)
        (chunkLoop input 0 (len32 input) (toInt32 (len32 input)) (stb__hashsize - 1) fuel
          (scanStart g input)).cHash (stb__hashsize - 1)
        (chunkLoop input 0 (len32 input) (toInt32 (len32 input)) (stb__hashsize - 1) fuel
          (scanStart g input)).q).2) ∧
    (chunkBody input (len32 input) (stb__hashsize - 1)
        (chunkLoop input 0 (len32 input) (toInt32 (len32 input)) (stb__hashsize - 1) fuel
          (scanStart g input))).cHash =
      nextTable input (stb__hashsize - 1)
        (chunkLoop input 0 (len32 input) (toInt32 (len32 input)) (stb__hashsize - 1) fuel
          (scanStart g input)).cHash
        (chunkLoop input 0 (len32 input) (toInt32 (len32 input)) (stb__hashsize - 1) fuel
          (scanStart g input)).q := by
  have hinv := (scan_invariant g input fuel).1
  refine ⟨hinv, ?_, chunkBody_cHash _ _ _ _⟩
  intro h3
  have := (findBest_accepted input (len32 input) _ (stb__hashsize - 1) _ hinv (by omega)).2.1
  omega

theorem matchOpcode_none_of_lt (best : Nat) (dist : Int) (h : best < 3) :
    matchOpcode best dist = none := by
  unfold matchOpcode
  rw [if_pos h]

/-- C20: with the window of 0x40000, at every scan position of `compress`
the iteration either has `best < 3`, takes the first arm of the opcode chain
and stores nothing, or has `3 ≤ best ≤ 65536` and stores the pending literals
followed by exactly the opcode of one of the classes short, medium,
long-distance A, long-distance B, whose bounds contain `(best, dist)`; the
cursor and the start of the pending literals then move to `q + best`. The first
byte of the stored opcode is at least `0x10`, so it is neither of the tags
`0x04` and `0x06` of the extended arm, and the fallback arm, which would
advance the cursor by one byte and store nothing, is not taken. -/
theorem scan_no_extended (g : Globals) (input : List UInt8) (fuel : Nat)
    (s : ChunkState) (best : Nat) (dist : Int)
    (hs : s = chunkLoop input 0 (len32 input) (toInt32 (len32 input)) (stb__hashsize - 1) fuel
      (scanStart g input))
    (hbd : findBest input (len32 input) s.cHash (stb__hashsize - 1) s.q = (best, dist)) :
    (best < 3 →
      (chunkBody input (len32 input) (stb__hashsize - 1) s).g = s.g ∧
      (chunkBody input (len32 input) (stb__hashsize - 1) s).q = s.q + 1 ∧
      (chunkBody input (len32 input) (stb__hashsize - 1) s).lit_start = s.lit_start) ∧
    (3 ≤ best →
      best ≤ 65536 ∧ 1 ≤ dist ∧ dist ≤ 0x40000 ∧
      (chunkBody input (len32 input) (stb__hashsize - 1) s).q = s.q + best ∧
      (chunkBody input (len32 input) (stb__hashsize - 1) s).lit_start = s.q + best ∧
      ∃ c : MatchClass,
        (c = MatchClass.short ∨ c = MatchClass.medium ∨ c = MatchClass.longA ∨
          c = MatchClass.longB) ∧
        c.contains best dist = true ∧
        (chunkBody input (len32 input) (stb__hashsize - 1) s).g.out =
          (outLiterals s.g input s.lit_start (s.q - s.lit_start)).out ++ c.encode best dist ∧
        ∃ (b : Nat) (rest : List Nat), c.encode best dist = b :: rest ∧ 0x10 ≤ b) := by
  have hinv : TableBefore s.cHash s.q := by rw [hs]; exact (scan_invariant g input fuel).1
  have h1 : (findBest input (len32 input) s.cHash (stb__hashsize - 1) s.q).1 = best := by
    rw [hbd]
  have h2 : (findBest input (len32 input) s.cHash (stb__hashsize - 1) s.q).2 = dist := by
    rw [hbd]
  refine ⟨?_, ?_⟩
  · intro h
    have hm := matchOpcode_none_of_lt best dist h
    have hq := chunkBody_q input (len32 input) (stb__hashsize - 1) s
    have hl := chunkBody_lit_start input (len32 input) (stb__hashsize - 1) s
    rw [h1, h2] at hq hl
    rw [advance, hm] at hq
    rw [hm] at hl
    refine ⟨?_, hq, hl⟩
    rw [chunkBody_eq, h1, h2, hm]
  · intro h3
    have hacc := findBest_accepted input (len32 input) s.cHash (stb__hashsize - 1) s.q hinv
      (by rw [h1]; exact h3)
    rw [h1, h2] at hacc
    obtain ⟨h4, hd, hnc⟩ := hacc
    have hw := (stb__nc_iff best dist).mp hnc
    have hstep : ∀ bytes, matchOpcode best dist = some (best, bytes) →
        (chunkBody input (len32 input) (stb__hashsize - 1) s).q = s.q + best ∧
        (chunkBody input (len32 input) (stb__hashsize - 1) s).lit_start = s.q + best ∧
        (chunkBody input (len32 input) (stb__hashsize - 1) s).g.out =
          (outLiterals s.g input s.lit_start (s.q - s.lit_start)).out ++ bytes := by
      intro bytes hr
      have := chunkBody_of_matchOpcode input (len32 input) (stb__hashsize - 1) s (best, bytes)
        (by rw [h1, h2]; exact hr)
      exact ⟨this.2.1, this.2.2, this.1⟩
    have hcls := accepted_class best dist h3 h4 hnc
    have eD : 0 ≤ dist - 1 := by omega
    by_cases hsh : best ≤ 128 ∧ dist ≤ 256
    · obtain ⟨e1, e2, e3⟩ := hstep _ (matchOpcode_short best dist h3 hsh.1 hd hsh.2)
      refine ⟨h4, hd, hw.1, e1, e2, MatchClass.short, Or.inl rfl, ?_, e3, _, _, rfl, ?_⟩
      · simp [MatchClass.contains, h3, hsh.1, hsh.2, hd]
      · omega
    · by_cases hm : 6 ≤ best ∧ best ≤ 256 ∧ dist ≤ 16384
      · obtain ⟨e1, e2, e3⟩ := hstep _ (matchOpcode_medium best dist hsh hm.1 hm.2.1 hd hm.2.2)
        refine ⟨h4, hd, hw.1, e1, e2, MatchClass.medium, Or.inr (Or.inl rfl), ?_, e3, _, _,
          rfl, ?_⟩
        · simp [MatchClass.contains, hm.1, hm.2.1, hm.2.2, hd]
        · omega
      · by_cases ha : 8 ≤ best ∧ best ≤ 256 ∧ dist ≤ 524288
        · obtain ⟨e1, e2, e3⟩ := hstep _ (matchOpcode_longA best dist hm ha.1 ha.2.1 hd ha.2.2)
          refine ⟨h4, hd, hw.1, e1, e2, MatchClass.longA, Or.inr (Or.inr (Or.inl rfl)), ?_, e3,
            _, _, rfl, ?_⟩
          · simp [MatchClass.contains, ha.1, ha.2.1, ha.2.2, hd]
          · omega
        · have hb : 9 ≤ best ∧ dist ≤ 524288 := by omega
          obtain ⟨e1, e2, e3⟩ := hstep _ (matchOpcode_longB best dist ha hb.1 h4 hd hb.2)
          refine ⟨h4, hd, hw.1, e1, e2, MatchClass.longB, Or.inr (Or.inr (Or.inr rfl)), ?_, e3,
            _, _, rfl, ?_⟩
          · simp [MatchClass.contains, hb.1, hb.2, h4, hd]
          · omega

set_option maxRecDepth 100000 in
theorem scan_no_extended_witness :
    findBest (List.replicate 17 [65, 66, 67, 68]).flatten
        (len32 (List.replicate 17 [65, 66, 67, 68]).flatten)
        (chunkLoop (List.replicate 17 [65, 66, 67, 68]).flatten 0
          (len32 (List.replicate 17 [65, 66, 67, 68]).flatten)
          (toInt32 (len32 (List.replicate 17 [65, 66, 67, 68]).flatten)) (stb__hashsize - 1) 4
          (scanStart ⟨[], 0, 0⟩ (List.replicate 17 [65, 66, 67, 68]).flatten)).cHash
        (stb__hashsize - 1)
        (chunkLoop (List.replicate 17 [65, 66, 67, 68]).flatten 0
          (len32 (List.replicate 17 [65, 66, 67, 68]).flatten)
          (toInt32 (len32 (List.replicate 17 [65, 66, 67, 68]).flatten)) (stb__hashsize - 1) 4
          (scanStart ⟨[], 0, 0⟩ (List.replicate 17 [65, 66, 67, 68]).flatten)).q = (64, 4) ∧
    (chunkBody (List.replicate 17 [65, 66, 67, 68]).flatten
        (len32 (List.replicate 17 [65, 66, 67, 68]).flatten) (stb__hashsize - 1)
        (chunkLoop (List.replicate 17 [65, 66, 67, 68]).flatten 0
          (len32 (List.replicate 17 [65, 66, 67, 68]).flatten)
          (toInt32 (len32 (List.replicate 17 [65, 66, 67, 68]).flatten)) (stb__hashsize - 1) 4
          (scanStart ⟨[], 0, 0⟩ (List.replicate 17 [65, 66, 67, 68]).flatten))).q =
      (chunkLoop (List.replicate 17 [65, 66, 67, 68]).flatten 0
          (len32 (List.replicate 17 [65, 66, 67, 68]).flatten)
          (toInt32 (len32 (List.replicate 17 [65, 66, 67, 68]).flatten)) (stb__hashsize - 1) 4
          (scanStart ⟨[], 0, 0⟩ (List.replicate 17 [65, 66, 67, 68]).flatten)).q + 64 :=
  ⟨by decide,
    ((scan_no_extended ⟨[], 0, 0⟩ (List.replicate 17 [65, 66, 67, 68]).flatten 4 _ 64 4 rfl
      (by decide)).2 (by decide)).2.2.2.1⟩

/-! ## The retained candidate -/

/-- A probe changes the retained pair only to a strictly longer candidate that
passes `stb__nc`. -/
theorem STB__TRY_cases (input : List UInt8) (window : Int) (q match_max t : Nat) (p : Bool)
    (bd : Nat × Int) :
    STB__TRY input window q match_max t p bd = bd ∨
      (STB__TRY input window q match_max t p bd =
          (matchLength input t q match_max, (q : Int) - (t : Int)) ∧
        bd.1 < matchLength input t q match_max ∧
        stb__nc window (matchLength input t q match_max) ((q : Int) - (t : Int)) = true ∧
        (p = true → bd.2 ≠ (q : Int) - (t : Int))) := by
  unfold STB__TRY
  by_cases hp : (if p then bd.2 ≠ (q : Int) - (t : Int) else True)
  · rw [if_pos hp]
    simp only
    by_cases hm : matchLength input t q match_max > bd.1
    · rw [if_pos hm]
      by_cases hnc : stb__nc window (matchLength input t q match_max) ((q : Int) - (t : Int)) = true
      · rw [if_pos hnc]
        right
        refine ⟨rfl, hm, hnc, ?_⟩
        intro hpt
        rw [hpt] at hp
        simpa using hp
      · rw [if_neg hnc]; left; rfl
    · rw [if_neg hm]; left; rfl
  · rw [if_neg hp]; left; rfl

/-- A probe leaves the pair unchanged only if the candidate is skipped (same
distance as the retained pair), not longer, or rejected by `stb__nc`. -/
theorem STB__TRY_unchanged (input : List UInt8) (window : Int) (q match_max t : Nat) (p : Bool)
    (bd : Nat × Int) (h : STB__TRY input window q match_max t p bd = bd) :
    (p = true ∧ bd.2 = (q : Int) - (t : Int)) ∨ matchLength input t q match_max ≤ bd.1 ∨
      stb__nc window (matchLength input t q match_max) ((q : Int) - (t : Int)) = false ∨
      bd = (matchLength input t q match_max, (q : Int) - (t : Int)) := by
  unfold STB__TRY at h
  by_cases hp : (if p then bd.2 ≠ (q : Int) - (t : Int) else True)
  · rw [if_pos hp] at h
    simp only at h
    by_cases hm : matchLength input t q match_max > bd.1
    · rw [if_pos hm] at h
      by_cases hnc : stb__nc window (matchLength input t q match_max) ((q : Int) - (t : Int)) = true
      · rw [if_pos hnc] at h
        right; right; right; exact h.symm
      · right; right; left; simpa using hnc
    · right; left; omega
  · left
    cases p with
    | true => simpa using hp
    | false => simp at hp

theorem probe_bestOf (input : List UInt8) (endp : Nat) (cHash : Nat → Option Nat)
    (q : Nat) (hT : TableBefore cHash q) (done : List Nat) (h : Nat) (p : Bool)
    (bd : Nat × Int) (hbd : BestOf input endp cHash q done bd) :
    BestOf input endp cHash q (done ++ [h])
      (probe input stb__window cHash q (matchMax endp q) h p bd) := by
  obtain ⟨ha, hb⟩ := hbd
  have hge : 2 ≤ bd.1 := by
    rcases ha with e | ⟨_, _, _, t0, _, _, e, hu, _⟩
    · rw [e]
    · rw [e]; exact Nat.le_of_lt hu.1
  have ha' : ∀ bd' : Nat × Int, bd' = bd →
      (bd' = (2, 0) ∨
        ∃ (pre : List Nat) (h0 : Nat) (post : List Nat) (t : Nat),
          done ++ [h] = pre ++ h0 :: post ∧ cHash h0 = some t ∧
          bd' = (matchLength input t q (matchMax endp q), (q : Int) - (t : Int)) ∧
          Usable input endp q t ∧
          ∀ h' ∈ pre, ∀ t' : Nat, cHash h' = some t' → Usable input endp q t' →
            matchLength input t' q (matchMax endp q) <
              matchLength input t q (matchMax endp q)) := by
    intro bd' e
    rw [e]
    rcases ha with e0 | ⟨pre, h0, post, t0, hd, hc, e0, hu, hpre⟩
    · left; exact e0
    · right
      exact ⟨pre, h0, post ++ [h], t0, by rw [hd]; simp, hc, e0, hu, hpre⟩
  unfold probe
  cases hc : cHash h with
  | none =>
    simp only
    refine ⟨ha' bd rfl, ?_⟩
    intro h' hh' t' ht' hu'
    rw [List.mem_append, List.mem_singleton] at hh'
    rcases hh' with hh' | hh'
    · exact hb h' hh' t' ht' hu'
    · rw [hh', hc] at ht'; cases ht'
  | some t =>
    simp only
    have htq : t < q := hT h t hc
    rcases STB__TRY_cases input stb__window q (matchMax endp q) t p bd with e | ⟨e, hm, hnc, _⟩
    · rw [e]
      refine ⟨ha' bd rfl, ?_⟩
      intro h' hh' t' ht' hu'
      rw [List.mem_append, List.mem_singleton] at hh'
      rcases hh' with hh' | hh'
      · exact hb h' hh' t' ht' hu'
      · rw [hh', hc] at ht'
        have ht : t' = t := (Option.some.inj ht').symm
        subst ht
        rcases STB__TRY_unchanged input stb__window q (matchMax endp q) t' p bd e with
          hs | hs | hs | hs
        · rcases ha with e0 | ⟨_, _, _, t0, _, _, e0, _, _⟩
          · rw [e0] at hs
            have := hs.2
            simp only at this
            omega
          · rw [e0] at hs ⊢
            have h2 := hs.2
            simp only at h2 ⊢
            have : t0 = t' := by omega
            rw [this]
        · exact hs
        · rw [hu'.2] at hs; cases hs
        · rw [hs]
    · rw [e]
      refine ⟨Or.inr ⟨done, h, [], t, rfl, hc, rfl, ⟨by omega, hnc⟩, ?_⟩, ?_⟩
      · intro h' hh' t' ht' hu'
        have := hb h' hh' t' ht' hu'
        omega
      · intro h' hh' t' ht' hu'
        rw [List.mem_append, List.mem_singleton] at hh'
        simp only
        rcases hh' with hh' | hh'
        · have := hb h' hh' t' ht' hu'
          omega
        · rw [hh', hc] at ht'
          have ht : t' = t := (Option.some.inj ht').symm
          rw [ht]

theorem findBest_bestOf (input : List UInt8) (endp : Nat) (cHash : Nat → Option Nat)
    (mask q : Nat) (hT : TableBefore cHash q) :
    BestOf input endp cHash q
      [(hashes input mask q).1, (hashes input mask q).2.1, (hashes input mask q).2.2.1,
        (hashes input mask q).2.2.2]
      (findBest input endp cHash mask q) := by
  have h0 : BestOf input endp cHash q [] (2, 0) :=
    ⟨Or.inl rfl, fun h' hh' => by simp at hh'⟩
  have h1 := probe_bestOf input endp cHash q hT [] (hashes input mask q).1 false _ h0
  have h2 := probe_bestOf input endp cHash q hT _ (hashes input mask q).2.1 true _ h1
  have h3 := probe_bestOf input endp cHash q hT _ (hashes input mask q).2.2.1 true _ h2
  have h4 := probe_bestOf input endp cHash q hT _ (hashes input mask q).2.2.2 true _ h3
  exact h4
set_option maxRecDepth 100000 in
/-- C16 (as stated) fails: in the scan of `rejectedInput`, at the cursor 300
(after 11 iterations) the retained pair is `(3, 100)`, from position 200, while
the slot of the second hash records position 0, whose match length is 5: the
longer candidate has distance 300 and is rejected by the acceptance test, and
the shorter one is kept. -/
theorem longest_candidate_not_retained :
    (scanAt ⟨[], 0, 0⟩ rejectedInput 11).q = 300 ∧
    findBest rejectedInput 320 (scanAt ⟨[], 0, 0⟩ rejectedInput 11).cHash (stb__hashsize - 1)
      300 = (3, 100) ∧
    (scanAt ⟨[], 0, 0⟩ rejectedInput 11).cHash (hashes rejectedInput (stb__hashsize - 1) 300).2.1 =
      some 0 ∧
    matchLength rejectedInput 0 300 (matchMax 320 300) = 5 ∧
    ¬ RetainsLongest rejectedInput 320 (scanAt ⟨[], 0, 0⟩ rejectedInput 11).cHash
      (stb__hashsize - 1) 300 := by
  have h1 : (scanAt ⟨[], 0, 0⟩ rejectedInput 11).q = 300 := by decide
  have h2 : findBest rejectedInput 320 (scanAt ⟨[], 0, 0⟩ rejectedInput 11).cHash
      (stb__hashsize - 1) 300 = (3, 100) := by decide
  have h3 : (scanAt ⟨[], 0, 0⟩ rejectedInput 11).cHash
      (hashes rejectedInput (stb__hashsize - 1) 300).2.1 = some 0 := by decide
  have h4 : matchLength rejectedInput 0 300 (matchMax 320 300) = 5 := by decide
  refine ⟨h1, h2, h3, h4, ?_⟩
  intro h
  have := h (hashes rejectedInput (stb__hashsize - 1) 300).2.1 (by simp) 0 h3
  rw [h2, h4] at this
  omega

/-- C16 (amended): at a scan position whose table records only earlier
positions, the pair retained after the four probes is `(2, 0)` or the pair
(match length, distance) of a recorded candidate of one of the four slots that
is usable (length above 2 and accepted by `stb__nc` at its own distance); every
usable candidate of an earlier-probed slot is strictly shorter, and no usable
candidate of the four slots is longer than the retained length. A single probe
changes the pair only to a strictly longer candidate that passes `stb__nc`. -/
theorem findBest_longest_usable (input : List UInt8) (endp : Nat) (cHash : Nat → Option Nat)
    (mask q : Nat) (hT : TableBefore cHash q) :
    (findBest input endp cHash mask q = (2, 0) ∨
      ∃ (pre : List Nat) (h : Nat) (post : List Nat) (t : Nat),
        [(hashes input mask q).1, (hashes input mask q).2.1, (hashes input mask q).2.2.1,
          (hashes input mask q).2.2.2] = pre ++ h :: post ∧
        cHash h = some t ∧
        findBest input endp cHash mask q =
          (matchLength input t q (matchMax endp q), (q : Int) - (t : Int)) ∧
        Usable input endp q t ∧
        ∀ h' ∈ pre, ∀ t' : Nat, cHash h' = some t' → Usable input endp q t' →
          matchLength input t' q (matchMax endp q) <
            matchLength input t q (matchMax endp q)) ∧
    (∀ h' ∈ [(hashes input mask q).1, (hashes input mask q).2.1, (hashes input mask q).2.2.1,
        (hashes input mask q).2.2.2],
      ∀ t' : Nat, cHash h' = some t' → Usable input endp q t' →
        matchLength input t' q (matchMax endp q) ≤ (findBest input endp cHash mask q).1) ∧
    (∀ (t : Nat) (p : Bool) (bd : Nat × Int),
      STB__TRY input stb__window q (matchMax endp q) t p bd = bd ∨
        (STB__TRY input stb__window q (matchMax endp q) t p bd =
            (matchLength input t q (matchMax endp q), (q : Int) - (t : Int)) ∧
          bd.1 < matchLength input t q (matchMax endp q) ∧
          stb__nc stb__window (matchLength input t q (matchMax endp q))
            ((q : Int) - (t : Int)) = true)) := by
  have h := findBest_bestOf input endp cHash mask q hT
  refine ⟨h.1, h.2, ?_⟩
  intro t p bd
  rcases STB__TRY_cases input stb__window q (matchMax endp q) t p bd with e | ⟨e, h1, h2, _⟩
  · exact Or.inl e
  · exact Or.inr ⟨e, h1, h2⟩

theorem findBest_longest_usable_witness :
    TableBefore (fun _ => some 0) 4 ∧
    ∀ h' ∈ [(hashes (List.replicate 17 [65, 66, 67, 68]).flatten 32767 4).1,
        (hashes (List.replicate 17 [65, 66, 67, 68]).flatten 32767 4).2.1,
        (hashes (List.replicate 17 [65, 66, 67, 68]).flatten 32767 4).2.2.1,
        (hashes (List.replicate 17 [65, 66, 67, 68]).flatten 32767 4).2.2.2],
      ∀ t' : Nat, (fun _ => some 0 : Nat → Option Nat) h' = some t' →
        Usable (List.replicate 17 [65, 66, 67, 68]).flatten 68 4 t' →
        matchLength (List.replicate 17 [65, 66, 67, 68]).flatten t' 4 (matchMax 68 4) ≤
          (findBest (List.replicate 17 [65, 66, 67, 68]).flatten 68 (fun _ => some 0) 32767 4).1 :=
  ⟨fun _ _ h => by cases h; decide,
    (findBest_longest_usable (List.replicate 17 [65, 66, 67, 68]).flatten 68 (fun _ => some 0)
      32767 4 (fun _ _ h => by cases h; decide)).2.1⟩

/-! ## The input indices that are read -/

/-- The result of `matchLength` depends only on the bytes at the indices
listed by `matchLengthLoopReads`. -/
theorem matchLengthLoop_congr (a b : List UInt8) (m1 m2 : Nat) :
    ∀ (rem i : Nat), (∀ x ∈ matchLengthLoopReads a m1 m2 rem i, rd a x = rd b x) →
      matchLengthLoop a m1 m2 rem i = matchLengthLoop b m1 m2 rem i := by
  intro rem
  induction rem with
  | zero => intro i _; rfl
  | succ rem ih =>
    intro i h
    unfold matchLengthLoopReads at h
    have h1 : rd a (m1 + i) = rd b (m1 + i) := h _ (by simp)
    have h2 : rd a (m2 + i) = rd b (m2 + i) := h _ (by simp)
    unfold matchLengthLoop
    rw [← h1, ← h2]
    by_cases hc : rd a (m1 + i) ≠ rd a (m2 + i)
    · rw [if_pos hc, if_pos hc]
    · rw [if_neg hc, if_neg hc]
      apply ih
      intro x hx
      apply h
      rw [if_neg hc]
      simp [hx]

/-- The four hash values depend only on the bytes `q[0] .. q[12]`. -/
theorem hashes_congr (a b : List UInt8) (mask q : Nat)
    (h : ∀ x ∈ hashReads q, rd a x = rd b x) : hashes a mask q = hashes b mask q := by
  have hc : ∀ c, c < 13 → rd a (q + c) = rd b (q + c) := by
    intro c hc
    apply h
    simp only [hashReads, List.mem_map, List.mem_range]
    exact ⟨c, hc, rfl⟩
  unfold hashes stb__hc3 stb__hc2
  simp only [hc 0 (by omega), hc 1 (by omega), hc 2 (by omega), hc 3 (by omega),
    hc 4 (by omega), hc 5 (by omega), hc 6 (by omega), hc 7 (by omega), hc 8 (by omega),
    hc 9 (by omega), hc 10 (by omega), hc 11 (by omega), hc 12 (by omega)]

theorem matchLengthLoopReads_lt (input : List UInt8) (m1 m2 : Nat) (h : m1 ≤ m2) :
    ∀ (rem i : Nat), ∀ x ∈ matchLengthLoopReads input m1 m2 rem i, x < m2 + i + rem := by
  intro rem
  induction rem with
  | zero => intro i x hx; simp [matchLengthLoopReads] at hx
  | succ rem ih =>
    intro i x hx
    unfold matchLengthLoopReads at hx
    rw [List.mem_append] at hx
    rcases hx with hx | hx
    · simp only [List.mem_cons, List.mem_singleton, List.not_mem_nil, or_false] at hx
      omega
    · split at hx
      · simp at hx
      · have := ih (i + 1) x hx
        omega

theorem probeReads_lt (input : List UInt8) (endp : Nat) (cHash : Nat → Option Nat)
    (q h : Nat) (p : Bool) (bd : Nat × Int) (hT : TableBefore cHash q) (hq : q ≤ endp) :
    ∀ x ∈ probeReads input cHash q (matchMax endp q) h p bd, x < endp := by
  intro x hx
  unfold probeReads at hx
  cases hc : cHash h with
  | none => rw [hc] at hx; simp at hx
  | some t =>
    rw [hc] at hx
    simp only [tryReads] at hx
    by_cases hp : (if p then bd.2 ≠ (q : Int) - (t : Int) else True)
    · rw [if_pos hp] at hx
      have h1 := matchLengthLoopReads_lt input t q (Nat.le_of_lt (hT h t hc)) _ 0 x hx
      have h2 := matchMax_le endp q
      omega
    · rw [if_neg hp] at hx
      simp at hx

theorem bodyReads_lt (input : List UInt8) (endp mask : Nat) (s : ChunkState)
    (hT : TableBefore s.cHash s.q) (hl : s.lit_start ≤ s.q) (hg : s.q + 12 < endp) :
    ∀ x ∈ bodyReads input endp mask s, x < endp := by
  intro x hx
  have hq : s.q ≤ endp := by omega
  unfold bodyReads findBestReads at hx
  simp only [List.mem_append] at hx
  rcases hx with ((((hx | hx) | hx) | hx) | hx) | hx
  · simp only [hashReads, List.mem_map, List.mem_range] at hx
    obtain ⟨c, hc, rfl⟩ := hx
    omega
  · exact probeReads_lt input endp s.cHash s.q _ _ _ hT hq x hx
  · exact probeReads_lt input endp s.cHash s.q _ _ _ hT hq x hx
  · exact probeReads_lt input endp s.cHash s.q _ _ _ hT hq x hx
  · exact probeReads_lt input endp s.cHash s.q _ _ _ hT hq x hx
  · split at hx
    · simp at hx
    · simp only [List.mem_map, List.mem_range] at hx
      obtain ⟨i, hi, rfl⟩ := hx
      omega

theorem probe_congr (a b : List UInt8) (window : Int) (cHash : Nat → Option Nat)
    (q match_max h : Nat) (p : Bool) (bd : Nat × Int)
    (hr : ∀ x ∈ probeReads a cHash q match_max h p bd, rd a x = rd b x) :
    probe a window cHash q match_max h p bd = probe b window cHash q match_max h p bd := by
  unfold probe
  unfold probeReads at hr
  cases hc : cHash h with
  | none => rfl
  | some t =>
    rw [hc] at hr
    simp only at hr ⊢
    unfold STB__TRY
    unfold tryReads at hr
    by_cases hp : (if p then bd.2 ≠ (q : Int) - (t : Int) else True)
    · rw [if_pos hp] at hr
      rw [if_pos hp, if_pos hp]
      have e : matchLength a t q match_max = matchLength b t q match_max :=
        matchLengthLoop_congr a b t q match_max 0 hr
      rw [e]
    · rw [if_neg hp, if_neg hp]

theorem findBest_congr (a b : List UInt8) (endp : Nat) (cHash : Nat → Option Nat)
    (mask q : Nat) (hr : ∀ x ∈ findBestReads a endp cHash mask q, rd a x = rd b x) :
    hashes a mask q = hashes b mask q ∧
      findBest a endp cHash mask q = findBest b endp cHash mask q := by
  unfold findBestReads at hr
  simp only [List.mem_append] at hr
  have hh : hashes a mask q = hashes b mask q :=
    hashes_congr a b mask q (fun x hx => hr x (Or.inl (Or.inl (Or.inl (Or.inl hx)))))
  have h1 := probe_congr a b stb__window cHash q (matchMax endp q) (hashes a mask q).1 false
    (2, 0) (fun x hx => hr x (Or.inl (Or.inl (Or.inl (Or.inr hx)))))
  have h2 := probe_congr a b stb__window cHash q (matchMax endp q) (hashes a mask q).2.1 true
    _ (fun x hx => hr x (Or.inl (Or.inl (Or.inr hx))))
  have h3 := probe_congr a b stb__window cHash q (matchMax endp q) (hashes a mask q).2.2.1 true
    _ (fun x hx => hr x (Or.inl (Or.inr hx)))
  have h4 := probe_congr a b stb__window cHash q (matchMax endp q) (hashes a mask q).2.2.2 true
    _ (fun x hx => hr x (Or.inr hx))
  refine ⟨hh, ?_⟩
  unfold findBest
  simp only
  rw [← hh, ← h1, ← h2, ← h3, ← h4]

theorem payload_congr (a b : List UInt8) (p n : Nat)
    (h : ∀ i, i < n → rd a (p + i) = rd b (p + i)) : payload a p n = payload b p n := by
  unfold payload
  apply List.map_congr_left
  intro i hi
  exact h i (List.mem_range.mp hi)

theorem fullBlocks_congr (a b : List UInt8) :
    ∀ (k p : Nat), (∀ i, i < 65536 * k → rd a (p + i) = rd b (p + i)) →
      fullBlocks a p k = fullBlocks b p k := by
  intro k
  induction k with
  | zero => intro p _; rfl
  | succ k ih =>
    intro p h
    rw [fullBlocks, fullBlocks, literalBlock, literalBlock,
      payload_congr a b p 65536 (fun i hi => h i (by omega)),
      ih (p + 65536) (fun i hi => by rw [Nat.add_assoc]; exact h (65536 + i) (by omega))]

theorem literalBytes_congr (a b : List UInt8) (p n : Nat)
    (h : ∀ i, i < n → rd a (p + i) = rd b (p + i)) :
    literalBytes a p n = literalBytes b p n := by
  unfold literalBytes literalBlock
  rw [fullBlocks_congr a b _ p (fun i hi => h i (by omega)),
    payload_congr a b _ _ (fun i hi => by rw [Nat.add_assoc]; exact h _ (by omega))]

theorem chunkBody_congr (a b : List UInt8) (endp mask : Nat) (s : ChunkState)
    (hr : ∀ x ∈ bodyReads a endp mask s, rd a x = rd b x) :
    chunkBody a endp mask s = chunkBody b endp mask s := by
  unfold bodyReads at hr
  simp only [List.mem_append] at hr
  obtain ⟨hh, hf⟩ := findBest_congr a b endp s.cHash mask s.q (fun x hx => hr x (Or.inl hx))
  have hn : nextTable a mask s.cHash s.q = nextTable b mask s.cHash s.q := by
    unfold nextTable
    rw [hh]
  rw [chunkBody_eq, chunkBody_eq, ← hf, ← hn]
  cases hm : matchOpcode (findBest a endp s.cHash mask s.q).1
      (findBest a endp s.cHash mask s.q).2 with
  | none => rfl
  | some r =>
    rw [hm] at hr
    simp only at hr ⊢
    have hl : literalBytes a s.lit_start (s.q - s.lit_start) =
        literalBytes b s.lit_start (s.q - s.lit_start) := by
      apply literalBytes_congr
      intro i hi
      apply hr
      right
      simp only [List.mem_map, List.mem_range]
      exact ⟨i, hi, rfl⟩
    rw [outLiterals_eq_emit, outLiterals_eq_emit, hl]

theorem chunkLoop_congr (a b : List UInt8) (start endp : Nat) (length : Int) (mask : Nat)
    (hab : ∀ i, i < endp → rd a i = rd b i) :
    ∀ (fuel : Nat) (s : ChunkState), TableBefore s.cHash s.q → s.lit_start ≤ s.q →
      chunkLoop a start endp length mask fuel s = chunkLoop b start endp length mask fuel s := by
  intro fuel
  induction fuel with
  | zero => intro s _ _; rfl
  | succ fuel ih =>
    intro s hT hl
    by_cases hg : (s.q : Int) < (start : Int) + length ∧ s.q + 12 < endp
    · rw [chunkLoop_pos _ _ _ _ _ _ _ hg, chunkLoop_pos _ _ _ _ _ _ _ hg,
        ← chunkBody_congr a b endp mask s
          (fun x hx => hab x (bodyReads_lt a endp mask s hT hl hg.2 x hx))]
      exact ih _ (chunkBody_tableBefore a endp mask s hT)
        (chunkBody_bounds a endp mask s hl hg.2).1
    · rw [chunkLoop_neg _ _ _ _ _ _ _ hg, chunkLoop_neg _ _ _ _ _ _ _ hg]

theorem rd_append_left (a junk : List UInt8) (i : Nat) (h : i < a.length) :
    rd (a ++ junk) i = rd a i := by
  unfold rd
  rw [List.getD_append _ _ _ _ h]

theorem adler32_congr (a b : List UInt8) (n : Nat) (hn : n < 4294967296)
    (hab : ∀ i, i < n → rd a i = rd b i) : adler32 1 a n = adler32 1 b n := by
  rw [adler32_eq 1 a n (by decide) (by decide) hn, adler32_eq 1 b n (by decide) (by decide) hn,
    payload_congr a b 0 n (fun i hi => by rw [Nat.zero_add]; exact hab i hi)]

theorem chunkLoop_succ (input : List UInt8) (start endp : Nat) (length : Int) (mask : Nat) :
    ∀ (fuel : Nat) (s : ChunkState),
      chunkLoop input start endp length mask (fuel + 1) s =
        chunkLoop input start endp length mask 1
          (chunkLoop input start endp length mask fuel s) := by
  intro fuel
  induction fuel with
  | zero => intro s; rfl
  | succ fuel ih =>
    intro s
    by_cases hg : (s.q : Int) < (start : Int) + length ∧ s.q + 12 < endp
    · rw [chunkLoop_pos _ _ _ _ _ _ _ hg, ih, ← chunkLoop_pos _ _ _ _ _ _ _ hg]
    · rw [chunkLoop_neg _ _ _ _ _ (fuel + 1 + 1) _ hg, chunkLoop_neg _ _ _ _ _ (fuel + 1) _ hg,
        chunkLoop_neg _ _ _ _ _ 1 _ hg]

theorem scanAt_succ (g : Globals) (input : List UInt8) (k : Nat)
    (h : scanAt g input (k + 1) ≠ scanAt g input k) :
    ((scanAt g input k).q + 12 < len32 input) ∧
      scanAt g input (k + 1) =
        chunkBody input (len32 input) (stb__hashsize - 1) (scanAt g input k) := by
  have e : scanAt g input (k + 1) =
      chunkLoop input 0 (len32 input) (toInt32 (len32 input)) (stb__hashsize - 1) 1
        (scanAt g input k) := by
    unfold scanAt
    exact chunkLoop_succ _ _ _ _ _ _ _
  by_cases hg : ((scanAt g input k).q : Int) < ((0 : Nat) : Int) + toInt32 (len32 input) ∧
      (scanAt g input k).q + 12 < len32 input
  · refine ⟨hg.2, ?_⟩
    rw [e, chunkLoop_pos _ _ _ _ _ _ _ hg]
    rfl
  · rw [e, chunkLoop_neg _ _ _ _ _ _ _ hg] at h
    exact absurd rfl h

theorem chunkQ_le_of (n : Nat) (s : ChunkState) (hn : n < 4294967296) (hq : s.q ≤ n) :
    chunkQ (toInt32 n) s ≤ n := by
  unfold chunkQ toInt32
  split_ifs <;> omega

theorem chunkQ_le (input : List UInt8) (n mask fuel : Nat) (g1 : Globals)
    (hn : n < 4294967296) :
    chunkQ (toInt32 n) (chunkLoop input 0 n (toInt32 n) mask fuel
      { g := g1, cHash := fun _ => none, q := 0, lit_start := 0 }) ≤ n :=
  chunkQ_le_of n _ hn (chunkLoop_bounds input 0 n (toInt32 n) mask fuel
    { g := g1, cHash := fun _ => none, q := 0, lit_start := 0 } (Nat.le_refl _)
    (Nat.zero_le _)).2

theorem compressChunk_congr (g1 : Globals) (a b : List UInt8) (n mask : Nat)
    (hn : n < 4294967296) (hg : g1.running_adler = 1) (hab : ∀ i, i < n → rd a i = rd b i) :
    compressChunk g1 a 0 n (toInt32 n) 0 (fun _ => none) mask =
        compressChunk g1 b 0 n (toInt32 n) 0 (fun _ => none) mask ∧
      (compressChunk g1 a 0 n (toInt32 n) 0 (fun _ => none) mask).2.1 ≤ n := by
  have hl := chunkLoop_congr a b 0 n (toInt32 n) mask hab (toInt32 n).toNat
    { g := g1, cHash := fun _ => none, q := 0, lit_start := 0 }
    (fun h t ht => by cases ht) (Nat.le_refl _)
  have hq := chunkQ_le a n mask (toInt32 n).toNat g1 hn
  rw [compressChunk_eq g1 a n (toInt32 n) _ mask _ rfl,
    compressChunk_eq g1 b n (toInt32 n) _ mask _ rfl, ← hl, hg]
  refine ⟨?_, ?_⟩
  · rw [toUInt32_natCast _ (by omega), adler32_congr a b _ (by omega)
      (fun i hi => hab i (by omega))]
  · exact Nat.le_trans (Nat.sub_le _ _) hq

theorem compressInner_congr (g0 : Globals) (a b : List UInt8) (n : Nat)
    (hn : n < 4294967296) (hab : ∀ i, i < n → rd a i = rd b i) :
    compressInner g0 a n = compressInner g0 b n := by
  obtain ⟨hc, hle⟩ := compressChunk_congr
    { emit g0 (headerBytes n) with running_adler := 1 } a b n (stb__hashsize - 1) hn rfl hab
  rw [compressInner_eq, compressInner_eq, ← hc,
    literalBytes_congr a b _ _ (fun i hi => hab _ (by omega))]

/-- C15: every input index that `compressChunk` reads in a call of `compress`
is below the length `n` of the input. Whenever the scanning loop runs its body
on the state reached after `k` iterations, the cursor satisfies `q + 12 < n`,
so the hash window `q .. q+12` is inside the input, and so is every other index
the body reads (comparisons of `matchLength`, pending literals copied when a
match is encoded). In every state of the scan a recorded candidate lies
strictly before `q`, and `matchLength` compares at most `min(65536, n - q)`
bytes from the candidate and from `q`, all below `n`. The listed indices are
the ones the code depends on: the body, `matchLength` and the hashes give the
same result on any other buffer with the same bytes at these indices; and the
result of `compressChunk`, like every state of its loop, is the same whatever
bytes follow the input in memory. -/
theorem compressChunk_reads_in_bounds (g : Globals) (input : List UInt8) :
    (∀ k : Nat, scanAt g input (k + 1) ≠ scanAt g input k →
      scanAt g input (k + 1) =
          chunkBody input (len32 input) (stb__hashsize - 1) (scanAt g input k) ∧
        (scanAt g input k).q + 12 < len32 input ∧
        (∀ x ∈ hashReads (scanAt g input k).q, x < input.length) ∧
        (∀ x ∈ bodyReads input (len32 input) (stb__hashsize - 1) (scanAt g input k),
          x < input.length)) ∧
    (∀ (k : Nat) (h t : Nat), (scanAt g input k).cHash h = some t →
      t < (scanAt g input k).q ∧
      matchLength input t (scanAt g input k).q (matchMax (len32 input) (scanAt g input k).q) ≤
        min 65536 (len32 input - (scanAt g input k).q) ∧
      ∀ x ∈ matchLengthLoopReads input t (scanAt g input k).q
          (matchMax (len32 input) (scanAt g input k).q) 0,
        x < input.length) ∧
    (∀ (other : List UInt8) (endp mask : Nat) (s : ChunkState),
      (∀ x ∈ bodyReads input endp mask s, rd input x = rd other x) →
        chunkBody input endp mask s = chunkBody other endp mask s) ∧
    (∀ (other : List UInt8) (t q m : Nat),
      (∀ x ∈ matchLengthLoopReads input t q m 0, rd input x = rd other x) →
        matchLength input t q m = matchLength other t q m) ∧
    (∀ (other : List UInt8) (mask q : Nat),
      (∀ x ∈ hashReads q, rd input x = rd other x) →
        hashes input mask q = hashes other mask q) ∧
    (∀ (junk : List UInt8) (k : Nat),
      chunkLoop (input ++ junk) 0 (len32 input) (toInt32 (len32 input)) (stb__hashsize - 1) k
        (scanStart g input) = scanAt g input k) ∧
    (∀ (g1 : Globals) (junk : List UInt8), g1.running_adler = 1 →
      compressChunk g1 (input ++ junk) 0 (len32 input) (toInt32 (len32 input)) 0
          (fun _ => none) (stb__hashsize - 1) =
        compressChunk g1 input 0 (len32 input) (toInt32 (len32 input)) 0
          (fun _ => none) (stb__hashsize - 1)) := by
  have hle := len32_le input
  have hlt := len32_lt input
  have hjunk : ∀ (junk : List UInt8) (i : Nat), i < len32 input →
      rd (input ++ junk) i = rd input i :=
    fun junk i hi => rd_append_left input junk i (by omega)
  refine ⟨?_, ?_, ?_, ?_, ?_, ?_, ?_⟩
  · intro k hk
    obtain ⟨hq, hstep⟩ := scanAt_succ g input k hk
    have hinv := scan_invariant g input k
    refine ⟨hstep, hq, ?_, ?_⟩
    · intro x hx
      simp only [hashReads, List.mem_map, List.mem_range] at hx
      obtain ⟨c, hc, rfl⟩ := hx
      omega
    · intro x hx
      have := bodyReads_lt input (len32 input) (stb__hashsize - 1) (scanAt g input k)
        hinv.1 hinv.2.1 hq x hx
      omega
  · intro k h t ht
    have hinv := scan_invariant g input k
    have htq : t < (scanAt g input k).q := hinv.1 h t ht
    have hq : (scanAt g input k).q ≤ len32 input := hinv.2.2
    have hm := matchLength_le input t (scanAt g input k).q
      (matchMax (len32 input) (scanAt g input k).q)
    have hmm := matchMax_le (len32 input) (scanAt g input k).q
    refine ⟨htq, by omega, ?_⟩
    intro x hx
    have := matchLengthLoopReads_lt input t (scanAt g input k).q (Nat.le_of_lt htq) _ 0 x hx
    omega
  · intro other endp mask s h
    exact chunkBody_congr input other endp mask s h
  · intro other t q m h
    exact matchLengthLoop_congr input other t q m 0 h
  · intro other mask q h
    exact hashes_congr input other mask q h
  · intro junk k
    exact chunkLoop_congr (input ++ junk) input 0 (len32 input) (toInt32 (len32 input))
      (stb__hashsize - 1) (hjunk junk) k (scanStart g input)
      (fun h t ht => by cases ht) (Nat.le_refl _)
  · intro g1 junk hg1
    exact (compressChunk_congr g1 (input ++ junk) input (len32 input) (stb__hashsize - 1)
      hlt hg1 (hjunk junk)).1

set_option maxRecDepth 100000 in
theorem compressChunk_reads_in_bounds_witness :
    scanAt ⟨[], 0, 0⟩ [7, 7, 7, 7, 7, 7, 7, 7, 7, 7, 7, 7, 7, 7] 1 ≠
        scanAt ⟨[], 0, 0⟩ [7, 7, 7, 7, 7, 7, 7, 7, 7, 7, 7, 7, 7, 7] 0 ∧
      (scanAt ⟨[], 0, 0⟩ [7, 7, 7, 7, 7, 7, 7, 7, 7, 7, 7, 7, 7, 7] 0).q + 12 <
        len32 [7, 7, 7, 7, 7, 7, 7, 7, 7, 7, 7, 7, 7, 7] :=
  ⟨fun h => absurd (congrArg ChunkState.q h) (by decide),
    ((compressChunk_reads_in_bounds ⟨[], 0, 0⟩ [7, 7, 7, 7, 7, 7, 7, 7, 7, 7, 7, 7, 7, 7]).1 0
      (fun h => absurd (congrArg ChunkState.q h) (by decide))).2.1⟩

/-! ## Decoding the opcode stream -/

theorem matchLengthLoop_agree (input : List UInt8) (m1 m2 : Nat) :
    ∀ (rem i : Nat), (∀ j, j < i → rd input (m1 + j) = rd input (m2 + j)) →
      ∀ j, j < matchLengthLoop input m1 m2 rem i → rd input (m1 + j) = rd input (m2 + j) := by
  intro rem
  induction rem with
  | zero => intro i h j hj; exact h j hj
  | succ rem ih =>
    intro i h j hj
    rw [matchLengthLoop] at hj
    by_cases hne : rd input (m1 + i) ≠ rd input (m2 + i)
    · rw [if_pos hne] at hj
      exact h j hj
    · rw [if_neg hne] at hj
      refine ih (i + 1) ?_ j hj
      intro j2 hj2
      by_cases he : j2 = i
      · subst he
        exact not_not.mp hne
      · exact h j2 (by omega)

theorem matchLength_agree (input : List UInt8) (m1 m2 maxLength j : Nat)
    (hj : j < matchLength input m1 m2 maxLength) :
    rd input (m1 + j) = rd input (m2 + j) :=
  matchLengthLoop_agree input m1 m2 maxLength 0 (fun _ h => absurd h (Nat.not_lt_zero _)) j hj

theorem payload_succ (input : List UInt8) (inp n : Nat) :
    payload input inp (n + 1) = payload input inp n ++ [rd input (inp + n)] := by
  rw [payload_add]
  simp [payload, List.range_succ]

theorem payload_getD (input : List UInt8) (inp n i : Nat) (h : i < n) :
    (payload input inp n).getD i 0 = rd input (inp + i) := by
  simp [payload, List.getD, h]

theorem copyMatch_payload (input : List UInt8) (t q : Nat) (ht : t < q) :
    ∀ (L k : Nat), (∀ j, k ≤ j → j < k + L → rd input (t + j) = rd input (q + j)) →
      copyMatch (q - t) L (payload input 0 (q + k)) = payload input 0 (q + k + L) := by
  intro L
  induction L with
  | zero => intro k _; rfl
  | succ L ih =>
    intro k h
    rw [copyMatch, payload_length, payload_getD input 0 (q + k) (q + k - (q - t)) (by omega)]
    have e1 : 0 + (q + k - (q - t)) = t + k := by omega
    rw [e1, h k (Nat.le_refl _) (by omega)]
    have e2 : payload input 0 (q + k) ++ [rd input (q + k)] = payload input 0 (q + (k + 1)) := by
      rw [← Nat.add_assoc, payload_succ, Nat.zero_add]
    rw [e2, ih (k + 1) (fun j h1 h2 => h j (by omega) (by omega))]
    congr 1
    omega
theorem parseTok_short (b d : Nat) (rest : List Nat) (h : 0x80 ≤ b) :
    parseTok (b :: d :: rest) = some (Tok.mat (b - 0x80 + 1) (d + 1), rest) := by
  rw [parseTok]
  unfold parseOp
  rw [if_pos h]

theorem parseTok_medium (b d l : Nat) (rest : List Nat) (h1 : ¬ 0x80 ≤ b) (h2 : 0x40 ≤ b) :
    parseTok (b :: d :: l :: rest) =
      some (Tok.mat (l + 1) (b * 256 + d - 0x4000 + 1), rest) := by
  rw [parseTok]
  unfold parseOp
  rw [if_neg h1, if_pos h2]

theorem parseTok_shortLit (b : Nat) (rest : List Nat) (h1 : ¬ 0x40 ≤ b) (h2 : 0x20 ≤ b) :
    parseTok (b :: rest) = parseLit (b - 0x20 + 1) rest := by
  rw [parseTok]
  unfold parseOp
  rw [if_neg (by omega), if_neg h1, if_pos h2]

theorem parseTok_longA (b d1 d0 l : Nat) (rest : List Nat) (h1 : ¬ 0x20 ≤ b) (h2 : 0x18 ≤ b) :
    parseTok (b :: d1 :: d0 :: l :: rest) =
      some (Tok.mat (l + 1) (b * 65536 + d1 * 256 + d0 - 0x180000 + 1), rest) := by
  rw [parseTok]
  unfold parseOp
  rw [if_neg (by omega), if_neg (by omega), if_neg h1, if_pos h2]

theorem parseTok_longB (b d1 d0 l1 l0 : Nat) (rest : List Nat) (h1 : ¬ 0x18 ≤ b)
    (h2 : 0x10 ≤ b) :
    parseTok (b :: d1 :: d0 :: l1 :: l0 :: rest) =
      some (Tok.mat (l1 * 256 + l0 + 1) (b * 65536 + d1 * 256 + d0 - 0x100000 + 1), rest) := by
  rw [parseTok]
  unfold parseOp
  rw [if_neg (by omega), if_neg (by omega), if_neg (by omega), if_neg h1, if_pos h2]

theorem parseTok_mediumLit (b n0 : Nat) (rest : List Nat) (h1 : ¬ 0x10 ≤ b) (h2 : 0x08 ≤ b) :
    parseTok (b :: n0 :: rest) = parseLit (b * 256 + n0 - 0x0800 + 1) rest := by
  rw [parseTok]
  unfold parseOp
  rw [if_neg (by omega), if_neg (by omega), if_neg (by omega), if_neg (by omega),
    if_neg h1, if_pos h2]

theorem parseTok_longLit (n1 n0 : Nat) (rest : List Nat) :
    parseTok (7 :: n1 :: n0 :: rest) = parseLit (n1 * 256 + n0 + 1) rest := by
  rw [parseTok]
  unfold parseOp
  rw [if_neg (by omega), if_neg (by omega), if_neg (by omega),
    if_neg (by omega), if_neg (by omega), if_neg (by omega), if_pos rfl]
theorem parseLit_payload (input : List UInt8) (p n : Nat) (rest : List Nat) :
    parseLit n (payload input p n ++ rest) = some (Tok.lit (payload input p n), rest) := by
  have hl := payload_length input p n
  rw [parseLit, if_pos (by rw [List.length_append]; omega)]
  rw [List.take_left' hl, List.drop_left' hl]

theorem parseTok_literalBlock (input : List UInt8) (p n : Nat) (rest : List Nat)
    (h1 : 1 ≤ n) (h2 : n ≤ 65536) :
    parseTok (literalBlock input p n ++ rest) = some (Tok.lit (payload input p n), rest) := by
  rw [literalBlock, litPrefix, if_neg (by omega), List.append_assoc]
  by_cases ha : n ≤ 32
  · rw [if_pos ha]
    have e : (0x000020 + n - 1) % 256 = 31 + n := by omega
    rw [e, List.singleton_append, parseTok_shortLit _ _ (by omega) (by omega)]
    have e2 : 31 + n - 0x20 + 1 = n := by omega
    rw [e2]
    exact parseLit_payload input p n rest
  · rw [if_neg ha]
    by_cases hb : n ≤ 2048
    · rw [if_pos hb, shiftBytes_zero _ (by omega)]
      rw [List.cons_append, List.singleton_append,
        parseTok_mediumLit _ _ _ (by omega) (by omega)]
      have e2 : (0x000800 + n - 1) / 256 * 256 + (0x000800 + n - 1) % 256 - 0x0800 + 1 = n := by
        omega
      rw [e2]
      exact parseLit_payload input p n rest
    · rw [if_neg hb, shiftBytes_one _ (by omega)]
      have e0 : (0x070000 + n - 1) / 65536 = 7 := by omega
      rw [e0]
      rw [List.cons_append, List.cons_append, List.singleton_append, parseTok_longLit]
      have e2 : (0x070000 + n - 1) / 256 % 256 * 256 + (0x070000 + n - 1) % 256 + 1 = n := by
        omega
      rw [e2]
      exact parseLit_payload input p n rest

theorem parseTok_match (best : Nat) (dist : Int) (h3 : 3 ≤ best) (h4 : best ≤ 65536)
    (hd : 1 ≤ dist) (hnc : stb__nc stb__window best dist = true) :
    ∃ bytes, matchOpcode best dist = some (best, bytes) ∧
      ∀ rest, parseTok (bytes ++ rest) = some (Tok.mat best dist.toNat, rest) := by
  have hc := accepted_class best dist h3 h4 hnc
  obtain ⟨D, hD⟩ : ∃ D : Nat, dist = (D : Int) + 1 := ⟨(dist - 1).toNat, by omega⟩
  subst hD
  have eD : ((D : Int) + 1 - 1).toNat = D := by omega
  have eD2 : ((D : Int) + 1).toNat = D + 1 := by omega
  have eL : best - 1 + 1 = best := by omega
  rw [eD2]
  by_cases hs : best ≤ 128 ∧ (D : Int) + 1 ≤ 256
  · refine ⟨_, matchOpcode_short best _ h3 hs.1 hd hs.2, ?_⟩
    intro rest
    rw [eD, List.cons_append, List.singleton_append, parseTok_short _ _ _ (by omega)]
    have e : 0x80 + (best - 1) - 0x80 + 1 = best := by omega
    rw [e]
  · by_cases hm : 6 ≤ best ∧ best ≤ 256 ∧ (D : Int) + 1 ≤ 16384
    · refine ⟨_, matchOpcode_medium best _ hs hm.1 hm.2.1 hd hm.2.2, ?_⟩
      intro rest
      rw [eD, List.cons_append, List.cons_append, List.singleton_append,
        parseTok_medium _ _ _ _ (by omega) (by omega)]
      have e : (0x4000 + D) / 256 * 256 + (0x4000 + D) % 256 - 0x4000 + 1 = D + 1 := by omega
      rw [e, eL]
    · by_cases ha : 8 ≤ best ∧ best ≤ 256 ∧ (D : Int) + 1 ≤ 524288
      · refine ⟨_, matchOpcode_longA best _ hm ha.1 ha.2.1 hd ha.2.2, ?_⟩
        intro rest
        rw [eD, List.cons_append, List.cons_append, List.cons_append, List.singleton_append,
          parseTok_longA _ _ _ _ _ (by omega) (by omega)]
        have e : (0x180000 + D) / 65536 * 65536 + (0x180000 + D) / 256 % 256 * 256 +
            (0x180000 + D) % 256 - 0x180000 + 1 = D + 1 := by omega
        rw [e, eL]
      · have hb : 9 ≤ best ∧ (D : Int) + 1 ≤ 524288 := by omega
        refine ⟨_, matchOpcode_longB best _ ha hb.1 h4 hd hb.2, ?_⟩
        intro rest
        rw [eD, List.cons_append, List.cons_append, List.cons_append, List.cons_append,
          List.singleton_append, parseTok_longB _ _ _ _ _ _ (by omega) (by omega)]
        have e : (0x100000 + D) / 65536 * 65536 + (0x100000 + D) / 256 % 256 * 256 +
            (0x100000 + D) % 256 - 0x100000 + 1 = D + 1 := by omega
        have e2 : (best - 1) / 256 * 256 + (best - 1) % 256 + 1 = best := by omega
        rw [e, e2]
theorem parseLit_length (n : Nat) (rest : List Nat) (r : Tok × List Nat)
    (h : parseLit n rest = some r) : r.2.length ≤ rest.length := by
  unfold parseLit at h
  split_ifs at h
  cases h
  simp

theorem parseOp_length (b : Nat) (rest : List Nat) (r : Tok × List Nat)
    (h : parseOp b rest = some r) : r.2.length ≤ rest.length := by
  unfold parseOp at h
  split_ifs at h
  all_goals first
    | exact parseLit_length _ _ _ h
    | (split at h
       · first
         | (cases h; simp only [List.length_cons]; omega)
         | exact Nat.le_trans (parseLit_length _ _ _ h)
             (by simp only [List.length_cons]; omega)
       · cases h)

theorem decodeStream_nil (fuel : Nat) (dec : List Nat) : decodeStream fuel [] dec = some dec := by
  cases fuel <;> rfl

theorem decodeStream_cons (fuel b : Nat) (bs dec : List Nat) :
    decodeStream (fuel + 1) (b :: bs) dec =
      match parseTok (b :: bs) with
      | none => none
      | some r =>
        match applyTok dec r.1 with
        | none => none
        | some dec1 => decodeStream fuel r.2 dec1 := by
  rw [decodeStream]

theorem decodeStream_step (fuel : Nat) (bytes dec : List Nat) (r : Tok × List Nat)
    (dec1 : List Nat) (h1 : parseTok bytes = some r) (h2 : applyTok dec r.1 = some dec1) :
    decodeStream (fuel + 1) bytes dec = decodeStream fuel r.2 dec1 := by
  cases bytes with
  | nil => cases h1
  | cons b bs =>
    rw [decodeStream_cons, h1]
    simp only
    rw [h2]

theorem decodeStream_some (fuel b : Nat) (bs dec final : List Nat)
    (h : decodeStream (fuel + 1) (b :: bs) dec = some final) :
    ∃ r dec1, parseTok (b :: bs) = some r ∧ applyTok dec r.1 = some dec1 ∧
      decodeStream fuel r.2 dec1 = some final := by
  rw [decodeStream_cons] at h
  cases hp : parseTok (b :: bs) with
  | none => rw [hp] at h; cases h
  | some r =>
    rw [hp] at h
    simp only at h
    cases ha : applyTok dec r.1 with
    | none => rw [ha] at h; cases h
    | some dec1 =>
      rw [ha] at h
      exact ⟨r, dec1, rfl, ha, h⟩

theorem decodeStream_succ :
    ∀ (fuel : Nat) (bytes dec final : List Nat), decodeStream fuel bytes dec = some final →
      decodeStream (fuel + 1) bytes dec = some final := by
  intro fuel
  induction fuel with
  | zero =>
    intro bytes dec final h
    cases bytes with
    | nil => rw [decodeStream_nil] at h ⊢; exact h
    | cons b bs => rw [decodeStream] at h; cases h
  | succ fuel ih =>
    intro bytes dec final h
    cases bytes with
    | nil => rw [decodeStream_nil] at h ⊢; exact h
    | cons b bs =>
      obtain ⟨r, dec1, h1, h2, h3⟩ := decodeStream_some fuel b bs dec final h
      rw [decodeStream_step (fuel + 1) _ _ r dec1 h1 h2]
      exact ih _ _ _ h3

theorem decodeStream_mono (fuel k : Nat) (bytes dec final : List Nat)
    (h : decodeStream fuel bytes dec = some final) :
    decodeStream (fuel + k) bytes dec = some final := by
  induction k with
  | zero => exact h
  | succ k ih => exact decodeStream_succ _ _ _ _ ih

theorem decodeStream_length :
    ∀ (fuel : Nat) (bytes dec final : List Nat), decodeStream fuel bytes dec = some final →
      decodeStream bytes.length bytes dec = some final := by
  intro fuel
  induction fuel with
  | zero =>
    intro bytes dec final h
    cases bytes with
    | nil => exact h
    | cons b bs => rw [decodeStream] at h; cases h
  | succ fuel ih =>
    intro bytes dec final h
    cases bytes with
    | nil => rw [decodeStream_nil] at h ⊢; exact h
    | cons b bs =>
      obtain ⟨r, dec1, h1, h2, h3⟩ := decodeStream_some fuel b bs dec final h
      have hl : r.2.length ≤ bs.length := by
        rw [parseTok] at h1
        exact parseOp_length b bs r h1
      rw [List.length_cons, decodeStream_step bs.length _ _ r dec1 h1 h2]
      have h4 := decodeStream_mono r.2.length (bs.length - r.2.length) _ _ _ (ih _ _ _ h3)
      rw [Nat.add_sub_cancel' hl] at h4
      exact h4

theorem Decodes_nil (dec : List Nat) : Decodes [] dec dec := ⟨0, rfl⟩

theorem Decodes_step (bytes dec final : List Nat) (r : Tok × List Nat) (dec1 : List Nat)
    (h1 : parseTok bytes = some r) (h2 : applyTok dec r.1 = some dec1)
    (h3 : Decodes r.2 dec1 final) : Decodes bytes dec final := by
  obtain ⟨fuel, hf⟩ := h3
  exact ⟨fuel + 1, by rw [decodeStream_step fuel bytes dec r dec1 h1 h2]; exact hf⟩

theorem Decodes_literalBlock (input : List UInt8) (p n : Nat) (rest dec final : List Nat)
    (h1 : 1 ≤ n) (h2 : n ≤ 65536) (h : Decodes rest (dec ++ payload input p n) final) :
    Decodes (literalBlock input p n ++ rest) dec final :=
  Decodes_step _ dec final _ _ (parseTok_literalBlock input p n rest h1 h2) rfl h

theorem Decodes_fullBlocks (input : List UInt8) (rest final : List Nat) :
    ∀ (k p : Nat) (dec : List Nat),
      Decodes rest (dec ++ payload input p (65536 * k)) final →
      Decodes (fullBlocks input p k ++ rest) dec final := by
  intro k
  induction k with
  | zero =>
    intro p dec h
    have e : payload input p (65536 * 0) = [] := rfl
    rw [e, List.append_nil] at h
    exact h
  | succ k ih =>
    intro p dec h
    rw [fullBlocks, List.append_assoc]
    refine Decodes_literalBlock input p 65536 _ dec final (by omega) (Nat.le_refl _) ?_
    refine ih (p + 65536) _ ?_
    have e : 65536 * (k + 1) = 65536 + 65536 * k := by omega
    rw [e, payload_add, ← List.append_assoc] at h
    exact h

theorem Decodes_literalBytes (input : List UInt8) (p n : Nat) (rest dec final : List Nat)
    (h : Decodes rest (dec ++ payload input p n) final) :
    Decodes (literalBytes input p n ++ rest) dec final := by
  by_cases h0 : n = 0
  · subst h0
    rw [literalBytes_zero]
    have e : payload input p 0 = [] := rfl
    rw [e, List.append_nil] at h
    exact h
  · rw [literalBytes, List.append_assoc]
    refine Decodes_fullBlocks input _ final _ p dec ?_
    refine Decodes_literalBlock input _ _ rest _ final (by omega) (by omega) ?_
    rw [List.append_assoc, ← payload_add]
    have e : 65536 * ((n - 1) / 65536) + (n - 65536 * ((n - 1) / 65536)) = n := by omega
    rw [e]
    exact h
theorem payload_zero_append (input : List UInt8) (a b : Nat) :
    payload input 0 a ++ payload input a b = payload input 0 (a + b) := by
  rw [payload_add, Nat.zero_add]

theorem opsBytes_pair (input : List UInt8) (p n best : Nat) (dist : Int) (r : Nat × List Nat)
    (hr : matchOpcode best dist = some r) :
    opsBytes input [Op.lit p n, Op.mat best dist] = literalBytes input p n ++ r.2 := by
  simp [opsBytes, opBytes, hr]

theorem Decodes_match (input : List UInt8) (endp : Nat) (cHash : Nat → Option Nat)
    (mask q : Nat) (hT : TableBefore cHash q) (r : Nat × List Nat)
    (hr : matchOpcode (findBest input endp cHash mask q).1
      (findBest input endp cHash mask q).2 = some r)
    (rest final : List Nat) (h : Decodes rest (payload input 0 (q + r.1)) final) :
    Decodes (r.2 ++ rest) (payload input 0 q) final := by
  have h3 : 3 ≤ (findBest input endp cHash mask q).1 := by
    have := matchOpcode_some _ _ r hr
    omega
  obtain ⟨h65, hd, hnc⟩ := findBest_accepted input endp cHash mask q hT h3
  obtain ⟨bytes, hb, hparse⟩ := parseTok_match _ _ h3 h65 hd hnc
  rw [hb] at hr
  cases hr
  rcases findBest_retained input endp cHash mask q with h2 | ⟨hh, t, hc, hdist, hbest, _, _⟩
  · have := congrArg Prod.fst h2
    simp only at this
    omega
  · have ht : t < q := hT hh t hc
    have e : (findBest input endp cHash mask q).2.toNat = q - t := by omega
    refine Decodes_step _ _ final _ (payload input 0 (q + (findBest input endp cHash mask q).1))
      (hparse rest) ?_ h
    show applyTok _ (Tok.mat _ _) = _
    rw [applyTok, e, if_pos (by rw [payload_length]; omega)]
    have hcopy := copyMatch_payload input t q ht (findBest input endp cHash mask q).1 0
      (fun j _ hj => matchLength_agree input t q (matchMax endp q) j (by rw [← hbest]; omega))
    rw [Nat.add_zero] at hcopy
    rw [hcopy]

theorem chunkOps_decodes (input : List UInt8) (start endp : Nat) (length : Int) (mask : Nat)
    (rest final : List Nat) :
    ∀ (fuel : Nat) (s : ChunkState), TableBefore s.cHash s.q → s.lit_start ≤ s.q →
      Decodes rest
        (payload input 0 (chunkLoop input start endp length mask fuel s).lit_start) final →
      Decodes (opsBytes input (chunkOps input start endp length mask fuel s) ++ rest)
        (payload input 0 s.lit_start) final := by
  intro fuel
  induction fuel with
  | zero =>
    intro s _ _ h
    exact h
  | succ fuel ih =>
    intro s hT hl h
    by_cases hg : (s.q : Int) < (start : Int) + length ∧ s.q + 12 < endp
    · rw [chunkLoop_pos _ _ _ _ _ _ _ hg] at h
      rw [chunkOps_pos _ _ _ _ _ _ _ hg, opsBytes_append, List.append_assoc]
      have hT1 := chunkBody_tableBefore input endp mask s hT
      have hb1 := chunkBody_bounds input endp mask s hl hg.2
      have ih1 := ih (chunkBody input endp mask s) hT1 hb1.1 h
      have hls := chunkBody_lit_start input endp mask s
      cases hr : matchOpcode (findBest input endp s.cHash mask s.q).1
          (findBest input endp s.cHash mask s.q).2 with
      | none =>
        rw [hr] at hls
        simp only at hls
        rw [hls] at ih1
        exact ih1
      | some r =>
        rw [hr] at hls
        simp only at hls
        rw [hls] at ih1
        simp only
        rw [opsBytes_pair input _ _ _ _ r hr, List.append_assoc]
        refine Decodes_literalBytes input _ _ _ _ final ?_
        rw [payload_zero_append, Nat.add_sub_cancel' hl]
        exact Decodes_match input endp s.cHash mask s.q hT r hr _ final ih1
    · rw [chunkLoop_neg _ _ _ _ _ _ _ hg] at h
      rw [chunkOps_neg _ _ _ _ _ _ _ hg]
      exact h

theorem compressOps_decodes (g : Globals) (input : List UInt8)
    (h : input.length < 2147483648) :
    Decodes (opsBytes input (compressOps g input)) [] (input.map UInt8.toNat) := by
  have hlen : len32 input = input.length := len32_eq input (by omega)
  have hq : scanQ g input = input.length := by
    rw [scanQ_eq, hlen, if_pos h]
  have hb := scanEnd_bounds g input
  rw [hlen] at hb
  rw [compressOps, opsBytes_append, hq, hlen]
  have e : input.length - (input.length - (scanEnd g input).lit_start) =
      (scanEnd g input).lit_start := by omega
  rw [e]
  have hT : TableBefore (scanStart g input).cHash (scanStart g input).q := by
    intro hh t ht
    cases ht
  have hmain := chunkOps_decodes input 0 input.length (toInt32 input.length) (stb__hashsize - 1)
    (opsBytes input [Op.lit (scanEnd g input).lit_start
      (input.length - (scanEnd g input).lit_start)]) (input.map UInt8.toNat)
    (toInt32 input.length).toNat (scanStart g input) hT (Nat.le_refl _)
  refine hmain ?_
  have e2 : opsBytes input [Op.lit (scanEnd g input).lit_start
      (input.length - (scanEnd g input).lit_start)] =
      literalBytes input (scanEnd g input).lit_start
        (input.length - (scanEnd g input).lit_start) ++ [] := by
    simp [opsBytes, opBytes]
  rw [e2]
  refine Decodes_literalBytes input _ _ [] _ _ ?_
  have e3 : chunkLoop input 0 input.length (toInt32 input.length) (stb__hashsize - 1)
      (toInt32 input.length).toNat (scanStart g input) = scanEnd g input := by
    rw [scanEnd, hlen]
  rw [e3, payload_zero_append, Nat.add_sub_cancel' (by omega), payload_whole]
  exact Decodes_nil _
theorem opStarts_append_lit (p : Nat) (a : List Op) (pos n : Nat) (x : Nat × Op)
    (hx : x ∈ opStarts p (a ++ [Op.lit pos n])) :
    x ∈ opStarts p a ∨ ∃ p1, x = (p1, Op.lit pos n) := by
  induction a generalizing p with
  | nil =>
    simp only [List.nil_append, opStarts, List.mem_singleton] at hx
    exact Or.inr ⟨p, hx⟩
  | cons op a ih =>
    rw [List.cons_append, opStarts, List.mem_cons] at hx
    rcases hx with hx | hx
    · exact Or.inl (by rw [opStarts, hx]; exact List.mem_cons_self _ _)
    · rcases ih _ hx with h | h
      · exact Or.inl (by rw [opStarts]; exact List.mem_cons_of_mem _ h)
      · exact Or.inr h

theorem advance_some (best : Nat) (dist : Int) (r : Nat × List Nat)
    (hr : matchOpcode best dist = some r) : advance best dist = r.1 := by
  rw [advance, hr]

theorem chunkOps_starts (input : List UInt8) (start endp : Nat) (length : Int) (mask : Nat) :
    ∀ (fuel : Nat) (s : ChunkState), TableBefore s.cHash s.q → s.lit_start ≤ s.q →
      ∀ x ∈ opStarts s.lit_start (chunkOps input start endp length mask fuel s),
        ∀ (best : Nat) (dist : Int), x.2 = Op.mat best dist →
          x.1 + 12 < endp ∧ 1 ≤ dist ∧ dist ≤ (x.1 : Int) ∧ x.1 + advance best dist ≤ endp := by
  intro fuel
  induction fuel with
  | zero =>
    intro s _ _ x hx
    simp [chunkOps, opStarts] at hx
  | succ fuel ih =>
    intro s hT hl x hx best dist hbd
    by_cases hg : (s.q : Int) < (start : Int) + length ∧ s.q + 12 < endp
    · rw [chunkOps_pos _ _ _ _ _ _ _ hg] at hx
      have hT1 := chunkBody_tableBefore input endp mask s hT
      have hb1 := chunkBody_bounds input endp mask s hl hg.2
      have ih1 := ih (chunkBody input endp mask s) hT1 hb1.1
      have hls := chunkBody_lit_start input endp mask s
      have hq := chunkBody_q input endp mask s
      cases hr : matchOpcode (findBest input endp s.cHash mask s.q).1
          (findBest input endp s.cHash mask s.q).2 with
      | none =>
        rw [hr] at hls hx
        simp only [List.nil_append] at hls hx
        rw [hls] at ih1
        exact ih1 x hx best dist hbd
      | some r =>
        rw [hr] at hls hx
        have hadv := advance_some _ _ r hr
        simp only [List.cons_append, List.nil_append, opStarts, opLen, List.mem_cons] at hls hx
        rcases hx with hx | hx | hx
        · rw [hx] at hbd
          cases hbd
        · rw [hx] at hbd ⊢
          simp only [Op.mat.injEq] at hbd
          obtain ⟨hb, hd⟩ := hbd
          subst hb
          subst hd
          have h3 : 3 ≤ (findBest input endp s.cHash mask s.q).1 := by
            have := matchOpcode_some _ _ r hr
            omega
          obtain ⟨_, hd1, _⟩ := findBest_accepted input endp s.cHash mask s.q hT h3
          have hdq : (findBest input endp s.cHash mask s.q).2 ≤ (s.q : Int) := by
            rcases findBest_retained input endp s.cHash mask s.q with
              h2 | ⟨_, t, _, hdist, _, _, _⟩
            · have := congrArg Prod.fst h2
              simp only at this
              omega
            · omega
          have e : s.lit_start + (s.q - s.lit_start) = s.q := by omega
          simp only
          rw [e]
          refine ⟨hg.2, hd1, hdq, ?_⟩
          rw [← hq]
          exact hb1.2
        · have e : s.lit_start + (s.q - s.lit_start) +
              advance (findBest input endp s.cHash mask s.q).1
                (findBest input endp s.cHash mask s.q).2 = s.q + r.1 := by
            rw [hadv]; omega
          rw [e, ← hls] at hx
          exact ih1 x hx best dist hbd
    · rw [chunkOps_neg _ _ _ _ _ _ _ hg] at hx
      simp [opStarts] at hx

theorem compressOps_starts (g : Globals) (input : List UInt8) :
    ∀ x ∈ opStarts 0 (compressOps g input), ∀ (best : Nat) (dist : Int),
      x.2 = Op.mat best dist →
        x.1 + 12 < len32 input ∧ 1 ≤ dist ∧ dist ≤ (x.1 : Int) ∧
          x.1 + advance best dist ≤ len32 input := by
  intro x hx best dist hbd
  rw [compressOps] at hx
  rcases opStarts_append_lit 0 _ _ _ x hx with h | ⟨p1, h⟩
  · have hT : TableBefore (scanStart g input).cHash (scanStart g input).q := by
      intro hh t ht
      cases ht
    exact chunkOps_starts input 0 (len32 input) (toInt32 (len32 input)) (stb__hashsize - 1)
      (toInt32 (len32 input)).toNat (scanStart g input) hT (Nat.le_refl _) x h best dist hbd
  · rw [h] at hbd
    cases hbd

theorem headerLength_append (n : Nat) (h : n < 4294967296) (rest : List Nat) :
    headerLength (headerBytes n ++ rest) = n := by
  rw [headerBytes_eq n h]
  simp only [headerLength, List.cons_append, List.nil_append, List.getD_cons_succ,
    List.getD_cons_zero]
  omega
/-- C14: for every input of length below 2^31 the output of `compress` is the
header, the opcode stream and the trailer (the end marker `05 FA`, then the
checksum), and the decoder, run on the opcode stream from no decoded bytes,
returns exactly the bytes of the input. The decoder appends the payload of
each literal opcode and, for a match of length `L` and distance `D`, `L` bytes
copied one at a time from `D` positions back; it refuses a match whose
distance exceeds the number of bytes decoded so far. Every match opcode has a
distance of at least 1 and at most the input position at which it starts, and
the decoded length is the value of the length field of the header. -/
theorem compress_roundtrip (g : Globals) (input : List UInt8)
    (h : input.length < 2147483648) :
    (compress g input).1.out =
        headerBytes input.length ++ opsBytes input (compressOps g input) ++
          trailerBytes (adler32 1 input input.length) ∧
      decodeStream (opsBytes input (compressOps g input)).length
          (opsBytes input (compressOps g input)) [] = some (input.map UInt8.toNat) ∧
      (∀ x ∈ opStarts 0 (compressOps g input), ∀ (best : Nat) (dist : Int),
          x.2 = Op.mat best dist → 1 ≤ dist ∧ dist ≤ (x.1 : Int)) ∧
      headerLength (compress g input).1.out = (input.map UInt8.toNat).length := by
  have hout := compress_checksum g input h
  refine ⟨hout, ?_, ?_, ?_⟩
  · obtain ⟨fuel, hf⟩ := compressOps_decodes g input h
    exact decodeStream_length fuel _ _ _ hf
  · intro x hx best dist hbd
    have := compressOps_starts g input x hx best dist hbd
    exact ⟨this.2.1, this.2.2.1⟩
  · rw [hout, List.append_assoc, headerLength_append _ (by omega), List.length_map]

set_option maxRecDepth 100000 in
theorem compress_roundtrip_witness :
    ([65, 66, 67, 65, 66, 67, 65, 66, 67, 65, 66, 67, 65, 66, 67, 65, 66, 67] : List UInt8).length
        < 2147483648 ∧
      decodeStream
          (opsBytes [65, 66, 67, 65, 66, 67, 65, 66, 67, 65, 66, 67, 65, 66, 67, 65, 66, 67]
            (compressOps ⟨[], 0, 0⟩
              [65, 66, 67, 65, 66, 67, 65, 66, 67, 65, 66, 67, 65, 66, 67, 65, 66, 67])).length
          (opsBytes [65, 66, 67, 65, 66, 67, 65, 66, 67, 65, 66, 67, 65, 66, 67, 65, 66, 67]
            (compressOps ⟨[], 0, 0⟩
              [65, 66, 67, 65, 66, 67, 65, 66, 67, 65, 66, 67, 65, 66, 67, 65, 66, 67])) [] =
        some (([65, 66, 67, 65, 66, 67, 65, 66, 67, 65, 66, 67, 65, 66, 67, 65, 66, 67] :
          List UInt8).map UInt8.toNat) :=
  ⟨by decide, (compress_roundtrip ⟨[], 0, 0⟩
    [65, 66, 67, 65, 66, 67, 65, 66, 67, 65, 66, 67, 65, 66, 67, 65, 66, 67] (by decide)).2.1⟩

/-! ## The last bytes of the input -/

set_option maxRecDepth 100000 in
/-- C17 (as stated) fails: for the 68 bytes made of 17 repetitions of `ABCD`
the output of `compress` holds, after the header, a literal run of 4 bytes
(`23 41 42 43 44`) and the match opcode `BF 03` of length 64 and distance 4;
the match starts at input position 4 and stands for 64 bytes, so it covers the
positions 4 to 67, among them all of the last 12 bytes (56 to 67). -/
theorem match_covers_last_bytes :
    12 ≤ ((List.replicate 17 [65, 66, 67, 68]).flatten : List UInt8).length ∧
    (compress ⟨[], 0, 0⟩ (List.replicate 17 [65, 66, 67, 68]).flatten).1.out =
      [0x57, 0xBC, 0, 0, 0, 0, 0, 0, 0, 0, 0, 68, 0, 4, 0, 0,
        0x23, 65, 66, 67, 68, 0xBF, 0x03, 0x05, 0xFA, 0x61, 0x76, 0x11, 0xAB] ∧
    (compress ⟨[], 0, 0⟩ (List.replicate 17 [65, 66, 67, 68]).flatten).1.out =
      headerBytes (len32 (List.replicate 17 [65, 66, 67, 68]).flatten) ++
        opsBytes (List.replicate 17 [65, 66, 67, 68]).flatten
          (compressOps ⟨[], 0, 0⟩ (List.replicate 17 [65, 66, 67, 68]).flatten) ++
        trailerBytes (adler32 1 (List.replicate 17 [65, 66, 67, 68]).flatten
          (toUInt32 (scanQ ⟨[], 0, 0⟩ (List.replicate 17 [65, 66, 67, 68]).flatten))) ∧
    opStarts 0 (compressOps ⟨[], 0, 0⟩ (List.replicate 17 [65, 66, 67, 68]).flatten) =
      [(0, Op.lit 0 4), (4, Op.mat 64 4), (68, Op.lit 68 0)] ∧
    opBytes (List.replicate 17 [65, 66, 67, 68]).flatten (Op.mat 64 4) = [0xBF, 0x03] ∧
    opLen (Op.mat 64 4) = 64 ∧
    ¬ (∀ x ∈ opStarts 0 (compressOps ⟨[], 0, 0⟩ (List.replicate 17 [65, 66, 67, 68]).flatten),
        ∀ (best : Nat) (dist : Int), x.2 = Op.mat best dist →
          x.1 + opLen x.2 ≤
            ((List.replicate 17 [65, 66, 67, 68]).flatten : List UInt8).length - 12) := by
  have h1 : opStarts 0 (compressOps ⟨[], 0, 0⟩ (List.replicate 17 [65, 66, 67, 68]).flatten) =
      [(0, Op.lit 0 4), (4, Op.mat 64 4), (68, Op.lit 68 0)] := by
    rw [compress_abcd_ops]
    decide
  have h2 : opLen (Op.mat 64 4) = 64 := by decide
  refine ⟨by decide, compress_abcd_out, compress_out _ _, h1, by decide, h2, ?_⟩
  intro hall
  have := hall (4, Op.mat 64 4) (by rw [h1]; decide) 64 4 rfl
  simp only [h2] at this
  revert this
  decide

/-- C17 (amended): the output of `compress` is the header, the bytes of its
opcodes and the trailer, and every match opcode among them starts at an input
position that has more than 12 input bytes from it to the end of the input,
while the bytes it stands for end within the input. The scanning loop runs its
body only at a cursor `q` with `q + 12 < n`. The last 12 bytes are therefore
never the start of a match; they are covered by a match that started earlier
or stored as literals. -/
theorem match_starts_before_tail (g : Globals) (input : List UInt8) :
    (compress g input).1.out =
        headerBytes (len32 input) ++ opsBytes input (compressOps g input) ++
          trailerBytes (adler32 1 input (toUInt32 (scanQ g input))) ∧
      (∀ k : Nat, scanAt g input (k + 1) ≠ scanAt g input k →
        (scanAt g input k).q + 12 < input.length) ∧
      ∀ x ∈ opStarts 0 (compressOps g input), ∀ (best : Nat) (dist : Int),
        x.2 = Op.mat best dist →
          x.1 + 12 < input.length ∧ x.1 + opLen x.2 ≤ input.length := by
  have hl := len32_le input
  refine ⟨compress_out g input, ?_, ?_⟩
  · intro k hk
    have := (scanAt_succ g input k hk).1
    omega
  · intro x hx best dist hbd
    have h := compressOps_starts g input x hx best dist hbd
    rw [hbd, opLen]
    exact ⟨by omega, by omega⟩

set_option maxRecDepth 100000 in
theorem match_starts_before_tail_witness :
    (4, Op.mat 64 4) ∈
        opStarts 0 (compressOps ⟨[], 0, 0⟩ (List.replicate 17 [65, 66, 67, 68]).flatten) ∧
      4 + 12 < ((List.replicate 17 [65, 66, 67, 68]).flatten : List UInt8).length ∧
      4 + opLen (Op.mat 64 4) ≤
        ((List.replicate 17 [65, 66, 67, 68]).flatten : List UInt8).length :=
  ⟨by rw [compress_abcd_ops]; decide,
    (match_starts_before_tail ⟨[], 0, 0⟩ (List.replicate 17 [65, 66, 67, 68]).flatten).2.2
      (4, Op.mat 64 4) (by rw [compress_abcd_ops]; decide) 64 4 rfl⟩

end stb
